import Mathlib

/-!
# geopath: shortest path along a network of line segments

A shallow embedding of `path.go` (package `geopath`) and theorems about it.

Modelling conventions.

* `float64` values are modelled by rationals.  The division and the product of
  the quantizer are rounded to `float64` as IEEE 754 does (`f64`); the sums of
  distances in the search are taken as exact.  Infinities and NaN are outside
  the model.  `math.MaxFloat64` is the rational `2^1024 - 2^971`.
* `calcDist` (the haversine metric, built from `math.Sin`, `math.Cos`,
  `math.Atan2`, `math.Sqrt`) has no exact rational counterpart, so every
  function that calls it takes the metric as its argument `calcDist`.
* Go `int` indices are integers; indexing a slice out of range is a runtime
  panic, modelled by `Run.panic`.
* Loops that need not terminate take a step budget; `Run.outOfFuel` says the
  budget ran out.
* Library code (`math.Round`, `slices.SortFunc`, `slices.Compact`,
  `container/heap`) is modelled from its documented behaviour and source.
-/

namespace Geopath

/-! ## Data model -/

/-- The type `longLat = [2]float64`: a (longitude, latitude) pair. -/
abbrev LongLat := ℚ × ℚ

/-- The type `path = [2]longLat`: one line segment. -/
abbrev Path := LongLat × LongLat

/-- The constant `math.MaxFloat64`. -/
def maxFloat64 : ℚ := 2 ^ 1024 - 2 ^ 971

/-- The package errors `ErrNoPath` and `ErrGeoJSONParse`. -/
inductive GoError where
  | ErrNoPath
  | ErrGeoJSONParse
  deriving DecidableEq, Repr

/-- The three results `(path, dist, err)` of `FindShortestPath`; a nil slice is
the empty list and a nil error is `none`. -/
structure Ret where
  path : List LongLat
  dist : ℚ
  err : Option GoError
  deriving DecidableEq, Repr

/-- How a run of Go code ends: a normal return, a runtime panic (index out of
range), or the step budget of the model running out. -/
inductive Run (α : Type) where
  | done (a : α)
  | panic
  | outOfFuel
  deriving DecidableEq, Repr

/-- The struct `edge`: a frontier entry. -/
structure edge where
  efrom : Int
  eto : Int
  dist : ℚ
  deriving DecidableEq, Repr

/-- The type `visitHeap = []edge`. -/
abbrev visitHeap := List edge

/-! ## Slice access with Go's bounds check -/

/-- The read `s[i]` for an `int` index: `none` is the out-of-range panic. -/
def getAt {α : Type} (s : List α) (i : Int) : Option α :=
  if i < 0 then none else s[i.toNat]?

/-- The write `s[i] = a` for an `int` index: `none` is the out-of-range panic. -/
def setAt {α : Type} (s : List α) (i : Int) (a : α) : Option (List α) :=
  if 0 ≤ i ∧ i.toNat < s.length then some (s.set i.toNat a) else none

/-! ## Coordinate quantizer -/

/-- The function `math.Round`: the nearest integer, halves rounded away from
zero. -/
def mathRound (x : ℚ) : ℚ :=
  if x < 0 then -((Rat.floor (-x + 1 / 2) : ℤ) : ℚ) else ((Rat.floor (x + 1 / 2) : ℤ) : ℚ)

/-- The power `2^k` for an integer exponent `k`. -/
def pow2 (k : Int) : ℚ :=
  if 0 ≤ k then ((2 ^ k.toNat : Nat) : ℚ) else 1 / ((2 ^ (-k).toNat : Nat) : ℚ)

/-- The number of times `n` can be halved before it is below 2, that is
`floor(log2 n)` for `n > 0`; `fuel` bounds the number of steps. -/
def log2Aux : Nat → Nat → Nat
  | 0, _ => 0
  | fuel + 1, n => if n < 2 then 0 else log2Aux fuel (n / 2) + 1

/-- The binary exponent of a rational `q` other than 0: the `e` with
`2^e ≤ |q| < 2^(e+1)`. -/
def ilog2 (q : ℚ) : Int :=
  let e0 : Int := (log2Aux q.num.natAbs q.num.natAbs : Int) - (log2Aux q.den q.den : Int)
  if pow2 e0 ≤ |q| then e0 else e0 - 1

/-- Rounding to the nearest integer, a tie to the even one: the rounding of
IEEE 754 arithmetic. -/
def roundHalfEven (s : ℚ) : Int :=
  let f := Rat.floor s
  let r := s - f
  if r < 1 / 2 then f else if 1 / 2 < r then f + 1 else if f % 2 = 0 then f else f + 1

/-- The `float64` that a `float64` operation with the exact result `q` returns:
`q` rounded to 53 significant bits (to a multiple of `2^-1074` in the subnormal
range), to the nearest such value and in a tie to the one with an even
significand.  Results of magnitude `2^1024` and more, for which `float64` has
an infinity, are outside the model. -/
def f64 (q : ℚ) : ℚ :=
  if q = 0 then 0
  else
    let k := max (ilog2 q) (-1022) - 52
    (roundHalfEven (q / pow2 k) : ℚ) * pow2 k

/-- The closure `round` of `FindShortestPath`: the `float64` division
`x / precision`, `math.Round`, which is exact, and the `float64` product with
`precision`, on both coordinates. -/
def round (precision : ℚ) (x : LongLat) : LongLat :=
  (f64 (mathRound (f64 (x.1 / precision)) * precision),
    f64 (mathRound (f64 (x.2 / precision)) * precision))

/-- The loop that rounds both endpoints of every segment. -/
def roundPaths (precision : ℚ) (paths : List Path) : List Path :=
  paths.map fun p => (round precision p.1, round precision p.2)

/-! ## Duplicate removal: `slices.SortFunc` and `slices.Compact` -/

/-- The comparison closure passed to `slices.SortFunc`. -/
def less (a b : Path) : Bool :=
  if a.1.1 = b.2.1 then decide (a.1.2 < b.2.2) else decide (a.1.1 < b.2.1)

/-- The inner loop of `insertionSortLessFunc`: `x` is `data[j]`, and `revPrefix`
is `data[j-1], data[j-2], ..., data[a]`; `x` moves left while
`less(data[j], data[j-1])`.  The result is the new prefix in slice order. -/
def insertLeft (lt : Path → Path → Bool) (x : Path) : List Path → List Path
  | [] => [x]
  | y :: revPrefix => if lt x y then insertLeft lt x revPrefix ++ [y] else (y :: revPrefix).reverse ++ [x]

/-- The outer loop of `insertionSortLessFunc`: `sorted` is the prefix already
processed, `rest` the elements still to insert. -/
def insertionLoop (lt : Path → Path → Bool) : List Path → List Path → List Path
  | sorted, [] => sorted
  | sorted, x :: rest => insertionLoop lt (insertLeft lt x sorted.reverse) rest

/-- The function `insertionSortLessFunc` of `golang.org/x/exp/slices`, on a whole
slice; `pdqsortLessFunc` runs exactly this on slices of at most 12 elements. -/
def insertionSortLessFunc (lt : Path → Path → Bool) (data : List Path) : List Path :=
  insertionLoop lt [] data

/-- What is assumed of `slices.SortFunc` (pattern-defeating quicksort): it only
swaps elements, so the result is a permutation of the input, and on a slice of
at most 12 elements it is `insertionSortLessFunc`. -/
def IsSortFunc (sortFunc : (Path → Path → Bool) → List Path → List Path) : Prop :=
  (∀ lt l, (sortFunc lt l).Perm l) ∧
  (∀ lt l, l.length ≤ 12 → sortFunc lt l = insertionSortLessFunc lt l)

/-- The loop of `slices.Compact` after `last := s[0]`: the elements kept from
`s[1:]`, each one differing from the element kept before it. -/
def compactFrom (last : Path) : List Path → List Path
  | [] => []
  | v :: rest => if v ≠ last then v :: compactFrom v rest else compactFrom last rest

/-- The slice `s[:i]` that `slices.Compact` returns. -/
def compactKept (s : List Path) : List Path :=
  match s with
  | [] => []
  | first :: rest => first :: compactFrom first rest

/-- The contents of the slice `s` itself after `slices.Compact(s)`: the kept
elements are written to the front and the elements behind them stay as they
were (this version of the library does not clear the tail).  `FindShortestPath`
discards the slice that `Compact` returns and goes on with this one. -/
def slicesCompact (s : List Path) : List Path :=
  compactKept s ++ s.drop (compactKept s).length

/-! ## Node assignment -/

/-- The map read `pointIdx[p]`: the zero value for a missing key. -/
def mapGet (pointIdx : List (LongLat × Int)) (p : LongLat) : Int :=
  match pointIdx.lookup p with
  | some i => i
  | none => 0

/-- The closure `addPoint`; the state is the map `pointIdx` and the slice
`points`. -/
def addPoint (st : List (LongLat × Int) × List LongLat) (p : LongLat) :
    List (LongLat × Int) × List LongLat :=
  match st.1.lookup p with
  | some _ => st
  | none => ((p, (st.2.length : Int)) :: st.1, st.2 ++ [p])

/-- The loop `for _, path := range paths { addPoint(path[0]); addPoint(path[1]) }`. -/
def addPoints (paths : List Path) : List (LongLat × Int) × List LongLat :=
  paths.foldl (fun st path => addPoint (addPoint st path.1) path.2) ([], [])

/-! ## Nearest point scan -/

/-- The state of the scan: `startIdx, startDist, endIdx, endDist`. -/
structure Nearest where
  startIdx : Int
  startDist : ℚ
  endIdx : Int
  endDist : ℚ
  deriving DecidableEq, Repr

/-- One iteration of `for i, p := range points`. -/
def nearestStep (calcDist : LongLat → LongLat → ℚ) (startLongLat endLongLat : LongLat)
    (st : Nearest) (i : Int) (p : LongLat) : Nearest :=
  let st1 := if calcDist p startLongLat < st.startDist then
    { st with startDist := calcDist p startLongLat, startIdx := i } else st
  if calcDist p endLongLat < st1.endDist then
    { st1 with endDist := calcDist p endLongLat, endIdx := i } else st1

/-- The scan over `points[i:]`. -/
def nearestLoop (calcDist : LongLat → LongLat → ℚ) (startLongLat endLongLat : LongLat) :
    Int → List LongLat → Nearest → Nearest
  | _, [], st => st
  | i, p :: rest, st =>
    nearestLoop calcDist startLongLat endLongLat (i + 1) rest
      (nearestStep calcDist startLongLat endLongLat st i p)

/-- The whole scan, from `startIdx, startDist := -1, math.MaxFloat64` and the
same for the end. -/
def nearest (calcDist : LongLat → LongLat → ℚ) (points : List LongLat)
    (startLongLat endLongLat : LongLat) : Nearest :=
  nearestLoop calcDist startLongLat endLongLat 0 points ⟨-1, maxFloat64, -1, maxFloat64⟩

/-! ## Adjacency lists -/

/-- The statement `s[i] = append(s[i], a)`. -/
def appendAt {α : Type} (s : List (List α)) (i : Int) (a : α) : Option (List (List α)) :=
  match getAt s i with
  | some row => setAt s i (row ++ [a])
  | none => none

/-- One iteration of the adjacency loop; the state is `(adj, adjDist)`. -/
def adjStep (calcDist : LongLat → LongLat → ℚ) (pointIdx : List (LongLat × Int))
    (st : List (List Int) × List (List ℚ)) (path : Path) :
    Option (List (List Int) × List (List ℚ)) :=
  let p1 := mapGet pointIdx path.1
  let p2 := mapGet pointIdx path.2
  let d := calcDist path.1 path.2
  match appendAt st.2 p1 d with
  | none => none
  | some adjDist1 =>
    match appendAt adjDist1 p2 d with
    | none => none
    | some adjDist2 =>
      match appendAt st.1 p1 p2 with
      | none => none
      | some adj1 =>
        match appendAt adj1 p2 p1 with
        | none => none
        | some adj2 => some (adj2, adjDist2)

/-- The adjacency loop over the remaining `paths`. -/
def adjLoop (calcDist : LongLat → LongLat → ℚ) (pointIdx : List (LongLat × Int)) :
    List Path → List (List Int) × List (List ℚ) → Option (List (List Int) × List (List ℚ))
  | [], st => some st
  | path :: rest, st =>
    match adjStep calcDist pointIdx st path with
    | none => none
    | some st1 => adjLoop calcDist pointIdx rest st1

/-- The block "Create adj list": `adj` and `adjDist` start as `npoint` empty
rows. -/
def buildAdj (calcDist : LongLat → LongLat → ℚ) (pointIdx : List (LongLat × Int))
    (npoint : Nat) (paths : List Path) : Option (List (List Int) × List (List ℚ)) :=
  adjLoop calcDist pointIdx paths (List.replicate npoint [], List.replicate npoint [])

/-! ## The frontier: `visitHeap` under `container/heap` -/

/-- The method `visitHeap.Less`. -/
def visitHeap.Less (h : visitHeap) (i j : Nat) : Bool :=
  match h[i]?, h[j]? with
  | some a, some b => decide (a.dist < b.dist)
  | _, _ => false

/-- The method `visitHeap.Swap`. -/
def visitHeap.Swap (h : visitHeap) (i j : Nat) : visitHeap :=
  match h[i]?, h[j]? with
  | some a, some b => (h.set i b).set j a
  | _, _ => h

/-- The function `up` of `container/heap`.  The parent `(j - 1) / 2` of `j = 0`
is `0` in Go (division truncates) as it is here.  The first argument bounds the
number of iterations; `j + 1` is always enough, since `j` decreases. -/
def heapUp : Nat → visitHeap → Nat → visitHeap
  | 0, h, _ => h
  | fuel + 1, h, j =>
    let i := (j - 1) / 2
    if i = j ∨ visitHeap.Less h j i = false then h
    else heapUp fuel (visitHeap.Swap h i j) i

/-- The function `down` of `container/heap`.  The first argument bounds the
number of iterations; `n` is always enough, since `i` increases. -/
def heapDown : Nat → visitHeap → Nat → Nat → visitHeap
  | 0, h, _, _ => h
  | fuel + 1, h, i, n =>
    let j1 := 2 * i + 1
    if n ≤ j1 then h
    else
      let j := if j1 + 1 < n ∧ visitHeap.Less h (j1 + 1) j1 = true then j1 + 1 else j1
      if visitHeap.Less h j i = false then h
      else heapDown fuel (visitHeap.Swap h i j) j n

/-- The function `heap.Push`: `visitHeap.Push` appends, then `up` from the last
index. -/
def heapPush (h : visitHeap) (x : edge) : visitHeap :=
  heapUp (h.length + 1) (h ++ [x]) h.length

/-- The function `heap.Pop` on a heap that is not empty: swap the root with the
last element, `down` from the root over the first `n` elements, then
`visitHeap.Pop` cuts the last element off and returns it.  `none` stands for
the empty heap, on which the caller `for len(h) > 0` never calls it. -/
def heapPop (h : visitHeap) : Option (edge × visitHeap) :=
  let n := h.length - 1
  let h2 := heapDown n (visitHeap.Swap h 0 n) 0 n
  match h2.getLast? with
  | some x => some (x, h2.dropLast)
  | none => none

/-! ## Dijkstra's loop -/

/-- The inner loop `for i, nei := range adj[x.to]`, from index `i` on; the state
is the heap and `dists`. -/
def relaxLoop (adjDist : List (List ℚ)) (x : edge) :
    Nat → List Int → visitHeap → List ℚ → Option (visitHeap × List ℚ)
  | _, [], h, dists => some (h, dists)
  | i, nei :: rest, h, dists =>
    match (getAt adjDist x.eto).bind (fun row => row[i]?) with
    | none => none
    | some w =>
      match getAt dists nei with
      | none => none
      | some dn =>
        if x.dist + w ≥ dn then relaxLoop adjDist x (i + 1) rest h dists
        else
          match setAt dists nei (x.dist + w) with
          | none => none
          | some dists1 =>
            relaxLoop adjDist x (i + 1) rest (heapPush h ⟨x.eto, nei, x.dist + w⟩) dists1

/-- The loop `for len(h) > 0`; the result is `(dists, parent)` when the loop
ends, by the heap running empty or by `break`. -/
def dijkstraLoop (adj : List (List Int)) (adjDist : List (List ℚ)) (endIdx : Int) :
    Nat → visitHeap → List ℚ → List Int → Run (List ℚ × List Int)
  | 0, _, _, _ => Run.outOfFuel
  | fuel + 1, h, dists, parent =>
    match heapPop h with
    | none => Run.done (dists, parent)
    | some (x, h1) =>
      match getAt dists x.eto with
      | none => Run.panic
      | some dx =>
        if x.dist > dx then dijkstraLoop adj adjDist endIdx fuel h1 dists parent
        else
          match setAt parent x.eto x.efrom with
          | none => Run.panic
          | some parent1 =>
            if x.eto = endIdx then Run.done (dists, parent1)
            else
              match getAt adj x.eto with
              | none => Run.panic
              | some row =>
                match relaxLoop adjDist x 0 row h1 dists with
                | none => Run.panic
                | some (h2, dists2) => dijkstraLoop adj adjDist endIdx fuel h2 dists2 parent1

/-! ## Path reconstruction -/

/-- The loop `for i := endIdx; i != startIdx; i = parent[i]`, appending
`points[i]` to `shortestPath`. -/
def gatherLoop (points : List LongLat) (parent : List Int) (startIdx : Int) :
    Nat → Int → List LongLat → Run (List LongLat)
  | fuel, i, shortestPath =>
    if i = startIdx then Run.done shortestPath
    else
      match fuel with
      | 0 => Run.outOfFuel
      | fuel1 + 1 =>
        match getAt points i with
        | none => Run.panic
        | some p =>
          match getAt parent i with
          | none => Run.panic
          | some next => gatherLoop points parent startIdx fuel1 next (shortestPath ++ [p])

/-! ## `FindShortestPath` -/

/-- The end of `FindShortestPath`, from "Return error if there was no path" on:
the check of `dists[endIdx]`, the reconstruction of the path and the total
distance. -/
def returnPath (points : List LongLat) (near : Nearest) (startLongLat endLongLat : LongLat)
    (fuel : Nat) (dists : List ℚ) (parent : List Int) : Run Ret :=
  match getAt dists near.endIdx with
  | none => Run.panic
  | some de =>
    if de = maxFloat64 then Run.done ⟨[], maxFloat64, some GoError.ErrNoPath⟩
    else
      match gatherLoop points parent near.startIdx fuel near.endIdx [endLongLat] with
      | Run.outOfFuel => Run.outOfFuel
      | Run.panic => Run.panic
      | Run.done shortestPath =>
        match getAt points near.startIdx with
        | none => Run.panic
        | some ps =>
          Run.done ⟨(shortestPath ++ [ps, startLongLat]).reverse,
            near.startDist + de + near.endDist, none⟩

/-- The segment slice after "Remove duplicates": sorted, then compacted in
place. -/
def segments (sortFunc : (Path → Path → Bool) → List Path → List Path) (paths : List Path) :
    List Path :=
  slicesCompact (sortFunc less paths)

/-- The map `pointIdx` after node assignment. -/
def nodeIndex (sortFunc : (Path → Path → Bool) → List Path → List Path) (paths : List Path) :
    List (LongLat × Int) :=
  (addPoints (segments sortFunc paths)).1

/-- The slice `points` after node assignment. -/
def nodes (sortFunc : (Path → Path → Bool) → List Path → List Path) (paths : List Path) :
    List LongLat :=
  (addPoints (segments sortFunc paths)).2

/-- The body of `FindShortestPath` from "Remove duplicates" on, that is after
the optional rounding of the segments and of the two query points. -/
def findFrom (sortFunc : (Path → Path → Bool) → List Path → List Path)
    (calcDist : LongLat → LongLat → ℚ) (fuel : Nat)
    (paths : List Path) (startLongLat endLongLat : LongLat) : Run Ret :=
  let pointIdx := nodeIndex sortFunc paths
  let points := nodes sortFunc paths
  let npoint := points.length
  let near := nearest calcDist points startLongLat endLongLat
  match buildAdj calcDist pointIdx npoint (segments sortFunc paths) with
  | none => Run.panic
  | some (adj, adjDist) =>
    let dists := List.replicate npoint maxFloat64
    let parent := (List.range npoint).map Int.ofNat
    let start : edge := ⟨near.startIdx, near.startIdx, 0⟩
    match dijkstraLoop adj adjDist near.endIdx fuel [start] dists parent with
    | Run.outOfFuel => Run.outOfFuel
    | Run.panic => Run.panic
    | Run.done (dists, parent) => returnPath points near startLongLat endLongLat fuel dists parent

/-- The function `FindShortestPath`.  The arguments `sortFunc` and `calcDist`
stand for `slices.SortFunc` and for the package function `calcDist`; `fuel`
bounds the iterations of the two loops that need not terminate. -/
def FindShortestPath (sortFunc : (Path → Path → Bool) → List Path → List Path)
    (calcDist : LongLat → LongLat → ℚ) (fuel : Nat)
    (paths : List Path) (startLongLat endLongLat : LongLat) (precision : ℚ) : Run Ret :=
  if precision ≠ 0 then
    findFrom sortFunc calcDist fuel (roundPaths precision paths)
      (round precision startLongLat) (round precision endLongLat)
  else
    findFrom sortFunc calcDist fuel paths startLongLat endLongLat

/-- A rational stand-in for the metric in concrete evaluations: the sum of the
absolute coordinate differences.  Like the haversine distance it is
non-negative, symmetric and zero exactly between equal points. -/
def gridDist (p1 p2 : LongLat) : ℚ :=
  |p2.1 - p1.1| + |p2.2 - p1.2|

/-! ## Specification vocabulary -/

/-- The segment list the graph is built from: the caller's segments after the
optional rounding. -/
def quantizedPaths (precision : ℚ) (paths : List Path) : List Path :=
  if precision ≠ 0 then roundPaths precision paths else paths

/-- A query point after the optional rounding. -/
def quantizedPoint (precision : ℚ) (x : LongLat) : LongLat :=
  if precision ≠ 0 then round precision x else x

/-- The coordinate `p` is a graph node: an endpoint of one of the segments. -/
def IsNode (segs : List Path) (p : LongLat) : Prop :=
  ∃ seg ∈ segs, p = seg.1 ∨ p = seg.2

/-- The statement `Route calcDist segs u v d`: there is a route of zero or more
segments from `u` to `v`, each segment travelled in either direction, and `d`
is the sum of the lengths `calcDist seg[0] seg[1]` of its segments. -/
inductive Route (calcDist : LongLat → LongLat → ℚ) (segs : List Path) :
    LongLat → LongLat → ℚ → Prop where
  | here (u : LongLat) : Route calcDist segs u u 0
  | forward {u v t : LongLat} {d : ℚ} :
      Route calcDist segs u v d → (v, t) ∈ segs → Route calcDist segs u t (d + calcDist v t)
  | backward {u v t : LongLat} {d : ℚ} :
      Route calcDist segs u v d → (t, v) ∈ segs → Route calcDist segs u t (d + calcDist t v)

/-- The graph node `p` is nearest to the query point `q`: no node is closer. -/
def IsNearestNode (calcDist : LongLat → LongLat → ℚ) (segs : List Path) (q p : LongLat) : Prop :=
  IsNode segs p ∧ ∀ p1, IsNode segs p1 → calcDist p q ≤ calcDist p1 q

/-- The sum of `calcDist` over the consecutive pairs of a coordinate sequence. -/
def pathLength (calcDist : LongLat → LongLat → ℚ) : List LongLat → ℚ
  | [] => 0
  | [_] => 0
  | p :: q :: rest => calcDist p q + pathLength calcDist (q :: rest)

/-! ## Proof devices -/

/-- The scan of `nearestLoop` for one query point alone: the state is the pair
of the index and the distance. -/
def scanOne (calcDist : LongLat → LongLat → ℚ) (q : LongLat) :
    Int → List LongLat → Int × ℚ → Int × ℚ
  | _, [], st => st
  | i, p :: rest, st =>
    scanOne calcDist q (i + 1) rest (if calcDist p q < st.2 then (i, calcDist p q) else st)

/-- What the scan for one query point has established after the points `pre`:
either nothing was below the sentinel, or the state is the first minimum. -/
def ScanGood (calcDist : LongLat → LongLat → ℚ) (q : LongLat) (pre : List LongLat)
    (st : Int × ℚ) : Prop :=
  (st.1 = -1 ∧ st.2 = maxFloat64 ∧ ∀ p ∈ pre, maxFloat64 ≤ calcDist p q) ∨
  (∃ k : Nat, st.1 = (k : Int) ∧ pre[k]? ≠ none ∧
    (pre[k]?).map (fun p => calcDist p q) = some st.2 ∧
    st.2 < maxFloat64 ∧
    (∀ p ∈ pre, st.2 ≤ calcDist p q) ∧
    (∀ j : Nat, j < k → ∀ p, pre[j]? = some p → st.2 < calcDist p q))

/-- The heap order of `container/heap` on a slice: no element is smaller than
its parent, the parent of index `j` being `(j - 1) / 2`. -/
def IsHeap (h : visitHeap) : Prop :=
  ∀ (j : Nat) (a b : edge), 0 < j → h[j]? = some a → h[(j - 1) / 2]? = some b → b.dist ≤ a.dist

/-- The heap order on the first `n` elements, except that the element at `i`
may be larger than its children; the parent of `i` is no larger than the
children of `i`.  It is what `down` restores from. -/
def DownInv (h : visitHeap) (i n : Nat) : Prop :=
  (∀ (k : Nat) (a b : edge), 0 < k → k < n → (k - 1) / 2 ≠ i →
    h[k]? = some a → h[(k - 1) / 2]? = some b → b.dist ≤ a.dist) ∧
  (∀ (k : Nat) (a b : edge), 0 < k → k < n → (k - 1) / 2 = i → 0 < i →
    h[k]? = some a → h[(i - 1) / 2]? = some b → b.dist ≤ a.dist)

/-- The heap order except that the element at `j` may be smaller than its
parent; the parent of `j` is no larger than the children of `j`.  It is what
`up` restores from. -/
def UpInv (h : visitHeap) (j : Nat) : Prop :=
  (∀ (k : Nat) (a b : edge), 0 < k → k ≠ j →
    h[k]? = some a → h[(k - 1) / 2]? = some b → b.dist ≤ a.dist) ∧
  (∀ (k : Nat) (a b : edge), 0 < k → (k - 1) / 2 = j → 0 < j →
    h[k]? = some a → h[(j - 1) / 2]? = some b → b.dist ≤ a.dist)

/-- The adjacency structure has an entry from node `u` to node `v` with weight
`w`: at some position `i`, `adj[u][i]` is `v` and `adjDist[u][i]` is `w`. -/
def Arc (adj : List (List Int)) (adjDist : List (List ℚ)) (u v : Int) (w : ℚ) : Prop :=
  ∃ (row : List Int) (wrow : List ℚ) (i : Nat),
    getAt adj u = some row ∧ getAt adjDist u = some wrow ∧ row[i]? = some v ∧ wrow[i]? = some w

/-- The statement `Walk adj adjDist u v d`: following adjacency entries leads from
node `u` to node `v`, the weights adding up to `d`. -/
inductive Walk (adj : List (List Int)) (adjDist : List (List ℚ)) : Int → Int → ℚ → Prop where
  | here (u : Int) : Walk adj adjDist u u 0
  | step {u v t : Int} {d w : ℚ} :
      Walk adj adjDist u v d → Arc adj adjDist v t w → Walk adj adjDist u t (d + w)

/-- The slices `adj` and `adjDist` are well formed for `n` nodes: both have `n`
rows, the rows of a node have equal lengths, and every entry is a node. -/
structure GraphOK (n : Nat) (adj : List (List Int)) (adjDist : List (List ℚ)) : Prop where
  adj_len : adj.length = n
  dist_len : adjDist.length = n
  rows : ∀ u row wrow, getAt adj u = some row → getAt adjDist u = some wrow →
    row.length = wrow.length
  range : ∀ u row v, getAt adj u = some row → v ∈ row → 0 ≤ v ∧ v < (n : Int)

/-- The map `pointIdx` and the slice `points` agree: `points` has no repeated
coordinate and the map sends exactly the coordinates of `points` to their
index. -/
def PointsOK (st : List (LongLat × Int) × List LongLat) : Prop :=
  st.2.Nodup ∧
  ∀ (p : LongLat) (i : Int), st.1.lookup p = some i ↔ ∃ k : Nat, i = (k : Int) ∧ st.2[k]? = some p

/-- The value `dists[v]`, read as the sentinel for an index out of range. -/
def distOf (dists : List ℚ) (v : Int) : ℚ := (getAt dists v).getD maxFloat64

/-- The distance the search works with for a settled node: `0` for the start
node (for which the code passes `0` in the first frontier entry and never
stores it), and `dists[v]` for any other node. -/
def est (s : Int) (dists : List ℚ) (v : Int) : ℚ := if v = s then 0 else distOf dists v

/-- The statement `Chain adj adjDist parent s v l d`: following `parent` from
`v` reaches the start node `s`; `l` lists the nodes met, from `v` to `s`, none
twice, every link is an adjacency entry, and the weights add up to `d`. -/
inductive Chain (adj : List (List Int)) (adjDist : List (List ℚ)) (parent : List Int) (s : Int) :
    Int → List Int → ℚ → Prop where
  | base : Chain adj adjDist parent s s [s] 0
  | step {v u : Int} {l : List Int} {d w : ℚ} :
      v ≠ s → getAt parent v = some u → Arc adj adjDist u v w →
      Chain adj adjDist parent s u l d → v ∉ l → Chain adj adjDist parent s v (v :: l) (d + w)

/-- The number of adjacency entries of node `u`. -/
def deg (adj : List (List Int)) (u : Int) : Nat := ((getAt adj u).getD []).length

/-- The adjacency entries of the nodes that are not settled yet, counted. -/
def unsettledDeg (adj : List (List Int)) (n : Nat) (S : Finset Int) : Nat :=
  Finset.sum (Finset.Ico (0 : Int) (n : Int) \ S) (deg adj)

/-- The invariant of Dijkstra's loop.  `S` is the set of settled nodes (popped
with a distance that was not stale); `pend u j` says that entry `j` of the
settled node `u` has not been relaxed yet. -/
structure DInv (adj : List (List Int)) (adjDist : List (List ℚ)) (n : Nat) (s e : Int)
    (pend : Int → Nat → Prop) (S : Finset Int)
    (h : visitHeap) (dists : List ℚ) (parent : List Int) : Prop where
  dists_len : dists.length = n
  parent_len : parent.length = n
  heap : IsHeap h
  s_mem : s ∈ S
  S_range : ∀ u ∈ S, 0 ≤ u ∧ u < (n : Int)
  e_not : e ∉ S
  bound : ∀ v, distOf dists v ≤ maxFloat64
  entry : ∀ x ∈ h, x.efrom ∈ S ∧ 0 ≤ x.eto ∧ x.eto < (n : Int) ∧ x.dist < maxFloat64 ∧
    distOf dists x.eto ≤ x.dist ∧
    ∃ w, Arc adj adjDist x.efrom x.eto w ∧ x.dist = est s dists x.efrom + w
  uniq : h.Pairwise (fun x y => x.eto = y.eto → x.dist ≠ y.dist)
  stale : ∀ u ∈ S, u ≠ s → ∀ x ∈ h, x.eto = u → distOf dists u < x.dist
  relaxed : ∀ u ∈ S, ∀ (row : List Int) (wrow : List ℚ) (j : Nat) (v : Int) (w : ℚ),
    getAt adj u = some row → getAt adjDist u = some wrow → row[j]? = some v → wrow[j]? = some w →
    ¬ pend u j → distOf dists v ≤ est s dists u + w
  settled_le : ∀ u ∈ S, ∀ x ∈ h, est s dists u ≤ x.dist
  frontier : ∀ v, v ∉ S → distOf dists v < maxFloat64 →
    ∃ x ∈ h, x.eto = v ∧ x.dist = distOf dists v
  chain : ∀ v ∈ S, ∃ l, Chain adj adjDist parent s v l (est s dists v) ∧ ∀ u ∈ l, u ∈ S

/-- What the loop has established when it ends: either `dists[e]` is still the
sentinel and no walk from `s` to `e` is shorter than the sentinel, or `dists[e]`
is the length of a shortest walk and `parent` leads from `e` back to `s` along
a walk of that length. -/
def DPost (adj : List (List Int)) (adjDist : List (List ℚ)) (n : Nat) (s e : Int)
    (dists : List ℚ) (parent : List Int) : Prop :=
  dists.length = n ∧ parent.length = n ∧
  ((distOf dists e = maxFloat64 ∧ ∀ L, Walk adj adjDist s e L → maxFloat64 ≤ L) ∨
   (distOf dists e < maxFloat64 ∧ (∀ L, Walk adj adjDist s e L → distOf dists e ≤ L) ∧
     ∃ l, Chain adj adjDist parent s e l (distOf dists e)))

/-- The coordinates of a list of nodes. -/
def coords (points : List LongLat) (l : List Int) : List LongLat :=
  l.filterMap (fun u => getAt points u)

/-- The statement `BackRoute calcDist segs l d`: the coordinate list `l` is a
route read backwards, from its last node to its first; every two neighbours in
`l` are the two endpoints of a segment, and `d` is the sum of the lengths
`calcDist seg[0] seg[1]` of these segments. -/
inductive BackRoute (calcDist : LongLat → LongLat → ℚ) (segs : List Path) :
    List LongLat → ℚ → Prop where
  | single (p : LongLat) : BackRoute calcDist segs [p] 0
  | forward {u v : LongLat} {r : List LongLat} {d : ℚ} :
      BackRoute calcDist segs (u :: r) d → (u, v) ∈ segs →
      BackRoute calcDist segs (v :: u :: r) (d + calcDist u v)
  | backward {u v : LongLat} {r : List LongLat} {d : ℚ} :
      BackRoute calcDist segs (u :: r) d → (v, u) ∈ segs →
      BackRoute calcDist segs (v :: u :: r) (d + calcDist v u)

/-- The node map, node slice and adjacency slices are the graph of the segment
list `segs`. -/
structure Built (calcDist : LongLat → LongLat → ℚ) (segs : List Path)
    (pointIdx : List (LongLat × Int)) (points : List LongLat)
    (adj : List (List Int)) (adjDist : List (List ℚ)) : Prop where
  ok : PointsOK (pointIdx, points)
  mem : ∀ q, q ∈ points ↔ IsNode segs q
  gok : GraphOK points.length adj adjDist
  arcs : ∀ a b c, Arc adj adjDist a b c ↔ ∃ seg ∈ segs,
    (a = mapGet pointIdx seg.1 ∧ b = mapGet pointIdx seg.2 ∧ c = calcDist seg.1 seg.2) ∨
    (a = mapGet pointIdx seg.2 ∧ b = mapGet pointIdx seg.1 ∧ c = calcDist seg.1 seg.2)

/-- What a run of `findFrom` that is given enough fuel returns, case by case:
`segs` is the segment list, `points` the node slice, `near` the result of the
nearest point scan. -/
inductive FindSpec (calcDist : LongLat → LongLat → ℚ) (segs : List Path)
    (points : List LongLat) (near : Nearest) (startLongLat endLongLat : LongLat) :
    Run Ret → Prop where
  | noStart : near.startIdx = -1 →
      FindSpec calcDist segs points near startLongLat endLongLat Run.panic
  | sameNode {ps : LongLat} : getAt points near.startIdx = some ps →
      near.endIdx = near.startIdx →
      FindSpec calcDist segs points near startLongLat endLongLat
        (Run.done ⟨[], maxFloat64, some GoError.ErrNoPath⟩)
  | noEnd {ps : LongLat} : getAt points near.startIdx = some ps → near.endIdx = -1 →
      FindSpec calcDist segs points near startLongLat endLongLat Run.panic
  | noRoute {ps pe : LongLat} : getAt points near.startIdx = some ps →
      getAt points near.endIdx = some pe → near.endIdx ≠ near.startIdx →
      (∀ d, Route calcDist segs ps pe d → maxFloat64 ≤ d) →
      FindSpec calcDist segs points near startLongLat endLongLat
        (Run.done ⟨[], maxFloat64, some GoError.ErrNoPath⟩)
  | found {ps pe : LongLat} {D : ℚ} {lc : List LongLat} :
      getAt points near.startIdx = some ps →
      getAt points near.endIdx = some pe → near.endIdx ≠ near.startIdx →
      D < maxFloat64 → Route calcDist segs ps pe D →
      (∀ d, Route calcDist segs ps pe d → D ≤ d) →
      BackRoute calcDist segs lc D → lc.head? = some pe → lc.getLast? = some ps →
      FindSpec calcDist segs points near startLongLat endLongLat
        (Run.done ⟨startLongLat :: lc.reverse ++ [endLongLat],
          near.startDist + D + near.endDist, none⟩)

/-- The node that the scan chooses for the start point: `points[startIdx]`,
if there is one. -/
def nearestStart (sortFunc : (Path → Path → Bool) → List Path → List Path)
    (calcDist : LongLat → LongLat → ℚ) (segs : List Path) (qs qe : LongLat) : Option LongLat :=
  getAt (nodes sortFunc segs) (nearest calcDist (nodes sortFunc segs) qs qe).startIdx

/-- The node that the scan chooses for the end point: `points[endIdx]`, if
there is one. -/
def nearestEnd (sortFunc : (Path → Path → Bool) → List Path → List Path)
    (calcDist : LongLat → LongLat → ℚ) (segs : List Path) (qs qe : LongLat) : Option LongLat :=
  getAt (nodes sortFunc segs) (nearest calcDist (nodes sortFunc segs) qs qe).endIdx

end Geopath

namespace Geopath

/-! ## `ParsePaths` (json.go) -/

/-- The struct `geoJSONGeometry`. -/
structure geoJSONGeometry where
  Coordinates : List LongLat
  Typ : String
  deriving DecidableEq, Repr

/-- The struct `geoJSONFeature`. -/
structure geoJSONFeature where
  Typ : String
  Geom : geoJSONGeometry
  deriving DecidableEq, Repr

/-- The struct `geoJSON`: a decoded document. -/
structure geoJSON where
  Typ : String
  Features : List geoJSONFeature
  deriving DecidableEq, Repr

/-- The constant `geoJSONTypeFeatureCollection`. -/
def geoJSONTypeFeatureCollection : String := "FeatureCollection"

/-- The constant `geoJSONFeatureTypeFeature`. -/
def geoJSONFeatureTypeFeature : String := "Feature"

/-- The constant `geoJSONGeometryTypeLineString`. -/
def geoJSONGeometryTypeLineString : String := "LineString"

/-- The errors that `ParsePaths` returns: the decoder's error passed on, and
the three errors made with `fmt.Errorf`, each with the value its message
shows. -/
inductive ParseError where
  | decode (msg : String)
  | invalidRoot (typ : String)
  | invalidFeature (typ : String)
  | lineString (i : Nat)
  deriving DecidableEq, Repr

/-- The two results `([]path, error)` of `ParsePaths`; a nil slice is the empty
list and a nil error is `none`. -/
structure ParseRet where
  paths : List Path
  err : Option ParseError
  deriving DecidableEq, Repr

/-- The loop `for i, f := range data.Features` from index `i` on, `res` being
the segments appended so far.  A `LineString` whose coordinate list does not
have length two is an error; otherwise `Coordinates[0]` and `Coordinates[1]`
make the segment. -/
def parseFeatures : Nat → List geoJSONFeature → List Path → ParseRet
  | _, [], res => ⟨res, none⟩
  | i, f :: rest, res =>
    if f.Typ ≠ geoJSONFeatureTypeFeature then ⟨[], some (ParseError.invalidFeature f.Typ)⟩
    else if f.Geom.Typ ≠ geoJSONGeometryTypeLineString then parseFeatures (i + 1) rest res
    else
      match f.Geom.Coordinates with
      | [c0, c1] => parseFeatures (i + 1) rest (res ++ [(c0, c1)])
      | _ => ⟨[], some (ParseError.lineString i)⟩

/-- The function `ParsePaths` after `json.NewDecoder(file).Decode(&data)`, whose
outcome is `decoded`: the decoder's error or the decoded document. -/
def ParsePaths (decoded : Except String geoJSON) : ParseRet :=
  match decoded with
  | Except.error msg => ⟨[], some (ParseError.decode msg)⟩
  | Except.ok data =>
    if data.Typ ≠ geoJSONTypeFeatureCollection then
      ⟨[], some (ParseError.invalidRoot data.Typ)⟩
    else parseFeatures 0 data.Features []

/-! ## More specification vocabulary -/

/-- The endpoints of the segments in the order in which the node assignment
meets them: first endpoint before second, segment after segment. -/
def endpoints (segs : List Path) : List LongLat :=
  segs.flatMap fun seg => [seg.1, seg.2]

/-- The adjacency of node `u` as a list of pairs `(adj[u][i], adjDist[u][i])`. -/
def entries (adj : List (List Int)) (adjDist : List (List ℚ)) (u : Int) : List (Int × ℚ) :=
  List.zip ((getAt adj u).getD []) ((getAt adjDist u).getD [])

/-- What one segment adds to the adjacency of node `u`: the pair
`(v, calcDist seg[0] seg[1])` if `u` is the node of its first endpoint and `v`
the node of its second, and the same with the endpoints exchanged. -/
def segmentEntries (calcDist : LongLat → LongLat → ℚ) (pointIdx : List (LongLat × Int))
    (u : Int) (seg : Path) : List (Int × ℚ) :=
  (if u = mapGet pointIdx seg.1 then [(mapGet pointIdx seg.2, calcDist seg.1 seg.2)] else []) ++
  (if u = mapGet pointIdx seg.2 then [(mapGet pointIdx seg.1, calcDist seg.1 seg.2)] else [])

/-- The geometry of a feature is a `LineString`. -/
def isLineString (f : geoJSONFeature) : Bool :=
  decide (f.Geom.Typ = geoJSONGeometryTypeLineString)

/-- The pair `(Coordinates[0], Coordinates[1])` of a feature. -/
def lineSegment (f : geoJSONFeature) : Path :=
  (f.Geom.Coordinates.getD 0 (0, 0), f.Geom.Coordinates.getD 1 (0, 0))

/-- A feature that makes `ParsePaths` fail: its type is not `Feature`, or it is
a `LineString` whose coordinate count is not two. -/
def badFeature (f : geoJSONFeature) : Prop :=
  f.Typ ≠ geoJSONFeatureTypeFeature ∨
    (f.Geom.Typ = geoJSONGeometryTypeLineString ∧ f.Geom.Coordinates.length ≠ 2)

/-- The states `(h, dists, parent)` that the loop `for len(h) > 0` of Dijkstra's
search has at the head of an iteration, when it starts from
`(h0, dists0, parent0)`: the start, the state after an iteration that skips a
stale entry, and the state after an iteration that relaxes the entries of a
node other than `endIdx`. -/
inductive Reached (adj : List (List Int)) (adjDist : List (List ℚ)) (endIdx : Int)
    (h0 : visitHeap) (dists0 : List ℚ) (parent0 : List Int) :
    visitHeap → List ℚ → List Int → Prop where
  | start : Reached adj adjDist endIdx h0 dists0 parent0 h0 dists0 parent0
  | skip {h h1 : visitHeap} {dists : List ℚ} {parent : List Int} {x : edge} {dx : ℚ} :
      Reached adj adjDist endIdx h0 dists0 parent0 h dists parent →
      heapPop h = some (x, h1) → getAt dists x.eto = some dx → x.dist > dx →
      Reached adj adjDist endIdx h0 dists0 parent0 h1 dists parent
  | relax {h h1 h2 : visitHeap} {dists dists2 : List ℚ} {parent parent1 : List Int} {x : edge}
      {dx : ℚ} {row : List Int} :
      Reached adj adjDist endIdx h0 dists0 parent0 h dists parent →
      heapPop h = some (x, h1) → getAt dists x.eto = some dx → ¬ x.dist > dx →
      setAt parent x.eto x.efrom = some parent1 → x.eto ≠ endIdx →
      getAt adj x.eto = some row → relaxLoop adjDist x 0 row h1 dists = some (h2, dists2) →
      Reached adj adjDist endIdx h0 dists0 parent0 h2 dists2 parent1

/-- The invariant of index safety for a state of Dijkstra's loop over `n`
nodes: `dists` and `parent` have `n` entries, every parent pointer is a node,
and both ends of every frontier entry are nodes. -/
def InRange (n : Nat) (h : visitHeap) (dists : List ℚ) (parent : List Int) : Prop :=
  dists.length = n ∧ parent.length = n ∧
  (∀ v ∈ parent, 0 ≤ v ∧ v < (n : Int)) ∧
  (∀ x ∈ h, (0 ≤ x.efrom ∧ x.efrom < (n : Int)) ∧ (0 ≤ x.eto ∧ x.eto < (n : Int)))

end Geopath

namespace Geopath

/-! ## Basic lemmas -/

theorem heapPop_singleton (x : edge) : heapPop [x] = some (x, []) := by
  simp [heapPop, heapDown, visitHeap.Swap]

theorem sortFunc_nil {sortFunc : (Path → Path → Bool) → List Path → List Path}
    (hs : IsSortFunc sortFunc) (lt : Path → Path → Bool) : sortFunc lt [] = [] :=
  List.Perm.eq_nil (hs.1 lt [])

theorem findFrom_nil (sortFunc : (Path → Path → Bool) → List Path → List Path)
    (hs : IsSortFunc sortFunc) (calcDist : LongLat → LongLat → ℚ) (fuel : Nat)
    (startLongLat endLongLat : LongLat) :
    findFrom sortFunc calcDist (fuel + 1) [] startLongLat endLongLat = Run.panic := by
  simp [findFrom, segments, nodeIndex, nodes, sortFunc_nil hs, slicesCompact, compactKept,
    addPoints, nearest, nearestLoop, buildAdj, adjLoop, dijkstraLoop, heapPop_singleton, getAt]

theorem FindShortestPath_empty_fuel0 (sortFunc : (Path → Path → Bool) → List Path → List Path)
    (hs : IsSortFunc sortFunc) (calcDist : LongLat → LongLat → ℚ)
    (startLongLat endLongLat : LongLat) (precision : ℚ) :
    FindShortestPath sortFunc calcDist 0 [] startLongLat endLongLat precision
      = Run.outOfFuel := by
  unfold FindShortestPath
  split <;> simp [roundPaths, findFrom, segments, nodeIndex, nodes, sortFunc_nil hs, slicesCompact,
    compactKept, addPoints, nearest, nearestLoop, buildAdj, adjLoop, dijkstraLoop]

theorem insertLeft_perm (lt : Path → Path → Bool) (x : Path) :
    ∀ revPrefix : List Path, (insertLeft lt x revPrefix).Perm (x :: revPrefix) := by
  intro l
  induction l with
  | nil => simp [insertLeft]
  | cons y l ih =>
    simp only [insertLeft]
    split
    · refine (List.perm_append_comm).trans ?_
      simp only [List.singleton_append]
      exact ((List.Perm.cons y ih).trans (List.Perm.swap x y l))
    · refine (List.perm_append_comm).trans ?_
      simp only [List.singleton_append]
      exact List.Perm.cons x (List.reverse_perm _)

theorem insertionLoop_perm (lt : Path → Path → Bool) :
    ∀ rest sorted : List Path, (insertionLoop lt sorted rest).Perm (sorted ++ rest) := by
  intro rest
  induction rest with
  | nil => intro s; simp [insertionLoop]
  | cons x rest ih =>
    intro s
    simp only [insertionLoop]
    refine (ih _).trans ?_
    have h1 : (insertLeft lt x s.reverse).Perm (x :: s) :=
      (insertLeft_perm lt x _).trans (List.Perm.cons x (List.reverse_perm s))
    refine (List.Perm.append_right rest h1).trans ?_
    simp only [List.cons_append]
    exact (List.perm_middle).symm

theorem insertionSortLessFunc_isSortFunc :
    IsSortFunc (fun lt l => insertionSortLessFunc lt l) := by
  constructor
  · intro lt l
    simpa [insertionSortLessFunc] using insertionLoop_perm lt l []
  · intro lt l _; rfl

theorem nearestLoop_eq_scanOne (calcDist : LongLat → LongLat → ℚ) (qs qe : LongLat)
    (points : List LongLat) : ∀ (i : Int) (st : Nearest),
    nearestLoop calcDist qs qe i points st =
      ⟨(scanOne calcDist qs i points (st.startIdx, st.startDist)).1,
       (scanOne calcDist qs i points (st.startIdx, st.startDist)).2,
       (scanOne calcDist qe i points (st.endIdx, st.endDist)).1,
       (scanOne calcDist qe i points (st.endIdx, st.endDist)).2⟩ := by
  induction points with
  | nil => intro i st; rfl
  | cons p rest ih =>
    intro i st
    simp only [nearestLoop, scanOne, ih, nearestStep]
    by_cases h1 : calcDist p qs < st.startDist <;> by_cases h2 : calcDist p qe < st.endDist <;>
      simp [h1, h2]

theorem scanOne_good (calcDist : LongLat → LongLat → ℚ) (q : LongLat) :
    ∀ (rest pre : List LongLat) (st : Int × ℚ), ScanGood calcDist q pre st →
      ScanGood calcDist q (pre ++ rest) (scanOne calcDist q (pre.length : Int) rest st) := by
  intro rest
  induction rest with
  | nil => intro pre st h; simpa [scanOne] using h
  | cons p rest ih =>
    intro pre st h
    have key : ScanGood calcDist q (pre ++ [p])
        (if calcDist p q < st.2 then ((pre.length : Int), calcDist p q) else st) := by
      by_cases hlt : calcDist p q < st.2
      · simp only [hlt, if_true]
        right
        refine ⟨pre.length, rfl, by simp, by simp, ?_, ?_, ?_⟩
        · rcases h with ⟨_, h2, _⟩ | ⟨k, _, _, _, h4, _⟩
          · rw [h2] at hlt; exact hlt
          · exact lt_trans hlt h4
        · intro p' hp'
          rcases List.mem_append.1 hp' with hp' | hp'
          · rcases h with ⟨_, h2, h3⟩ | ⟨k, _, _, _, _, h5, _⟩
            · exact le_trans (le_of_lt (h2 ▸ hlt)) (h3 p' hp')
            · exact le_trans (le_of_lt hlt) (h5 p' hp')
          · simp at hp'; subst hp'; exact le_refl _
        · intro j hj p' hp'
          have hjp : pre[j]? = some p' := by
            rw [List.getElem?_append_left hj] at hp'; exact hp'
          have hmem : p' ∈ pre := List.getElem?_mem hjp
          rcases h with ⟨_, h2, h3⟩ | ⟨k, _, _, _, _, h5, _⟩
          · exact lt_of_lt_of_le (h2 ▸ hlt) (h3 p' hmem)
          · exact lt_of_lt_of_le hlt (h5 p' hmem)
      · simp only [hlt, if_false]
        have hle : st.2 ≤ calcDist p q := not_lt.1 hlt
        rcases h with ⟨h1, h2, h3⟩ | ⟨k, h1, h2, h3, h4, h5, h6⟩
        · left
          refine ⟨h1, h2, ?_⟩
          intro p' hp'
          rcases List.mem_append.1 hp' with hp' | hp'
          · exact h3 p' hp'
          · simp at hp'; subst hp'; exact h2 ▸ hle
        · right
          have hk : k < pre.length := by
            by_contra hk
            exact h2 (List.getElem?_eq_none (not_lt.1 hk))
          refine ⟨k, h1, ?_, ?_, h4, ?_, ?_⟩
          · rw [List.getElem?_append_left hk]; exact h2
          · rw [List.getElem?_append_left hk]; exact h3
          · intro p' hp'
            rcases List.mem_append.1 hp' with hp' | hp'
            · exact h5 p' hp'
            · simp at hp'; subst hp'; exact hle
          · intro j hj p' hp'
            rw [List.getElem?_append_left (lt_trans hj hk)] at hp'
            exact h6 j hj p' hp'
    have := ih (pre ++ [p]) _ key
    simp only [List.length_append, List.length_singleton, List.append_assoc,
      List.singleton_append, Nat.cast_add, Nat.cast_one] at this
    simpa [scanOne] using this

theorem getAt_replicate {α : Type} (n : Nat) (a b : α) (i : Int)
    (h : getAt (List.replicate n a) i = some b) : b = a := by
  unfold getAt at h
  split at h
  · exact absurd h (by simp)
  · rw [List.getElem?_eq_some] at h
    obtain ⟨_, h⟩ := h
    simpa using h.symm

theorem dijkstraLoop_start_is_end (adj : List (List Int)) (adjDist : List (List ℚ)) (s : Int)
    (fuel : Nat) (dists : List ℚ) (parent : List Int)
    (hd : ∀ dx, getAt dists s = some dx → dx = maxFloat64) :
    dijkstraLoop adj adjDist s fuel [⟨s, s, 0⟩] dists parent = Run.outOfFuel ∨
    dijkstraLoop adj adjDist s fuel [⟨s, s, 0⟩] dists parent = Run.panic ∨
    ∃ parent1, dijkstraLoop adj adjDist s fuel [⟨s, s, 0⟩] dists parent
      = Run.done (dists, parent1) := by
  cases fuel with
  | zero => left; rfl
  | succ fuel =>
    right
    simp only [dijkstraLoop, heapPop_singleton]
    cases hg : getAt dists s with
    | none => left; rfl
    | some dx =>
      have hdx := hd dx hg
      subst hdx
      have hpos : ¬ (0 : ℚ) > maxFloat64 := by
        unfold maxFloat64; norm_num
      simp only [hpos, if_false]
      cases hp : setAt parent s s with
      | none => left; rfl
      | some parent1 => right; exact ⟨parent1, by simp⟩

theorem findFrom_same_point (sortFunc : (Path → Path → Bool) → List Path → List Path)
    (calcDist : LongLat → LongLat → ℚ) (fuel : Nat) (paths : List Path) (q : LongLat)
    (path : List LongLat) (dist : ℚ) :
    findFrom sortFunc calcDist fuel paths q q ≠ Run.done ⟨path, dist, none⟩ := by
  unfold findFrom
  simp only
  have hidx : (nearest calcDist (nodes sortFunc paths) q q).startIdx
      = (nearest calcDist (nodes sortFunc paths) q q).endIdx := by
    simp [nearest, nearestLoop_eq_scanOne]
  cases hadj : buildAdj calcDist (nodeIndex sortFunc paths) (nodes sortFunc paths).length
      (segments sortFunc paths) with
  | none => simp
  | some g =>
    obtain ⟨adj, adjDist⟩ := g
    simp only [hidx]
    rcases dijkstraLoop_start_is_end adj adjDist
        (nearest calcDist (nodes sortFunc paths) q q).endIdx fuel
        (List.replicate (nodes sortFunc paths).length maxFloat64)
        ((List.range (nodes sortFunc paths).length).map Int.ofNat)
        (fun dx h => getAt_replicate _ _ _ _ h) with h | h | ⟨parent1, h⟩
    · rw [h]; simp
    · rw [h]; simp
    · rw [h]
      simp only [returnPath]
      cases hg : getAt (List.replicate (nodes sortFunc paths).length maxFloat64)
          (nearest calcDist (nodes sortFunc paths) q q).endIdx with
      | none => simp
      | some de =>
        have := getAt_replicate _ _ _ _ hg
        subst this
        simp

end Geopath

namespace Geopath

theorem getElem?_exists {α : Type} (l : List α) (i : Nat) (h : i < l.length) :
    ∃ a, l[i]? = some a :=
  ⟨l[i], List.getElem?_eq_getElem h⟩

/-! ## Slice access -/

theorem getAt_natCast {α : Type} (s : List α) (k : Nat) : getAt s (k : Int) = s[k]? := by
  simp [getAt]

theorem getAt_eq_some_iff {α : Type} {s : List α} {i : Int} {a : α} :
    getAt s i = some a ↔ ∃ k : Nat, i = (k : Int) ∧ s[k]? = some a := by
  constructor
  · intro h
    unfold getAt at h
    split at h
    · exact absurd h (by simp)
    · exact ⟨i.toNat, (Int.toNat_of_nonneg (by omega)).symm, h⟩
  · rintro ⟨k, rfl, h⟩
    rw [getAt_natCast]; exact h

theorem getAt_some_range {α : Type} {s : List α} {i : Int} {a : α} (h : getAt s i = some a) :
    0 ≤ i ∧ i < (s.length : Int) := by
  obtain ⟨k, rfl, hk⟩ := getAt_eq_some_iff.1 h
  have := (List.getElem?_eq_some.1 hk).1
  omega

theorem getAt_of_range {α : Type} {s : List α} {i : Int} (h0 : 0 ≤ i) (h1 : i < (s.length : Int)) :
    ∃ a, getAt s i = some a := by
  obtain ⟨k, rfl⟩ := Int.eq_ofNat_of_zero_le h0
  have hk : k < s.length := by omega
  exact ⟨s[k], by rw [getAt_natCast]; exact List.getElem?_eq_getElem hk⟩

theorem getAt_eq_none_iff {α : Type} {s : List α} {i : Int} :
    getAt s i = none ↔ ¬ (0 ≤ i ∧ i < (s.length : Int)) := by
  constructor
  · intro h hr
    obtain ⟨a, ha⟩ := getAt_of_range hr.1 hr.2
    rw [h] at ha; exact absurd ha (by simp)
  · intro h
    cases hg : getAt s i with
    | none => rfl
    | some a => exact absurd (getAt_some_range hg) h

theorem setAt_of_range {α : Type} {s : List α} {i : Int} (a : α) (h0 : 0 ≤ i)
    (h1 : i < (s.length : Int)) : ∃ s1, setAt s i a = some s1 := by
  refine ⟨s.set i.toNat a, ?_⟩
  unfold setAt
  rw [if_pos]
  exact ⟨h0, by omega⟩

theorem setAt_some {α : Type} {s s1 : List α} {i : Int} {a : α} (h : setAt s i a = some s1) :
    0 ≤ i ∧ i < (s.length : Int) ∧ s1.length = s.length ∧ getAt s1 i = some a ∧
      ∀ j, j ≠ i → getAt s1 j = getAt s j := by
  unfold setAt at h
  split at h
  · rename_i hr
    have h' := Option.some.inj h
    subst h'
    obtain ⟨k, rfl⟩ := Int.eq_ofNat_of_zero_le hr.1
    have hk : k < s.length := by simpa using hr.2
    refine ⟨hr.1, by omega, by simp, ?_, ?_⟩
    · rw [getAt_natCast]; simp [hk]
    · intro j hj
      unfold getAt
      split
      · rfl
      · simp only [Int.toNat_ofNat]
        rw [List.getElem?_set_ne]
        intro hkj
        apply hj
        omega
  · exact absurd h (by simp)

theorem setAt_eq_none_iff {α : Type} {s : List α} {i : Int} {a : α} :
    setAt s i a = none ↔ ¬ (0 ≤ i ∧ i < (s.length : Int)) := by
  constructor
  · intro h hr
    obtain ⟨s1, hs⟩ := setAt_of_range a hr.1 hr.2
    rw [h] at hs; exact absurd hs (by simp)
  · intro h
    cases hg : setAt s i a with
    | none => rfl
    | some s1 => exact absurd ⟨(setAt_some hg).1, (setAt_some hg).2.1⟩ h

/-! ## The heap -/

theorem swap_length (h : visitHeap) (i j : Nat) : (visitHeap.Swap h i j).length = h.length := by
  unfold visitHeap.Swap
  split <;> simp

theorem swap_getElem? (h : visitHeap) {i j : Nat} (hi : i < h.length) (hj : j < h.length)
    (k : Nat) :
    (visitHeap.Swap h i j)[k]? = if k = j then h[i]? else if k = i then h[j]? else h[k]? := by
  unfold visitHeap.Swap
  rw [List.getElem?_eq_getElem hi, List.getElem?_eq_getElem hj]
  simp only
  by_cases hkj : k = j
  · subst hkj
    rw [List.getElem?_set_self (by simpa using hj)]
    simp
  · by_cases hki : k = i
    · subst hki
      simp [hkj, Ne.symm hkj, hj, hi]
    · simp [hkj, hki, Ne.symm hkj, Ne.symm hki]

theorem swap_perm (h : visitHeap) (i j : Nat) : (visitHeap.Swap h i j).Perm h := by
  unfold visitHeap.Swap
  cases hi : h[i]? with
  | none => simp
  | some a =>
    cases hj : h[j]? with
    | none => simp
    | some b =>
      simp only
      obtain ⟨hil, hia⟩ := List.getElem?_eq_some.1 hi
      obtain ⟨hjl, hjb⟩ := List.getElem?_eq_some.1 hj
      rw [List.perm_iff_count]
      intro c
      have hjl' : j < (h.set i b).length := by simpa using hjl
      rw [List.count_set _ _ _ _ hjl', List.count_set _ _ _ _ hil]
      have hget : (h.set i b)[j] = b := by
        rw [List.getElem_set]
        split
        · rfl
        · exact hjb
      rw [hget, hia]
      have h1 : (if (a == c) = true then 1 else 0) ≤ h.count c := by
        by_cases hac : (a == c) = true
        · have : a = c := by simpa using hac
          subst this
          have hpos : 0 < h.count a := List.count_pos_iff.2 (List.getElem?_mem hi)
          rw [if_pos hac]; exact hpos
        · simp [hac]
      omega

theorem less_true_iff (h : visitHeap) (i j : Nat) :
    visitHeap.Less h i j = true ↔ ∃ a b, h[i]? = some a ∧ h[j]? = some b ∧ a.dist < b.dist := by
  unfold visitHeap.Less
  cases hi : h[i]? with
  | none => simp
  | some a =>
    cases hj : h[j]? with
    | none => simp
    | some b => simp

theorem less_false_le (h : visitHeap) {i j : Nat} {a b : edge} (hf : visitHeap.Less h i j = false)
    (hi : h[i]? = some a) (hj : h[j]? = some b) : b.dist ≤ a.dist := by
  by_contra hlt
  have : visitHeap.Less h i j = true :=
    (less_true_iff h i j).2 ⟨a, b, hi, hj, not_le.1 hlt⟩
  rw [hf] at this
  exact absurd this (by simp)

end Geopath

namespace Geopath

/-! ## `up` restores the heap order -/

theorem heapUp_perm : ∀ (fuel : Nat) (h : visitHeap) (j : Nat), (heapUp fuel h j).Perm h := by
  intro fuel
  induction fuel with
  | zero => intro h j; simp [heapUp]
  | succ fuel ih =>
    intro h j
    simp only [heapUp]
    split
    · exact List.Perm.refl _
    · exact (ih _ _).trans (swap_perm h _ _)

theorem heapUp_isHeap : ∀ (fuel : Nat) (h : visitHeap) (j : Nat),
    j < fuel → j < h.length → UpInv h j → IsHeap (heapUp fuel h j) := by
  intro fuel
  induction fuel with
  | zero => intro h j hf; omega
  | succ fuel ih =>
    intro h j hf hjl hinv
    simp only [heapUp]
    by_cases hij : (j - 1) / 2 = j
    · rw [if_pos (Or.inl hij)]
      intro k a b hk ha hb
      exact hinv.1 k a b hk (by omega) ha hb
    · by_cases hl : visitHeap.Less h j ((j - 1) / 2) = false
      · rw [if_pos (Or.inr hl)]
        intro k a b hk ha hb
        by_cases hkj : k = j
        · subst hkj
          exact less_false_le h hl ha hb
        · exact hinv.1 k a b hk hkj ha hb
      · rw [if_neg (by tauto)]
        have hlt : visitHeap.Less h j ((j - 1) / 2) = true := by
          cases hv : visitHeap.Less h j ((j - 1) / 2) with
          | true => rfl
          | false => exact absurd hv hl
        obtain ⟨aj, bi, haj, hbi, hlt'⟩ := (less_true_iff _ _ _).1 hlt
        have hil : (j - 1) / 2 < h.length := by omega
        have hj0 : 0 < j := by omega
        have hij' : (j - 1) / 2 < j := by omega
        apply ih
        · omega
        · rw [swap_length]; exact hil
        · constructor
          · intro k a b hk hki ha hb
            rw [swap_getElem? h hil hjl] at ha hb
            by_cases hkj : k = j
            · subst hkj
              rw [if_pos rfl] at ha
              rw [if_neg (by omega), if_pos rfl] at hb
              have h1 : a = bi := Option.some.inj (ha.symm.trans hbi)
              have h2 : b = aj := Option.some.inj (hb.symm.trans haj)
              subst h1; subst h2
              exact le_of_lt hlt'
            · rw [if_neg hkj, if_neg hki] at ha
              by_cases hpj : (k - 1) / 2 = j
              · rw [if_pos hpj] at hb
                have h2 : b = bi := Option.some.inj (hb.symm.trans hbi)
                subst h2
                exact hinv.2 k a b hk hpj hj0 ha hbi
              · rw [if_neg hpj] at hb
                by_cases hpi : (k - 1) / 2 = (j - 1) / 2
                · rw [if_pos hpi] at hb
                  have h2 : b = aj := Option.some.inj (hb.symm.trans haj)
                  subst h2
                  have := hinv.1 k a bi hk hkj ha (hpi ▸ hbi)
                  exact le_trans (le_of_lt hlt') this
                · rw [if_neg hpi] at hb
                  exact hinv.1 k a b hk hkj ha hb
          · intro k a b hk hpk hi0 ha hb
            rw [swap_getElem? h hil hjl] at ha hb
            rw [if_neg (by omega), if_neg (by omega)] at hb
            have hbib : b.dist ≤ bi.dist := hinv.1 ((j - 1) / 2) bi b hi0 (by omega) hbi hb
            by_cases hkj : k = j
            · subst hkj
              rw [if_pos rfl] at ha
              have h1 : a = bi := Option.some.inj (ha.symm.trans hbi)
              subst h1
              exact hbib
            · rw [if_neg hkj, if_neg (by omega)] at ha
              have := hinv.1 k a bi hk hkj ha (hpk ▸ hbi)
              exact le_trans hbib this

theorem heapPush_perm (h : visitHeap) (x : edge) : (heapPush h x).Perm (x :: h) := by
  unfold heapPush
  refine (heapUp_perm _ _ _).trans ?_
  exact List.perm_append_comm

theorem heapPush_isHeap (h : visitHeap) (x : edge) (hh : IsHeap h) : IsHeap (heapPush h x) := by
  unfold heapPush
  apply heapUp_isHeap
  · omega
  · simp
  · constructor
    · intro k a b hk hkj ha hb
      have hkl : k < (h ++ [x]).length := (List.getElem?_eq_some.1 ha).1
      have hkl' : k < h.length := by simp at hkl; omega
      rw [List.getElem?_append_left hkl'] at ha
      rw [List.getElem?_append_left (by omega)] at hb
      exact hh k a b hk ha hb
    · intro k a b hk hpk hj0 ha hb
      have hkl : k < (h ++ [x]).length := (List.getElem?_eq_some.1 ha).1
      simp at hkl
      omega

end Geopath

namespace Geopath

/-! ## `down` restores the heap order -/

theorem heapDown_perm : ∀ (fuel : Nat) (h : visitHeap) (i n : Nat),
    (heapDown fuel h i n).Perm h := by
  intro fuel
  induction fuel with
  | zero => intro h i n; simp [heapDown]
  | succ fuel ih =>
    intro h i n
    simp only [heapDown]
    by_cases hc : n ≤ 2 * i + 1
    · rw [if_pos hc]
    · rw [if_neg hc]
      obtain ⟨j, hj⟩ : ∃ j, j = (if 2 * i + 1 + 1 < n ∧ visitHeap.Less h (2 * i + 1 + 1) (2 * i + 1) = true
          then 2 * i + 1 + 1 else 2 * i + 1) := ⟨_, rfl⟩
      rw [← hj]
      by_cases hl : visitHeap.Less h j i = false
      · rw [if_pos hl]
      · rw [if_neg hl]
        exact (ih _ _ _).trans (swap_perm h _ _)

theorem heapDown_getElem_ge : ∀ (fuel : Nat) (h : visitHeap) (i n : Nat), n ≤ h.length →
    ∀ k, n ≤ k → (heapDown fuel h i n)[k]? = h[k]? := by
  intro fuel
  induction fuel with
  | zero => intro h i n _ k _; simp [heapDown]
  | succ fuel ih =>
    intro h i n hn k hk
    simp only [heapDown]
    by_cases hc : n ≤ 2 * i + 1
    · rw [if_pos hc]
    · rw [if_neg hc]
      obtain ⟨j, hj⟩ : ∃ j, j = (if 2 * i + 1 + 1 < n ∧ visitHeap.Less h (2 * i + 1 + 1) (2 * i + 1) = true
          then 2 * i + 1 + 1 else 2 * i + 1) := ⟨_, rfl⟩
      rw [← hj]
      have hjn : j < n := by
        rw [hj]; split
        · rename_i hc; exact hc.1
        · omega
      have hij : i < j := by
        rw [hj]; split <;> omega
      by_cases hl : visitHeap.Less h j i = false
      · rw [if_pos hl]
      · rw [if_neg hl]
        rw [ih _ _ _ (by rw [swap_length]; exact hn) k hk]
        rw [swap_getElem? h (by omega) (by omega)]
        rw [if_neg (by omega), if_neg (by omega)]

theorem heapDown_heap : ∀ (fuel : Nat) (h : visitHeap) (i n : Nat), n ≤ h.length →
    n - i ≤ fuel → DownInv h i n →
    ∀ (k : Nat) (a b : edge), 0 < k → k < n → (heapDown fuel h i n)[k]? = some a →
      (heapDown fuel h i n)[(k - 1) / 2]? = some b → b.dist ≤ a.dist := by
  intro fuel
  induction fuel with
  | zero =>
    intro h i n _ hf hinv k a b hk hkn ha hb
    simp only [heapDown] at ha hb
    exact hinv.1 k a b hk hkn (by omega) ha hb
  | succ fuel ih =>
    intro h i n hn hf hinv
    simp only [heapDown]
    by_cases hc : n ≤ 2 * i + 1
    · rw [if_pos hc]
      intro k a b hk hkn ha hb
      exact hinv.1 k a b hk hkn (by omega) ha hb
    · rw [if_neg hc]
      obtain ⟨j, hj⟩ : ∃ j, j = (if 2 * i + 1 + 1 < n ∧ visitHeap.Less h (2 * i + 1 + 1) (2 * i + 1) = true
          then 2 * i + 1 + 1 else 2 * i + 1) := ⟨_, rfl⟩
      rw [← hj]
      have hjn : j < n := by
        rw [hj]; split
        · rename_i hc; exact hc.1
        · omega
      have hjp : (j - 1) / 2 = i := by
        rw [hj]; split <;> omega
      have hj0 : 0 < j := by
        rw [hj]; split <;> omega
      have hij : i < j := by omega
      obtain ⟨aj, haj⟩ : ∃ aj, h[j]? = some aj :=
        getElem?_exists h (j) (by omega)
      obtain ⟨bi, hbi⟩ : ∃ bi, h[i]? = some bi :=
        getElem?_exists h (i) (by omega)
      -- `j` is the smaller child of `i`
      have hsmall : ∀ (c : Nat) (ac : edge), c < n → (c - 1) / 2 = i → 0 < c →
          h[c]? = some ac → aj.dist ≤ ac.dist := by
        intro c ac hcn hcp hc0 hac
        have hcc : c = 2 * i + 1 ∨ c = 2 * i + 1 + 1 := by omega
        by_cases hsel : 2 * i + 1 + 1 < n ∧ visitHeap.Less h (2 * i + 1 + 1) (2 * i + 1) = true
        · rw [if_pos hsel] at hj
          subst hj
          rcases hcc with hcc | hcc
          · subst hcc
            obtain ⟨a1, b1, ha1, hb1, hlt⟩ := (less_true_iff _ _ _).1 hsel.2
            have e1 : a1 = aj := Option.some.inj (ha1.symm.trans haj)
            have e2 : b1 = ac := Option.some.inj (hb1.symm.trans hac)
            subst e1; subst e2
            exact le_of_lt hlt
          · subst hcc
            have e1 : ac = aj := Option.some.inj (hac.symm.trans haj)
            subst e1
            exact le_refl _
        · rw [if_neg hsel] at hj
          subst hj
          rcases hcc with hcc | hcc
          · subst hcc
            have e1 : ac = aj := Option.some.inj (hac.symm.trans haj)
            subst e1
            exact le_refl _
          · subst hcc
            have hf2 : visitHeap.Less h (2 * i + 1 + 1) (2 * i + 1) = false := by
              cases hv : visitHeap.Less h (2 * i + 1 + 1) (2 * i + 1) with
              | false => rfl
              | true => exact absurd ⟨hcn, hv⟩ hsel
            exact less_false_le h hf2 hac haj
      by_cases hl : visitHeap.Less h j i = false
      · rw [if_pos hl]
        intro k a b hk hkn ha hb
        by_cases hkp : (k - 1) / 2 = i
        · rw [hkp] at hb
          have e1 : b = bi := Option.some.inj (hb.symm.trans hbi)
          subst e1
          exact le_trans (less_false_le h hl haj hbi) (hsmall k a hkn hkp hk ha)
        · exact hinv.1 k a b hk hkn hkp ha hb
      · rw [if_neg hl]
        have hlt : visitHeap.Less h j i = true := by
          cases hv : visitHeap.Less h j i with
          | true => rfl
          | false => exact absurd hv hl
        obtain ⟨a1, b1, ha1, hb1, hlt'⟩ := (less_true_iff _ _ _).1 hlt
        have e1 : a1 = aj := Option.some.inj (ha1.symm.trans haj)
        have e2 : b1 = bi := Option.some.inj (hb1.symm.trans hbi)
        subst e1; subst e2
        have hil : i < h.length := by omega
        have hjl : j < h.length := by omega
        apply ih _ _ _ (by rw [swap_length]; exact hn) (by omega)
        constructor
        · intro k a b hk hkn hkp ha hb
          rw [swap_getElem? h hil hjl] at ha hb
          rw [if_neg hkp] at hb
          by_cases hkj : k = j
          · subst hkj
            rw [if_pos rfl] at ha
            rw [if_pos hjp] at hb
            have e1 : a = b1 := Option.some.inj (ha.symm.trans hbi)
            have e2 : b = a1 := Option.some.inj (hb.symm.trans haj)
            subst e1; subst e2
            exact le_of_lt hlt'
          · rw [if_neg hkj] at ha
            by_cases hki : k = i
            · subst hki
              rw [if_pos rfl] at ha
              rw [if_neg (by omega)] at hb
              have e1 : a = a1 := Option.some.inj (ha.symm.trans haj)
              subst e1
              exact hinv.2 j a b hj0 hjn hjp hk haj hb
            · rw [if_neg hki] at ha
              by_cases hpi : (k - 1) / 2 = i
              · rw [if_pos hpi] at hb
                have e2 : b = a1 := Option.some.inj (hb.symm.trans haj)
                subst e2
                exact hsmall k a hkn hpi hk ha
              · rw [if_neg hpi] at hb
                exact hinv.1 k a b hk hkn hpi ha hb
        · intro k a b hk hkn hkp _ ha hb
          rw [swap_getElem? h hil hjl] at ha hb
          rw [hjp, if_neg (by omega), if_pos rfl] at hb
          rw [if_neg (by omega), if_neg (by omega)] at ha
          have e2 : b = a1 := Option.some.inj (hb.symm.trans haj)
          subst e2
          exact hinv.1 k a b hk hkn (by omega) ha (by rw [hkp]; exact haj)

/-! ## `heap.Pop` returns a minimum -/

theorem isHeap_root_le (h : visitHeap) (hh : IsHeap h) (x : edge) (hx : h[0]? = some x) :
    ∀ (k : Nat) (a : edge), h[k]? = some a → x.dist ≤ a.dist := by
  intro k
  induction k using Nat.strong_induction_on with
  | _ k ih =>
    intro a ha
    by_cases hk : k = 0
    · subst hk
      have : a = x := Option.some.inj (ha.symm.trans hx)
      subst this; exact le_refl _
    · have hkl : k < h.length := (List.getElem?_eq_some.1 ha).1
      obtain ⟨b, hb⟩ : ∃ b, h[(k - 1) / 2]? = some b :=
        getElem?_exists h ((k - 1) / 2) (by omega)
      exact le_trans (ih ((k - 1) / 2) (by omega) b hb) (hh k a b (by omega) ha hb)

theorem heapPop_nil : heapPop [] = none := by
  simp [heapPop, heapDown, visitHeap.Swap]

theorem heapPop_spec (h : visitHeap) (hne : h ≠ []) :
    ∃ x h1, heapPop h = some (x, h1) ∧ h.Perm (x :: h1) ∧
      (IsHeap h → IsHeap h1 ∧ ∀ y ∈ h, x.dist ≤ y.dist) := by
  have hlen : 0 < h.length := List.length_pos.2 hne
  obtain ⟨x, hx⟩ : ∃ x, h[0]? = some x := ⟨h[0], List.getElem?_eq_getElem hlen⟩
  obtain ⟨n, hn⟩ : ∃ n, n = h.length - 1 := ⟨_, rfl⟩
  obtain ⟨h2, hh2⟩ : ∃ h2, h2 = heapDown n (visitHeap.Swap h 0 n) 0 n := ⟨_, rfl⟩
  have hperm2 : h2.Perm h := by
    rw [hh2]; exact (heapDown_perm _ _ _ _).trans (swap_perm _ _ _)
  have hlen2 : h2.length = n + 1 := by rw [hperm2.length_eq]; omega
  have hlast : h2[n]? = some x := by
    rw [hh2, heapDown_getElem_ge _ _ _ _ (by rw [swap_length]; omega) n (le_refl _)]
    rw [swap_getElem? h hlen (by omega), if_pos rfl]
    exact hx
  have hsplit : h2 = h2.take n ++ [x] := by
    apply List.ext_getElem?
    intro k
    by_cases hk : k < n
    · rw [List.getElem?_append_left (by simp; omega), List.getElem?_take_of_lt hk]
    · by_cases hk2 : k = n
      · subst hk2
        rw [hlast, List.getElem?_append_right (by simp)]
        simp [hlen2]
      · rw [List.getElem?_eq_none (by omega), List.getElem?_eq_none (by simp; omega)]
  have hpop : heapPop h = some (x, h2.take n) := by
    have hgl : h2.getLast? = some x := by
      rw [hsplit]; simp
    have hdl : h2.dropLast = h2.take n := by
      rw [List.dropLast_eq_take, hlen2]; rfl
    unfold heapPop
    simp only [← hn, ← hh2]
    rw [hgl, hdl]
  refine ⟨x, h2.take n, hpop, ?_, ?_⟩
  · refine hperm2.symm.trans ?_
    conv_lhs => rw [hsplit]
    exact List.perm_append_comm
  · intro hh
    constructor
    · intro k a b hk ha hb
      have hkn : k < n := by
        have := (List.getElem?_eq_some.1 ha).1
        simp at this; omega
      rw [List.getElem?_take_of_lt hkn] at ha
      rw [List.getElem?_take_of_lt (by omega)] at hb
      rw [hh2] at ha hb
      refine heapDown_heap n _ 0 n (by rw [swap_length]; omega) (by omega) ?_ k a b hk hkn ha hb
      constructor
      · intro k a b hk hkn hkp ha hb
        rw [swap_getElem? h hlen (by omega)] at ha hb
        rw [if_neg (by omega), if_neg (by omega)] at ha
        rw [if_neg (by omega), if_neg hkp] at hb
        exact hh k a b hk ha hb
      · intro k a b _ _ _ h0 _ _
        omega
    · intro y hy
      obtain ⟨k, hk⟩ := List.mem_iff_getElem?.1 hy
      exact isHeap_root_le h hh x hx k y hk

theorem heapPop_eq_none_iff (h : visitHeap) : heapPop h = none ↔ h = [] := by
  constructor
  · intro hn
    by_contra hne
    obtain ⟨x, h1, hp, _⟩ := heapPop_spec h hne
    rw [hn] at hp
    exact absurd hp (by simp)
  · intro he; subst he; exact heapPop_nil

end Geopath

namespace Geopath

/-! ## Duplicate removal keeps the set of segments -/

theorem compactFrom_subset (rest : List Path) : ∀ (last x : Path),
    x ∈ compactFrom last rest → x ∈ rest := by
  induction rest with
  | nil => intro last x h; simp [compactFrom] at h
  | cons v rest ih =>
    intro last x h
    simp only [compactFrom] at h
    split at h
    · rcases List.mem_cons.1 h with h | h
      · exact h ▸ List.mem_cons_self _ _
      · exact List.mem_cons_of_mem _ (ih _ _ h)
    · exact List.mem_cons_of_mem _ (ih _ _ h)

theorem mem_compactFrom (rest : List Path) : ∀ (last x : Path),
    x ∈ rest → x = last ∨ x ∈ compactFrom last rest := by
  induction rest with
  | nil => intro last x h; simp at h
  | cons v rest ih =>
    intro last x h
    simp only [compactFrom]
    by_cases hv : v ≠ last
    · rw [if_pos hv]
      rcases List.mem_cons.1 h with h | h
      · right; rw [h]; exact List.mem_cons_self _ _
      · rcases ih v x h with h1 | h1
        · right; rw [h1]; exact List.mem_cons_self _ _
        · right; exact List.mem_cons_of_mem _ h1
    · rw [if_neg hv]
      have hv' : v = last := not_not.1 hv
      rcases List.mem_cons.1 h with h | h
      · left; rw [h, hv']
      · exact ih last x h

theorem mem_compactKept (s : List Path) (x : Path) : x ∈ compactKept s ↔ x ∈ s := by
  cases s with
  | nil => simp [compactKept]
  | cons first rest =>
    simp only [compactKept, List.mem_cons]
    constructor
    · rintro (h | h)
      · exact Or.inl h
      · exact Or.inr (compactFrom_subset _ _ _ h)
    · rintro (h | h)
      · exact Or.inl h
      · exact mem_compactFrom rest first x h

theorem mem_slicesCompact (s : List Path) (x : Path) : x ∈ slicesCompact s ↔ x ∈ s := by
  unfold slicesCompact
  rw [List.mem_append, mem_compactKept]
  constructor
  · rintro (h | h)
    · exact h
    · exact List.mem_of_mem_drop h
  · intro h; exact Or.inl h

theorem mem_segments {sortFunc : (Path → Path → Bool) → List Path → List Path}
    (hs : IsSortFunc sortFunc) (paths : List Path) (x : Path) :
    x ∈ slicesCompact (sortFunc less paths) ↔ x ∈ paths := by
  rw [mem_slicesCompact]
  exact (hs.1 less paths).mem_iff

/-! ## Node assignment -/

theorem pointsOK_lookup_none {st : List (LongLat × Int) × List LongLat} (h : PointsOK st)
    (p : LongLat) : st.1.lookup p = none ↔ p ∉ st.2 := by
  constructor
  · intro hn hp
    obtain ⟨k, hk⟩ := List.mem_iff_getElem?.1 hp
    have := (h.2 p k).2 ⟨k, rfl, hk⟩
    rw [hn] at this
    exact absurd this (by simp)
  · intro hp
    cases hl : st.1.lookup p with
    | none => rfl
    | some i =>
      obtain ⟨k, _, hk⟩ := (h.2 p i).1 hl
      exact absurd (List.getElem?_mem hk) hp

theorem addPoint_ok {st : List (LongLat × Int) × List LongLat} (h : PointsOK st) (p : LongLat) :
    PointsOK (addPoint st p) ∧ ∀ q, q ∈ (addPoint st p).2 ↔ q ∈ st.2 ∨ q = p := by
  unfold addPoint
  cases hl : st.1.lookup p with
  | some i =>
    simp only
    refine ⟨h, ?_⟩
    intro q
    constructor
    · intro hq; exact Or.inl hq
    · rintro (hq | hq)
      · exact hq
      · subst hq
        obtain ⟨k, _, hk⟩ := (h.2 q i).1 hl
        exact List.getElem?_mem hk
  | none =>
    simp only
    have hp : p ∉ st.2 := (pointsOK_lookup_none h p).1 hl
    refine ⟨⟨?_, ?_⟩, ?_⟩
    · rw [List.nodup_append]
      refine ⟨h.1, List.nodup_singleton p, ?_⟩
      intro a ha hb
      simp at hb
      subst hb
      exact hp ha
    · intro q i
      rw [List.lookup_cons]
      by_cases hqp : q = p
      · subst hqp
        simp only [beq_self_eq_true]
        constructor
        · intro hi
          have hi' := Option.some.inj hi
          exact ⟨st.2.length, hi'.symm, by simp⟩
        · rintro ⟨k, hik, hk⟩
          have hkl : ¬ k < st.2.length := by
            intro hlt
            rw [List.getElem?_append_left hlt] at hk
            exact hp (List.getElem?_mem hk)
          have hkl2 : k < (st.2 ++ [q]).length := (List.getElem?_eq_some.1 hk).1
          simp at hkl2
          have : k = st.2.length := by omega
          rw [hik, this]
      · have hne : (q == p) = false := by simpa using hqp
        simp only [hne]
        rw [h.2 q i]
        constructor
        · rintro ⟨k, hik, hk⟩
          have hkl : k < st.2.length := (List.getElem?_eq_some.1 hk).1
          exact ⟨k, hik, by rw [List.getElem?_append_left hkl]; exact hk⟩
        · rintro ⟨k, hik, hk⟩
          by_cases hkl : k < st.2.length
          · rw [List.getElem?_append_left hkl] at hk
            exact ⟨k, hik, hk⟩
          · have hkl2 : k < (st.2 ++ [p]).length := (List.getElem?_eq_some.1 hk).1
            simp at hkl2
            have hk' : k = st.2.length := by omega
            subst hk'
            simp at hk
            exact absurd hk.symm hqp
    · intro q
      simp [List.mem_append]

theorem addPoints_fold_ok (paths : List Path) :
    ∀ st : List (LongLat × Int) × List LongLat, PointsOK st →
      PointsOK (paths.foldl (fun st path => addPoint (addPoint st path.1) path.2) st) ∧
      ∀ q, q ∈ (paths.foldl (fun st path => addPoint (addPoint st path.1) path.2) st).2 ↔
        q ∈ st.2 ∨ IsNode paths q := by
  induction paths with
  | nil =>
    intro st h
    simp [IsNode, h]
  | cons path rest ih =>
    intro st h
    simp only [List.foldl_cons]
    obtain ⟨h1, m1⟩ := addPoint_ok h path.1
    obtain ⟨h2, m2⟩ := addPoint_ok h1 path.2
    obtain ⟨h3, m3⟩ := ih _ h2
    refine ⟨h3, ?_⟩
    intro q
    rw [m3, m2, m1]
    unfold IsNode
    constructor
    · rintro (((hq | hq) | hq) | ⟨seg, hseg, hq⟩)
      · exact Or.inl hq
      · exact Or.inr ⟨path, List.mem_cons_self _ _, Or.inl hq⟩
      · exact Or.inr ⟨path, List.mem_cons_self _ _, Or.inr hq⟩
      · exact Or.inr ⟨seg, List.mem_cons_of_mem _ hseg, hq⟩
    · rintro (hq | ⟨seg, hseg, hq⟩)
      · exact Or.inl (Or.inl (Or.inl hq))
      · rcases List.mem_cons.1 hseg with hseg | hseg
        · subst hseg
          rcases hq with hq | hq
          · exact Or.inl (Or.inl (Or.inr hq))
          · exact Or.inl (Or.inr hq)
        · exact Or.inr ⟨seg, hseg, hq⟩

theorem addPoints_ok (paths : List Path) :
    PointsOK (addPoints paths) ∧ ∀ q, q ∈ (addPoints paths).2 ↔ IsNode paths q := by
  have hinit : PointsOK (([], []) : List (LongLat × Int) × List LongLat) := by
    constructor
    · simp
    · intro p i; simp
  obtain ⟨h, m⟩ := addPoints_fold_ok paths _ hinit
  refine ⟨h, ?_⟩
  intro q
  have := m q
  simpa [addPoints] using this

/-- The index that the map gives to a coordinate of `points` is its position. -/
theorem mapGet_of_mem {st : List (LongLat × Int) × List LongLat} (h : PointsOK st)
    {p : LongLat} (hp : p ∈ st.2) :
    ∃ k : Nat, mapGet st.1 p = (k : Int) ∧ st.2[k]? = some p := by
  obtain ⟨k, hk⟩ := List.mem_iff_getElem?.1 hp
  refine ⟨k, ?_, hk⟩
  have := (h.2 p k).2 ⟨k, rfl, hk⟩
  simp [mapGet, this]

theorem pointsOK_index_unique {st : List (LongLat × Int) × List LongLat} (h : PointsOK st)
    {p : LongLat} {j k : Nat} (hj : st.2[j]? = some p) (hk : st.2[k]? = some p) : j = k := by
  obtain ⟨hjl, hje⟩ := List.getElem?_eq_some.1 hj
  obtain ⟨hkl, hke⟩ := List.getElem?_eq_some.1 hk
  exact (List.Nodup.getElem_inj_iff h.1).1 (hje.trans hke.symm)

end Geopath

namespace Geopath

/-! ## Adjacency lists -/

theorem appendAt_spec {α : Type} (s : List (List α)) (u : Int) (a : α)
    (h0 : 0 ≤ u) (h1 : u < (s.length : Int)) :
    ∃ s1 row, appendAt s u a = some s1 ∧ s1.length = s.length ∧ getAt s u = some row ∧
      getAt s1 u = some (row ++ [a]) ∧ ∀ j, j ≠ u → getAt s1 j = getAt s j := by
  obtain ⟨row, hrow⟩ := getAt_of_range h0 h1
  obtain ⟨s1, hs1⟩ := setAt_of_range (row ++ [a]) h0 h1
  obtain ⟨_, _, hl, hg, hne⟩ := setAt_some hs1
  refine ⟨s1, row, ?_, hl, hrow, hg, hne⟩
  simp [appendAt, hrow, hs1]

theorem graphOK_replicate (n : Nat) :
    GraphOK n (List.replicate n ([] : List Int)) (List.replicate n ([] : List ℚ)) := by
  refine ⟨by simp, by simp, ?_, ?_⟩
  · intro u row wrow h1 h2
    rw [getAt_replicate _ _ _ _ h1, getAt_replicate _ _ _ _ h2]
    rfl
  · intro u row v h1 hv
    rw [getAt_replicate _ _ _ _ h1] at hv
    simp at hv

theorem arc_replicate (n : Nat) (u v : Int) (w : ℚ) :
    ¬ Arc (List.replicate n ([] : List Int)) (List.replicate n ([] : List ℚ)) u v w := by
  rintro ⟨row, wrow, i, h1, _, h3, _⟩
  rw [getAt_replicate _ _ _ _ h1] at h3
  simp at h3

/-- Appending `v` to `adj[u]` and `w` to `adjDist[u]` adds exactly one entry. -/
theorem appendArc {n : Nat} {adj : List (List Int)} {adjDist : List (List ℚ)}
    (hg : GraphOK n adj adjDist) (u v : Int) (w : ℚ)
    (hu0 : 0 ≤ u) (hu1 : u < (n : Int)) (hv0 : 0 ≤ v) (hv1 : v < (n : Int)) :
    ∃ adj1 adjDist1, appendAt adj u v = some adj1 ∧ appendAt adjDist u w = some adjDist1 ∧
      GraphOK n adj1 adjDist1 ∧
      ∀ a b c, Arc adj1 adjDist1 a b c ↔ Arc adj adjDist a b c ∨ (a = u ∧ b = v ∧ c = w) := by
  obtain ⟨adj1, row, ha, hal, harow, harow1, hane⟩ :=
    appendAt_spec adj u v hu0 (by rw [hg.adj_len]; exact hu1)
  obtain ⟨adjDist1, wrow, hd, hdl, hdrow, hdrow1, hdne⟩ :=
    appendAt_spec adjDist u w hu0 (by rw [hg.dist_len]; exact hu1)
  have hlen : row.length = wrow.length := hg.rows u row wrow harow hdrow
  refine ⟨adj1, adjDist1, ha, hd, ?_, ?_⟩
  · refine ⟨by rw [hal, hg.adj_len], by rw [hdl, hg.dist_len], ?_, ?_⟩
    · intro a r1 w1 h1 h2
      by_cases hau : a = u
      · subst hau
        rw [harow1] at h1; rw [hdrow1] at h2
        have e1 := Option.some.inj h1
        have e2 := Option.some.inj h2
        rw [← e1, ← e2]; simp [hlen]
      · rw [hane a hau] at h1; rw [hdne a hau] at h2
        exact hg.rows a r1 w1 h1 h2
    · intro a r1 b h1 hb
      by_cases hau : a = u
      · subst hau
        rw [harow1] at h1
        have e1 := Option.some.inj h1
        rw [← e1] at hb
        rcases List.mem_append.1 hb with hb | hb
        · exact hg.range a row b harow hb
        · simp at hb; subst hb; exact ⟨hv0, hv1⟩
      · rw [hane a hau] at h1
        exact hg.range a r1 b h1 hb
  · intro a b c
    constructor
    · rintro ⟨r1, w1, i, h1, h2, h3, h4⟩
      by_cases hau : a = u
      · subst hau
        rw [harow1] at h1; rw [hdrow1] at h2
        have e1 := Option.some.inj h1
        have e2 := Option.some.inj h2
        subst e1; subst e2
        by_cases hi : i < row.length
        · left
          rw [List.getElem?_append_left hi] at h3
          rw [List.getElem?_append_left (by omega)] at h4
          exact ⟨row, wrow, i, harow, hdrow, h3, h4⟩
        · right
          have hil : i < (row ++ [v]).length := (List.getElem?_eq_some.1 h3).1
          simp at hil
          have hi' : i = row.length := by omega
          subst hi'
          simp at h3
          rw [hlen] at h4
          simp at h4
          exact ⟨rfl, h3.symm, h4.symm⟩
      · left
        rw [hane a hau] at h1; rw [hdne a hau] at h2
        exact ⟨r1, w1, i, h1, h2, h3, h4⟩
    · rintro (⟨r1, w1, i, h1, h2, h3, h4⟩ | ⟨rfl, rfl, rfl⟩)
      · by_cases hau : a = u
        · subst hau
          rw [harow] at h1; rw [hdrow] at h2
          have e1 := Option.some.inj h1
          have e2 := Option.some.inj h2
          subst e1; subst e2
          have hi : i < row.length := (List.getElem?_eq_some.1 h3).1
          refine ⟨row ++ [v], wrow ++ [w], i, harow1, hdrow1, ?_, ?_⟩
          · rw [List.getElem?_append_left hi]; exact h3
          · rw [List.getElem?_append_left (by omega)]; exact h4
        · exact ⟨r1, w1, i, (hane a hau).trans h1, (hdne a hau).trans h2, h3, h4⟩
      · refine ⟨row ++ [b], wrow ++ [c], row.length, harow1, hdrow1, by simp, ?_⟩
        rw [hlen]; simp

/-- The arcs that one segment contributes, one in each direction. -/
theorem adjStep_spec {n : Nat} {adj : List (List Int)} {adjDist : List (List ℚ)}
    (hg : GraphOK n adj adjDist) (calcDist : LongLat → LongLat → ℚ)
    (pointIdx : List (LongLat × Int)) (path : Path)
    (h1 : 0 ≤ mapGet pointIdx path.1 ∧ mapGet pointIdx path.1 < (n : Int))
    (h2 : 0 ≤ mapGet pointIdx path.2 ∧ mapGet pointIdx path.2 < (n : Int)) :
    ∃ st1, adjStep calcDist pointIdx (adj, adjDist) path = some st1 ∧ GraphOK n st1.1 st1.2 ∧
      ∀ a b c, Arc st1.1 st1.2 a b c ↔ Arc adj adjDist a b c ∨
        (a = mapGet pointIdx path.1 ∧ b = mapGet pointIdx path.2 ∧ c = calcDist path.1 path.2) ∨
        (a = mapGet pointIdx path.2 ∧ b = mapGet pointIdx path.1 ∧ c = calcDist path.1 path.2) := by
  obtain ⟨a1, d1, ha1, hd1, hg1, harc1⟩ :=
    appendArc hg (mapGet pointIdx path.1) (mapGet pointIdx path.2) (calcDist path.1 path.2)
      h1.1 h1.2 h2.1 h2.2
  obtain ⟨a2, d2, ha2, hd2, hg2, harc2⟩ :=
    appendArc hg1 (mapGet pointIdx path.2) (mapGet pointIdx path.1) (calcDist path.1 path.2)
      h2.1 h2.2 h1.1 h1.2
  refine ⟨(a2, d2), ?_, hg2, ?_⟩
  · simp [adjStep, hd1, hd2, ha1, ha2]
  · intro a b c
    rw [harc2, harc1, or_assoc]

theorem adjLoop_spec (n : Nat) (calcDist : LongLat → LongLat → ℚ)
    (pointIdx : List (LongLat × Int)) (paths : List Path) :
    ∀ (st : List (List Int) × List (List ℚ)), GraphOK n st.1 st.2 →
      (∀ seg ∈ paths, (0 ≤ mapGet pointIdx seg.1 ∧ mapGet pointIdx seg.1 < (n : Int)) ∧
        (0 ≤ mapGet pointIdx seg.2 ∧ mapGet pointIdx seg.2 < (n : Int))) →
      ∃ st1, adjLoop calcDist pointIdx paths st = some st1 ∧ GraphOK n st1.1 st1.2 ∧
        ∀ a b c, Arc st1.1 st1.2 a b c ↔ Arc st.1 st.2 a b c ∨ ∃ seg ∈ paths,
          (a = mapGet pointIdx seg.1 ∧ b = mapGet pointIdx seg.2 ∧ c = calcDist seg.1 seg.2) ∨
          (a = mapGet pointIdx seg.2 ∧ b = mapGet pointIdx seg.1 ∧ c = calcDist seg.1 seg.2) := by
  induction paths with
  | nil =>
    intro st hg _
    exact ⟨st, rfl, hg, by simp⟩
  | cons path rest ih =>
    intro st hg hr
    obtain ⟨adj, adjDist⟩ := st
    obtain ⟨st1, hs1, hg1, harc1⟩ := adjStep_spec hg calcDist pointIdx path
      (hr path (List.mem_cons_self _ _)).1 (hr path (List.mem_cons_self _ _)).2
    obtain ⟨st2, hs2, hg2, harc2⟩ := ih st1 hg1
      (fun seg hseg => hr seg (List.mem_cons_of_mem _ hseg))
    refine ⟨st2, ?_, hg2, ?_⟩
    · simp [adjLoop, hs1, hs2]
    · intro a b c
      rw [harc2, harc1]
      constructor
      · rintro ((h | h) | ⟨seg, hseg, h⟩)
        · exact Or.inl h
        · exact Or.inr ⟨path, List.mem_cons_self _ _, h⟩
        · exact Or.inr ⟨seg, List.mem_cons_of_mem _ hseg, h⟩
      · rintro (h | ⟨seg, hseg, h⟩)
        · exact Or.inl (Or.inl h)
        · rcases List.mem_cons.1 hseg with hseg | hseg
          · subst hseg; exact Or.inl (Or.inr h)
          · exact Or.inr ⟨seg, hseg, h⟩

theorem mapGet_range (segs : List Path) {seg : Path} (hseg : seg ∈ segs) :
    (0 ≤ mapGet (addPoints segs).1 seg.1 ∧
      mapGet (addPoints segs).1 seg.1 < ((addPoints segs).2.length : Int)) ∧
    (0 ≤ mapGet (addPoints segs).1 seg.2 ∧
      mapGet (addPoints segs).1 seg.2 < ((addPoints segs).2.length : Int)) := by
  obtain ⟨hok, hm⟩ := addPoints_ok segs
  have m1 : seg.1 ∈ (addPoints segs).2 := (hm _).2 ⟨seg, hseg, Or.inl rfl⟩
  have m2 : seg.2 ∈ (addPoints segs).2 := (hm _).2 ⟨seg, hseg, Or.inr rfl⟩
  obtain ⟨k1, e1, g1⟩ := mapGet_of_mem hok m1
  obtain ⟨k2, e2, g2⟩ := mapGet_of_mem hok m2
  have l1 := (List.getElem?_eq_some.1 g1).1
  have l2 := (List.getElem?_eq_some.1 g2).1
  rw [e1, e2]
  omega

/-- The block "Create adj list" succeeds, and its entries are exactly the
segments, each in both directions. -/
theorem buildAdj_spec (calcDist : LongLat → LongLat → ℚ) (segs : List Path) :
    ∃ adj adjDist,
      buildAdj calcDist (addPoints segs).1 (addPoints segs).2.length segs = some (adj, adjDist) ∧
      GraphOK (addPoints segs).2.length adj adjDist ∧
      ∀ a b c, Arc adj adjDist a b c ↔ ∃ seg ∈ segs,
        (a = mapGet (addPoints segs).1 seg.1 ∧ b = mapGet (addPoints segs).1 seg.2 ∧
          c = calcDist seg.1 seg.2) ∨
        (a = mapGet (addPoints segs).1 seg.2 ∧ b = mapGet (addPoints segs).1 seg.1 ∧
          c = calcDist seg.1 seg.2) := by
  obtain ⟨st1, hs1, hg1, harc1⟩ := adjLoop_spec (addPoints segs).2.length calcDist
    (addPoints segs).1 segs (List.replicate _ [], List.replicate _ []) (graphOK_replicate _)
    (fun seg hseg => mapGet_range segs hseg)
  refine ⟨st1.1, st1.2, hs1, hg1, ?_⟩
  intro a b c
  rw [harc1]
  constructor
  · rintro (h | h)
    · exact absurd h (arc_replicate _ _ _ _)
    · exact h
  · intro h; exact Or.inr h

end Geopath

namespace Geopath

/-! ## Reading and writing `dists` -/

theorem distOf_of_getAt {dists : List ℚ} {v : Int} {d : ℚ} (h : getAt dists v = some d) :
    distOf dists v = d := by
  simp [distOf, h]

theorem getAt_distOf {dists : List ℚ} {v : Int} (h0 : 0 ≤ v) (h1 : v < (dists.length : Int)) :
    getAt dists v = some (distOf dists v) := by
  obtain ⟨d, hd⟩ := getAt_of_range h0 h1
  rw [hd, distOf_of_getAt hd]

theorem distOf_setAt {dists dists1 : List ℚ} {v : Int} {d : ℚ}
    (h : setAt dists v d = some dists1) (u : Int) :
    distOf dists1 u = if u = v then d else distOf dists u := by
  obtain ⟨_, _, _, hg, hne⟩ := setAt_some h
  by_cases huv : u = v
  · subst huv
    rw [if_pos rfl, distOf_of_getAt hg]
  · rw [if_neg huv]
    unfold distOf
    rw [hne u huv]

theorem distOf_replicate (n : Nat) (v : Int) : distOf (List.replicate n maxFloat64) v = maxFloat64 := by
  unfold distOf
  cases h : getAt (List.replicate n maxFloat64) v with
  | none => rfl
  | some d => simp [getAt_replicate _ _ _ _ h]

theorem maxFloat64_pos : (0 : ℚ) < maxFloat64 := by
  unfold maxFloat64; norm_num

/-! ## Walks and chains -/

theorem walk_nonneg {adj : List (List Int)} {adjDist : List (List ℚ)}
    (hw : ∀ u v w, Arc adj adjDist u v w → 0 ≤ w) {u v : Int} {d : ℚ}
    (h : Walk adj adjDist u v d) : 0 ≤ d := by
  induction h with
  | here => exact le_refl _
  | step _ harc ih => exact add_nonneg ih (hw _ _ _ harc)

theorem chain_walk {adj : List (List Int)} {adjDist : List (List ℚ)} {parent : List Int}
    {s v : Int} {l : List Int} {d : ℚ} (h : Chain adj adjDist parent s v l d) :
    Walk adj adjDist s v d := by
  induction h with
  | base => exact Walk.here s
  | step _ _ harc _ _ ih => exact Walk.step ih harc

theorem chain_head_mem {adj : List (List Int)} {adjDist : List (List ℚ)} {parent : List Int}
    {s v : Int} {l : List Int} {d : ℚ} (h : Chain adj adjDist parent s v l d) : v ∈ l := by
  cases h with
  | base => simp
  | step => simp

/-- A chain only reads `parent` at its own nodes other than the start node. -/
theorem chain_congr {adj : List (List Int)} {adjDist : List (List ℚ)} {parent parent1 : List Int}
    {s v : Int} {l : List Int} {d : ℚ} (h : Chain adj adjDist parent s v l d)
    (hp : ∀ u ∈ l, u ≠ s → getAt parent1 u = getAt parent u) :
    Chain adj adjDist parent1 s v l d := by
  induction h with
  | base => exact Chain.base
  | step hvs hpar harc _ hnot ih =>
    refine Chain.step hvs ?_ harc (ih ?_) hnot
    · rw [hp _ (List.mem_cons_self _ _) hvs]; exact hpar
    · intro u hu hus
      exact hp u (List.mem_cons_of_mem _ hu) hus

/-! ## The count of unsettled adjacency entries -/

theorem unsettledDeg_insert (adj : List (List Int)) (n : Nat) (S : Finset Int) (v : Int)
    (h0 : 0 ≤ v) (h1 : v < (n : Int)) (hv : v ∉ S) :
    unsettledDeg adj n S = unsettledDeg adj n (insert v S) + deg adj v := by
  unfold unsettledDeg
  have hset : Finset.Ico (0 : Int) (n : Int) \ S
      = insert v (Finset.Ico (0 : Int) (n : Int) \ insert v S) := by
    ext u
    simp only [Finset.mem_sdiff, Finset.mem_Ico, Finset.mem_insert]
    constructor
    · rintro ⟨hr, hu⟩
      by_cases huv : u = v
      · exact Or.inl huv
      · exact Or.inr ⟨hr, by tauto⟩
    · rintro (hu | ⟨hr, hu⟩)
      · subst hu; exact ⟨⟨h0, h1⟩, hv⟩
      · exact ⟨hr, by tauto⟩
  rw [hset, Finset.sum_insert (by simp), add_comm]

end Geopath

namespace Geopath

/-! ## The inner loop keeps the invariant -/

/-- More entries count as relaxed, given the bound for each new one. -/
theorem DInv.relax_more {adj : List (List Int)} {adjDist : List (List ℚ)} {n : Nat} {s e : Int}
    {pend pend1 : Int → Nat → Prop} {S : Finset Int} {h : visitHeap} {dists : List ℚ}
    {parent : List Int} (inv : DInv adj adjDist n s e pend S h dists parent)
    (hnew : ∀ u ∈ S, ∀ (row : List Int) (wrow : List ℚ) (j : Nat) (t : Int) (w : ℚ),
      getAt adj u = some row → getAt adjDist u = some wrow → row[j]? = some t →
      wrow[j]? = some w → ¬ pend1 u j → pend u j → distOf dists t ≤ est s dists u + w) :
    DInv adj adjDist n s e pend1 S h dists parent :=
  { dists_len := inv.dists_len
    parent_len := inv.parent_len
    heap := inv.heap
    s_mem := inv.s_mem
    S_range := inv.S_range
    e_not := inv.e_not
    bound := inv.bound
    entry := inv.entry
    uniq := inv.uniq
    stale := inv.stale
    relaxed := by
      intro u hu row wrow j t w h1 h2 h3 h4 hp
      by_cases hpu : pend u j
      · exact hnew u hu row wrow j t w h1 h2 h3 h4 hp hpu
      · exact inv.relaxed u hu row wrow j t w h1 h2 h3 h4 hpu
    settled_le := inv.settled_le
    frontier := inv.frontier
    chain := inv.chain }

theorem relaxLoop_inv {adj : List (List Int)} {adjDist : List (List ℚ)} {n : Nat} {s e : Int}
    {S : Finset Int} {parent : List Int} {x : edge} {v : Int} {row : List Int} {wrow : List ℚ}
    (hg : GraphOK n adj adjDist) (hw : ∀ u v w, Arc adj adjDist u v w → 0 ≤ w)
    (hxv : x.eto = v) (hrow : getAt adj v = some row) (hwrow : getAt adjDist v = some wrow)
    (hvS : v ∈ S) :
    ∀ (rest : List Int) (i : Nat) (h : visitHeap) (dists : List ℚ),
      rest = row.drop i →
      DInv adj adjDist n s e (fun u j => u = v ∧ i ≤ j) S h dists parent →
      x.dist = est s dists v →
      (∀ u ∈ S, est s dists u ≤ x.dist) →
      ∃ h1 dists1, relaxLoop adjDist x i rest h dists = some (h1, dists1) ∧
        DInv adj adjDist n s e (fun _ _ => False) S h1 dists1 parent ∧
        h1.length ≤ h.length + rest.length := by
  intro rest
  induction rest with
  | nil =>
    intro i h dists hrest inv _ _
    refine ⟨h, dists, by simp [relaxLoop], ?_, by simp⟩
    have hlen : row.length ≤ i := List.drop_eq_nil_iff.1 hrest.symm
    apply inv.relax_more
    intro u _ row1 _ j t _ h1 _ h3 _ _ hp
    obtain ⟨huv, hij⟩ := hp
    subst huv
    rw [hrow] at h1
    have e1 := Option.some.inj h1
    subst e1
    have := (List.getElem?_eq_some.1 h3).1
    omega
  | cons nei rest ih =>
    intro i h dists hrest inv hxd hb
    have hi : i < row.length := by
      by_contra hcon
      rw [List.drop_eq_nil_iff.2 (not_lt.1 hcon)] at hrest
      exact absurd hrest (by simp)
    have hnei : row[i]? = some nei := by
      rw [List.getElem?_eq_getElem hi]
      have := List.drop_eq_getElem_cons hi
      rw [this] at hrest
      simp only [List.cons.injEq] at hrest
      rw [hrest.1]
    have hrest1 : rest = row.drop (i + 1) := by
      have := List.drop_eq_getElem_cons hi
      rw [this] at hrest
      simp only [List.cons.injEq] at hrest
      exact hrest.2
    have hlen : row.length = wrow.length := hg.rows v row wrow hrow hwrow
    obtain ⟨w, hwi⟩ : ∃ w, wrow[i]? = some w :=
      getElem?_exists wrow (i) (by omega)
    have harc : Arc adj adjDist v nei w := ⟨row, wrow, i, hrow, hwrow, hnei, hwi⟩
    have hw0 : 0 ≤ w := hw _ _ _ harc
    have hnr : 0 ≤ nei ∧ nei < (n : Int) := hg.range v row nei hrow (List.getElem?_mem hnei)
    have hgd : getAt dists nei = some (distOf dists nei) :=
      getAt_distOf hnr.1 (by rw [inv.dists_len]; exact hnr.2)
    have hbind : (getAt adjDist x.eto).bind (fun row => row[i]?) = some w := by
      rw [hxv, hwrow]; exact hwi
    simp only [relaxLoop, hbind, hgd]
    by_cases hcmp : x.dist + w ≥ distOf dists nei
    · rw [if_pos hcmp]
      have inv1 : DInv adj adjDist n s e (fun u j => u = v ∧ i + 1 ≤ j) S h dists parent := by
        apply inv.relax_more
        intro u _ row1 wrow1 j t w1 h1 h2 h3 h4 hp1 hp
        obtain ⟨huv, hij⟩ := hp
        subst huv
        have hj : j = i := by
          by_contra hne
          exact hp1 ⟨rfl, by omega⟩
        subst hj
        rw [hrow] at h1; rw [hwrow] at h2
        have e1 := Option.some.inj h1
        have e2 := Option.some.inj h2
        subst e1; subst e2
        have e3 : t = nei := Option.some.inj (h3.symm.trans hnei)
        have e4 : w1 = w := Option.some.inj (h4.symm.trans hwi)
        subst e3; subst e4
        rw [← hxd]; exact hcmp
      obtain ⟨h1, dists1, hr, hinv, hl⟩ := ih (i + 1) h dists hrest1 inv1 hxd hb
      exact ⟨h1, dists1, hr, hinv, by simp; omega⟩
    · rw [if_neg hcmp]
      have hlt : x.dist + w < distOf dists nei := not_le.1 hcmp
      obtain ⟨dists1, hset⟩ := setAt_of_range (x.dist + w) hnr.1
        (by rw [inv.dists_len]; exact hnr.2 : nei < (dists.length : Int))
      simp only [hset]
      have hd1 : ∀ u, distOf dists1 u = if u = nei then x.dist + w else distOf dists u :=
        distOf_setAt hset
      have hdle : ∀ u, distOf dists1 u ≤ distOf dists u := by
        intro u; rw [hd1]; split
        · rename_i hu; subst hu; exact le_of_lt hlt
        · exact le_refl _
      have hneiS : ∀ u ∈ S, u ≠ s → u ≠ nei := by
        intro u hu hus hun
        subst hun
        have h1 := hb u hu
        unfold est at h1
        rw [if_neg hus] at h1
        linarith
      have hest : ∀ u ∈ S, est s dists1 u = est s dists u := by
        intro u hu
        unfold est
        by_cases hus : u = s
        · rw [if_pos hus, if_pos hus]
        · rw [if_neg hus, if_neg hus, hd1, if_neg (hneiS u hu hus)]
      have hperm := heapPush_perm h ⟨x.eto, nei, x.dist + w⟩
      have hmem : ∀ y, y ∈ heapPush h ⟨x.eto, nei, x.dist + w⟩ ↔
          y = ⟨x.eto, nei, x.dist + w⟩ ∨ y ∈ h := by
        intro y; rw [hperm.mem_iff, List.mem_cons]
      have inv1 : DInv adj adjDist n s e (fun u j => u = v ∧ i + 1 ≤ j) S
          (heapPush h ⟨x.eto, nei, x.dist + w⟩) dists1 parent :=
        { dists_len := by rw [(setAt_some hset).2.2.1, inv.dists_len]
          parent_len := inv.parent_len
          heap := heapPush_isHeap _ _ inv.heap
          s_mem := inv.s_mem
          S_range := inv.S_range
          e_not := inv.e_not
          bound := fun u => le_trans (hdle u) (inv.bound u)
          entry := by
            intro y hy
            rcases (hmem y).1 hy with hy | hy
            · subst hy
              refine ⟨hxv ▸ hvS, hnr.1, hnr.2, lt_of_lt_of_le hlt (inv.bound nei), ?_, w, ?_, ?_⟩
              · simp only; rw [hd1, if_pos rfl]
              · simp only; rw [hxv]; exact harc
              · simp only; rw [hxv, hest v hvS, ← hxd]
            · obtain ⟨e1, e2, e3, e4, e5, w1, e6, e7⟩ := inv.entry y hy
              exact ⟨e1, e2, e3, e4, le_trans (hdle _) e5, w1, e6, by rw [hest _ e1]; exact e7⟩
          uniq := by
            refine (List.Perm.pairwise_iff ?_ hperm).2 ?_
            · intro a b hab hba heq
              exact hab hba.symm heq.symm
            · rw [List.pairwise_cons]
              refine ⟨?_, inv.uniq⟩
              intro y hy hto
              simp only at hto ⊢
              obtain ⟨_, _, _, _, e5, _⟩ := inv.entry y hy
              rw [← hto] at e5
              intro heq
              rw [← heq] at e5
              linarith
          stale := by
            intro u hu hus y hy hyu
            rcases (hmem y).1 hy with hy | hy
            · subst hy
              simp only at hyu
              exact absurd hyu.symm (hneiS u hu hus)
            · exact lt_of_le_of_lt (hdle u) (inv.stale u hu hus y hy hyu)
          relaxed := by
            intro u hu row1 wrow1 j t w1 h1 h2 h3 h4 hp
            rw [hest u hu]
            by_cases hold : u = v ∧ i ≤ j
            · obtain ⟨huv, hij⟩ := hold
              subst huv
              have hj : j = i := by
                by_contra hne
                exact hp ⟨rfl, by omega⟩
              subst hj
              rw [hrow] at h1; rw [hwrow] at h2
              have e1 := Option.some.inj h1
              have e2 := Option.some.inj h2
              subst e1; subst e2
              have e3 : t = nei := Option.some.inj (h3.symm.trans hnei)
              have e4 : w1 = w := Option.some.inj (h4.symm.trans hwi)
              subst e3; subst e4
              rw [hd1, if_pos rfl, ← hxd]
            · exact le_trans (hdle t) (inv.relaxed u hu row1 wrow1 j t w1 h1 h2 h3 h4 hold)
          settled_le := by
            intro u hu y hy
            rw [hest u hu]
            rcases (hmem y).1 hy with hy | hy
            · subst hy
              simp only
              have := hb u hu
              linarith
            · exact inv.settled_le u hu y hy
          frontier := by
            intro t ht hdt
            by_cases htn : t = nei
            · subst htn
              refine ⟨⟨x.eto, t, x.dist + w⟩, (hmem _).2 (Or.inl rfl), rfl, ?_⟩
              simp only; rw [hd1, if_pos rfl]
            · rw [hd1, if_neg htn] at hdt
              obtain ⟨y, hy, hyt, hyd⟩ := inv.frontier t ht hdt
              refine ⟨y, (hmem y).2 (Or.inr hy), hyt, ?_⟩
              rw [hd1, if_neg htn]; exact hyd
          chain := by
            intro u hu
            obtain ⟨l, hc, hl⟩ := inv.chain u hu
            exact ⟨l, by rw [hest u hu]; exact hc, hl⟩ }
      have hxd1 : x.dist = est s dists1 v := by rw [hest v hvS]; exact hxd
      have hb1 : ∀ u ∈ S, est s dists1 u ≤ x.dist := by
        intro u hu; rw [hest u hu]; exact hb u hu
      obtain ⟨h1, dists2, hr, hinv, hl⟩ :=
        ih (i + 1) (heapPush h ⟨x.eto, nei, x.dist + w⟩) dists1 hrest1 inv1 hxd1 hb1
      refine ⟨h1, dists2, hr, hinv, ?_⟩
      have := hperm.length_eq
      simp only [List.length_cons] at this ⊢
      omega

end Geopath

namespace Geopath

/-! ## Steps of the outer loop -/

theorem est_le_max {adj : List (List Int)} {adjDist : List (List ℚ)} {n : Nat} {s e : Int}
    {pend : Int → Nat → Prop} {S : Finset Int} {h : visitHeap} {dists : List ℚ}
    {parent : List Int} (inv : DInv adj adjDist n s e pend S h dists parent) (t : Int) :
    est s dists t ≤ maxFloat64 := by
  unfold est
  split
  · exact le_of_lt maxFloat64_pos
  · exact inv.bound t

/-- No walk from the start node undercuts a settled distance, and a walk to an
unsettled node is no shorter than some frontier entry. -/
theorem lower_bound {adj : List (List Int)} {adjDist : List (List ℚ)} {n : Nat} {s e : Int}
    {S : Finset Int} {h : visitHeap} {dists : List ℚ} {parent : List Int}
    (hw : ∀ u v w, Arc adj adjDist u v w → 0 ≤ w)
    (inv : DInv adj adjDist n s e (fun _ _ => False) S h dists parent)
    {t : Int} {L : ℚ} (hwalk : Walk adj adjDist s t L) :
    (t ∈ S → est s dists t ≤ L) ∧ (t ∉ S → L < maxFloat64 → ∃ y ∈ h, y.dist ≤ L) := by
  induction hwalk with
  | here =>
    constructor
    · intro _; simp [est]
    · intro hs; exact absurd inv.s_mem hs
  | @step t1 t d w hwalk1 harc ih =>
    have hw0 : 0 ≤ w := hw _ _ _ harc
    have hd0 : 0 ≤ d := walk_nonneg hw hwalk1
    by_cases ht1 : t1 ∈ S
    · have h1 := ih.1 ht1
      obtain ⟨row, wrow, j, r1, r2, r3, r4⟩ := harc
      have h2 := inv.relaxed t1 ht1 row wrow j t w r1 r2 r3 r4 (fun hf => hf)
      constructor
      · intro htS
        unfold est
        split
        · linarith
        · linarith
      · intro htS hL
        obtain ⟨y, hy, _, hyd⟩ := inv.frontier t htS (by linarith)
        exact ⟨y, hy, by rw [hyd]; linarith⟩
    · have h1 := ih.2 ht1
      constructor
      · intro htS
        by_cases hd : d < maxFloat64
        · obtain ⟨y, hy, hyd⟩ := h1 hd
          have := inv.settled_le t htS y hy
          linarith
        · have := est_le_max inv t
          linarith
      · intro _ hL
        obtain ⟨y, hy, hyd⟩ := h1 (by linarith)
        exact ⟨y, hy, by linarith⟩

/-- Dropping the popped entry keeps the invariant when that entry was stale or
led to a settled node. -/
theorem DInv.pop {adj : List (List Int)} {adjDist : List (List ℚ)} {n : Nat} {s e : Int}
    {pend : Int → Nat → Prop} {S : Finset Int} {h h1 : visitHeap} {dists : List ℚ}
    {parent : List Int} {x : edge} (inv : DInv adj adjDist n s e pend S h dists parent)
    (hperm : h.Perm (x :: h1)) (hh1 : IsHeap h1)
    (hx : x.eto ∈ S ∨ x.dist ≠ distOf dists x.eto) :
    DInv adj adjDist n s e pend S h1 dists parent :=
  have hsub : ∀ y ∈ h1, y ∈ h := fun y hy => hperm.mem_iff.2 (List.mem_cons_of_mem _ hy)
  { dists_len := inv.dists_len
    parent_len := inv.parent_len
    heap := hh1
    s_mem := inv.s_mem
    S_range := inv.S_range
    e_not := inv.e_not
    bound := inv.bound
    entry := fun y hy => inv.entry y (hsub y hy)
    uniq := by
      have := (List.Perm.pairwise_iff (fun {a b} hab hba heq => hab hba.symm heq.symm) hperm).1
        inv.uniq
      exact (List.pairwise_cons.1 this).2
    stale := fun u hu hus y hy => inv.stale u hu hus y (hsub y hy)
    relaxed := inv.relaxed
    settled_le := fun u hu y hy => inv.settled_le u hu y (hsub y hy)
    frontier := by
      intro t ht hdt
      obtain ⟨y, hy, hyt, hyd⟩ := inv.frontier t ht hdt
      rcases List.mem_cons.1 (hperm.mem_iff.1 hy) with hyx | hy1
      · subst hyx
        rcases hx with hx | hx
        · rw [hyt] at hx; exact absurd hx ht
        · rw [hyt] at hx; exact absurd hyd hx
      · exact ⟨y, hy1, hyt, hyd⟩
    chain := inv.chain }

/-- Overwriting `parent` at the start node keeps the invariant. -/
theorem DInv.reparent {adj : List (List Int)} {adjDist : List (List ℚ)} {n : Nat} {s e : Int}
    {pend : Int → Nat → Prop} {S : Finset Int} {h : visitHeap} {dists : List ℚ}
    {parent parent1 : List Int} {a : Int}
    (inv : DInv adj adjDist n s e pend S h dists parent)
    (hset : setAt parent s a = some parent1) :
    DInv adj adjDist n s e pend S h dists parent1 :=
  { dists_len := inv.dists_len
    parent_len := by rw [(setAt_some hset).2.2.1, inv.parent_len]
    heap := inv.heap
    s_mem := inv.s_mem
    S_range := inv.S_range
    e_not := inv.e_not
    bound := inv.bound
    entry := inv.entry
    uniq := inv.uniq
    stale := inv.stale
    relaxed := inv.relaxed
    settled_le := inv.settled_le
    frontier := inv.frontier
    chain := by
      intro v hv
      obtain ⟨l, hc, hl⟩ := inv.chain v hv
      exact ⟨l, chain_congr hc (fun u _ hus => (setAt_some hset).2.2.2.2 u hus), hl⟩ }

/-- The chains after `parent[v] = x.from` for a popped entry `x` that leads to
the unsettled node `v`. -/
theorem chain_extend {adj : List (List Int)} {adjDist : List (List ℚ)} {n : Nat} {s e : Int}
    {pend : Int → Nat → Prop} {S : Finset Int} {h : visitHeap} {dists : List ℚ}
    {parent parent1 : List Int} {x : edge}
    (inv : DInv adj adjDist n s e pend S h dists parent) (hx : x ∈ h) (hv : x.eto ∉ S)
    (hset : setAt parent x.eto x.efrom = some parent1) :
    (∃ l, Chain adj adjDist parent1 s x.eto l x.dist ∧ ∀ u ∈ l, u ∈ insert x.eto S) ∧
    ∀ u ∈ S, ∃ l, Chain adj adjDist parent1 s u l (est s dists u) ∧ ∀ t ∈ l, t ∈ S := by
  have hold : ∀ u ∈ S, ∃ l, Chain adj adjDist parent1 s u l (est s dists u) ∧ ∀ t ∈ l, t ∈ S := by
    intro u hu
    obtain ⟨l, hc, hl⟩ := inv.chain u hu
    refine ⟨l, chain_congr hc ?_, hl⟩
    intro t ht _
    apply (setAt_some hset).2.2.2.2
    intro hte
    subst hte
    exact hv (hl _ ht)
  refine ⟨?_, hold⟩
  obtain ⟨hfrom, _, _, _, _, w, harc, hxd⟩ := inv.entry x hx
  obtain ⟨l, hc, hl⟩ := hold x.efrom hfrom
  have hvs : x.eto ≠ s := fun hvs => hv (hvs ▸ inv.s_mem)
  refine ⟨x.eto :: l, ?_, ?_⟩
  · rw [hxd]
    exact Chain.step hvs (setAt_some hset).2.2.2.1 harc hc (fun hmem => hv (hl _ hmem))
  · intro u hu
    rcases List.mem_cons.1 hu with hu | hu
    · rw [hu]; exact Finset.mem_insert_self _ _
    · exact Finset.mem_insert_of_mem (hl u hu)

/-- Settling the node of a popped entry that is not stale. -/
theorem DInv.settle {adj : List (List Int)} {adjDist : List (List ℚ)} {n : Nat} {s e : Int}
    {S : Finset Int} {h h1 : visitHeap} {dists : List ℚ} {parent parent1 : List Int} {x : edge}
    (inv : DInv adj adjDist n s e (fun _ _ => False) S h dists parent)
    (hperm : h.Perm (x :: h1)) (hh1 : IsHeap h1) (hmin : ∀ y ∈ h, x.dist ≤ y.dist)
    (hv : x.eto ∉ S) (hve : x.eto ≠ e) (hxd : x.dist = distOf dists x.eto)
    (hset : setAt parent x.eto x.efrom = some parent1) :
    DInv adj adjDist n s e (fun u j => u = x.eto ∧ 0 ≤ j) (insert x.eto S) h1 dists parent1 ∧
    x.dist = est s dists x.eto ∧ ∀ u ∈ insert x.eto S, est s dists u ≤ x.dist := by
  have hsub : ∀ y ∈ h1, y ∈ h := fun y hy => hperm.mem_iff.2 (List.mem_cons_of_mem _ hy)
  have hxh : x ∈ h := hperm.mem_iff.2 (List.mem_cons_self _ _)
  have hvs : x.eto ≠ s := fun hvs => hv (hvs ▸ inv.s_mem)
  have hest : est s dists x.eto = x.dist := by
    unfold est; rw [if_neg hvs, hxd]
  have hpair := (List.Perm.pairwise_iff (fun {a b} hab hba heq => hab hba.symm heq.symm) hperm).1
    inv.uniq
  obtain ⟨hcv, hcold⟩ := chain_extend inv hxh hv hset
  refine ⟨?_, hest.symm, ?_⟩
  · exact
    { dists_len := inv.dists_len
      parent_len := by rw [(setAt_some hset).2.2.1, inv.parent_len]
      heap := hh1
      s_mem := Finset.mem_insert_of_mem inv.s_mem
      S_range := by
        intro u hu
        rcases Finset.mem_insert.1 hu with hu | hu
        · obtain ⟨_, e2, e3, _⟩ := inv.entry x hxh
          rw [hu]; exact ⟨e2, e3⟩
        · exact inv.S_range u hu
      e_not := by
        intro he
        rcases Finset.mem_insert.1 he with he | he
        · exact hve he.symm
        · exact inv.e_not he
      bound := inv.bound
      entry := by
        intro y hy
        obtain ⟨e1, rest⟩ := inv.entry y (hsub y hy)
        exact ⟨Finset.mem_insert_of_mem e1, rest⟩
      uniq := (List.pairwise_cons.1 hpair).2
      stale := by
        intro u hu hus y hy hyu
        rcases Finset.mem_insert.1 hu with hu | hu
        · subst hu
          have hne := (List.pairwise_cons.1 hpair).1 y hy hyu.symm
          obtain ⟨_, _, _, _, e5, _⟩ := inv.entry y (hsub y hy)
          rw [hyu] at e5
          rw [hxd] at hne
          exact lt_of_le_of_ne e5 hne
        · exact inv.stale u hu hus y (hsub y hy) hyu
      relaxed := by
        intro u hu row wrow j t w h1' h2 h3 h4 hp
        rcases Finset.mem_insert.1 hu with hu | hu
        · exact absurd ⟨hu, Nat.zero_le j⟩ hp
        · exact inv.relaxed u hu row wrow j t w h1' h2 h3 h4 (fun hf => hf)
      settled_le := by
        intro u hu y hy
        rcases Finset.mem_insert.1 hu with hu | hu
        · rw [hu, hest]; exact hmin y (hsub y hy)
        · exact inv.settled_le u hu y (hsub y hy)
      frontier := by
        intro t ht hdt
        have ht1 : t ≠ x.eto := fun hte => ht (hte ▸ Finset.mem_insert_self _ _)
        have ht2 : t ∉ S := fun hts => ht (Finset.mem_insert_of_mem hts)
        obtain ⟨y, hy, hyt, hyd⟩ := inv.frontier t ht2 hdt
        rcases List.mem_cons.1 (hperm.mem_iff.1 hy) with hyx | hy1
        · subst hyx; exact absurd hyt.symm ht1
        · exact ⟨y, hy1, hyt, hyd⟩
      chain := by
        intro u hu
        rcases Finset.mem_insert.1 hu with hu | hu
        · subst hu
          obtain ⟨l, hc, hl⟩ := hcv
          exact ⟨l, by rw [hest]; exact hc, hl⟩
        · obtain ⟨l, hc, hl⟩ := hcold u hu
          exact ⟨l, hc, fun t ht => Finset.mem_insert_of_mem (hl t ht)⟩ }
  · intro u hu
    rcases Finset.mem_insert.1 hu with hu | hu
    · rw [hu, hest]
    · exact inv.settled_le u hu x hxh

/-- The inner loop changes nothing when every entry of the row is relaxed already. -/
theorem relaxLoop_noop {adj : List (List Int)} {adjDist : List (List ℚ)} {n : Nat}
    {x : edge} {row : List Int} {wrow : List ℚ} {dists : List ℚ}
    (hg : GraphOK n adj adjDist) (hrow : getAt adj x.eto = some row)
    (hwrow : getAt adjDist x.eto = some wrow) (hdl : dists.length = n)
    (hrel : ∀ (j : Nat) (t : Int) (w : ℚ), row[j]? = some t → wrow[j]? = some w →
      distOf dists t ≤ x.dist + w) (h : visitHeap) :
    ∀ (rest : List Int) (i : Nat), rest = row.drop i →
      relaxLoop adjDist x i rest h dists = some (h, dists) := by
  intro rest
  induction rest with
  | nil => intro i _; simp [relaxLoop]
  | cons nei rest ih =>
    intro i hrest
    have hi : i < row.length := by
      by_contra hcon
      rw [List.drop_eq_nil_iff.2 (not_lt.1 hcon)] at hrest
      exact absurd hrest (by simp)
    have hd := List.drop_eq_getElem_cons hi
    rw [hd] at hrest
    simp only [List.cons.injEq] at hrest
    have hnei : row[i]? = some nei := by
      rw [List.getElem?_eq_getElem hi, hrest.1]
    have hlen : row.length = wrow.length := hg.rows _ row wrow hrow hwrow
    obtain ⟨w, hwi⟩ : ∃ w, wrow[i]? = some w :=
      getElem?_exists wrow (i) (by omega)
    have hnr : 0 ≤ nei ∧ nei < (n : Int) := hg.range _ row nei hrow (List.getElem?_mem hnei)
    have hgd : getAt dists nei = some (distOf dists nei) :=
      getAt_distOf hnr.1 (by rw [hdl]; exact hnr.2)
    have hbind : (getAt adjDist x.eto).bind (fun row => row[i]?) = some w := by
      rw [hwrow]; exact hwi
    simp only [relaxLoop, hbind, hgd]
    rw [if_pos (hrel i nei w hnei hwi)]
    exact ih (i + 1) hrest.2

end Geopath

namespace Geopath

/-! ## The outer loop ends and finds the shortest walk -/

theorem dijkstraLoop_inv {adj : List (List Int)} {adjDist : List (List ℚ)} {n : Nat} {s e : Int}
    (hg : GraphOK n adj adjDist) (hw : ∀ u v w, Arc adj adjDist u v w → 0 ≤ w) :
    ∀ (fuel : Nat) (h : visitHeap) (dists : List ℚ) (parent : List Int) (S : Finset Int),
      DInv adj adjDist n s e (fun _ _ => False) S h dists parent →
      h.length + unsettledDeg adj n S < fuel →
      ∃ dists1 parent1,
        dijkstraLoop adj adjDist e fuel h dists parent = Run.done (dists1, parent1) ∧
        DPost adj adjDist n s e dists1 parent1 := by
  intro fuel
  induction fuel with
  | zero => intro h dists parent S _ hm; omega
  | succ fuel ih =>
    intro h dists parent S inv hm
    simp only [dijkstraLoop]
    by_cases hne : h = []
    · subst hne
      rw [heapPop_nil]
      refine ⟨dists, parent, rfl, inv.dists_len, inv.parent_len, Or.inl ⟨?_, ?_⟩⟩
      · apply le_antisymm (inv.bound e)
        by_contra hlt
        obtain ⟨y, hy, _⟩ := inv.frontier e inv.e_not (not_le.1 hlt)
        simp at hy
      · intro L hwalk
        by_contra hlt
        obtain ⟨y, hy, _⟩ := (lower_bound hw inv hwalk).2 inv.e_not (not_le.1 hlt)
        simp at hy
    · obtain ⟨x, h1, hpop, hperm, hheap⟩ := heapPop_spec h hne
      obtain ⟨hh1, hmin⟩ := hheap inv.heap
      have hxh : x ∈ h := hperm.mem_iff.2 (List.mem_cons_self _ _)
      have hlen : h.length = h1.length + 1 := by rw [hperm.length_eq]; simp
      obtain ⟨hfrom, hr0, hr1, hxmax, hdle, w, harc, hxw⟩ := inv.entry x hxh
      have hgd : getAt dists x.eto = some (distOf dists x.eto) :=
        getAt_distOf hr0 (by rw [inv.dists_len]; exact hr1)
      rw [hpop]
      simp only [hgd]
      by_cases hst : x.dist > distOf dists x.eto
      · rw [if_pos hst]
        exact ih h1 dists parent S (inv.pop hperm hh1 (Or.inr (ne_of_gt hst))) (by omega)
      · rw [if_neg hst]
        have hxd : x.dist = distOf dists x.eto := le_antisymm (not_lt.1 hst) hdle
        obtain ⟨parent1, hset⟩ := setAt_of_range x.efrom hr0
          (by rw [inv.parent_len]; exact hr1 : x.eto < (parent.length : Int))
        simp only [hset]
        by_cases hxe : x.eto = e
        · rw [if_pos hxe]
          have hv : x.eto ∉ S := by rw [hxe]; exact inv.e_not
          obtain ⟨⟨l, hc, _⟩, _⟩ := chain_extend inv hxh hv hset
          refine ⟨dists, parent1, rfl, inv.dists_len,
            by rw [(setAt_some hset).2.2.1, inv.parent_len], Or.inr ⟨?_, ?_, l, ?_⟩⟩
          · rw [← hxe, ← hxd]; exact hxmax
          · intro L hwalk
            rw [← hxe, ← hxd]
            by_cases hL : L < maxFloat64
            · obtain ⟨y, hy, hyd⟩ := (lower_bound hw inv hwalk).2 inv.e_not hL
              exact le_trans (hmin y hy) hyd
            · linarith
          · rw [← hxe, ← hxd]; exact hc
        · rw [if_neg hxe]
          obtain ⟨row, hrow⟩ := getAt_of_range hr0
            (by rw [hg.adj_len]; exact hr1 : x.eto < (adj.length : Int))
          obtain ⟨wrow, hwrow⟩ := getAt_of_range hr0
            (by rw [hg.dist_len]; exact hr1 : x.eto < (adjDist.length : Int))
          simp only [hrow]
          by_cases hxS : x.eto ∈ S
          · have hxs : x.eto = s := by
              by_contra hxs
              have := inv.stale x.eto hxS hxs x hxh rfl
              linarith
            have hx0 : 0 ≤ x.dist := by
              obtain ⟨l, hc, _⟩ := inv.chain x.efrom hfrom
              have := walk_nonneg hw (chain_walk hc)
              have := hw _ _ _ harc
              linarith
            have hnoop := relaxLoop_noop hg hrow hwrow inv.dists_len (by
              intro j t w1 h3 h4
              have := inv.relaxed x.eto hxS row wrow j t w1 hrow hwrow h3 h4 (fun hf => hf)
              unfold est at this
              rw [if_pos hxs] at this
              linarith) h1 row 0 (by simp)
            rw [hnoop]
            simp only
            have inv1 := inv.pop hperm hh1 (Or.inl hxS)
            rw [hxs] at hset
            exact ih h1 dists parent1 S (inv1.reparent hset) (by omega)
          · obtain ⟨inv1, hxest, hb⟩ := inv.settle hperm hh1 hmin hxS hxe hxd hset
            obtain ⟨h2, dists2, hrel, inv2, hl2⟩ :=
              relaxLoop_inv hg hw rfl hrow hwrow (Finset.mem_insert_self _ _) row 0 h1 dists
                (by simp) inv1 hxest hb
            rw [hrel]
            simp only
            apply ih h2 dists2 parent1 (insert x.eto S) inv2
            have hdeg := unsettledDeg_insert adj n S x.eto hr0 hr1 hxS
            have hdv : deg adj x.eto = row.length := by simp [deg, hrow]
            omega

/-- The first iteration pops the entry `(s, s, 0)`; when `s` is not the end
node, the inner loop over the row of `s` follows and the invariant holds from
then on. -/
theorem dijkstra_run {adj : List (List Int)} {adjDist : List (List ℚ)} {n : Nat} {s e : Int}
    (hg : GraphOK n adj adjDist) (hw : ∀ u v w, Arc adj adjDist u v w → 0 ≤ w)
    (hs0 : 0 ≤ s) (hs1 : s < (n : Int)) (hse : s ≠ e) (fuel : Nat)
    (hfuel : unsettledDeg adj n ∅ + 2 ≤ fuel) :
    ∃ dists1 parent1,
      dijkstraLoop adj adjDist e fuel [⟨s, s, 0⟩] (List.replicate n maxFloat64)
        ((List.range n).map Int.ofNat) = Run.done (dists1, parent1) ∧
      DPost adj adjDist n s e dists1 parent1 := by
  obtain ⟨fuel1, rfl⟩ : ∃ fuel1, fuel = fuel1 + 1 := ⟨fuel - 1, by omega⟩
  have hdl : (List.replicate n maxFloat64).length = n := by simp
  have hpl : ((List.range n).map Int.ofNat).length = n := by simp
  have hgd : getAt (List.replicate n maxFloat64) s = some maxFloat64 := by
    have := getAt_distOf hs0 (by rw [hdl]; exact hs1 : s < ((List.replicate n maxFloat64).length : Int))
    rw [this, distOf_replicate]
  obtain ⟨parent1, hset⟩ := setAt_of_range s hs0
    (by rw [hpl]; exact hs1 : s < (((List.range n).map Int.ofNat).length : Int))
  obtain ⟨row, hrow⟩ := getAt_of_range hs0
    (by rw [hg.adj_len]; exact hs1 : s < (adj.length : Int))
  obtain ⟨wrow, hwrow⟩ := getAt_of_range hs0
    (by rw [hg.dist_len]; exact hs1 : s < (adjDist.length : Int))
  have hnot : ¬ ((0 : ℚ) > maxFloat64) := not_lt.2 (le_of_lt maxFloat64_pos)
  simp only [dijkstraLoop, heapPop_singleton, hgd, hnot, if_false, hset, if_neg hse, hrow]
  have inv0 : DInv adj adjDist n s e (fun u j => u = s ∧ 0 ≤ j) {s} []
      (List.replicate n maxFloat64) parent1 :=
    { dists_len := hdl
      parent_len := by rw [(setAt_some hset).2.2.1, hpl]
      heap := by intro j a b _ ha; simp at ha
      s_mem := Finset.mem_singleton_self s
      S_range := by
        intro u hu; rw [Finset.mem_singleton.1 hu]; exact ⟨hs0, hs1⟩
      e_not := by
        intro he; exact hse (Finset.mem_singleton.1 he).symm
      bound := by intro v; rw [distOf_replicate]
      entry := by intro x hx; simp at hx
      uniq := List.Pairwise.nil
      stale := by intro u _ _ x hx; simp at hx
      relaxed := by
        intro u hu row1 wrow1 j t w _ _ _ _ hp
        exact absurd ⟨Finset.mem_singleton.1 hu, Nat.zero_le j⟩ hp
      settled_le := by intro u _ x hx; simp at hx
      frontier := by
        intro v _ hv; rw [distOf_replicate] at hv; exact absurd hv (lt_irrefl _)
      chain := by
        intro v hv
        rw [Finset.mem_singleton.1 hv]
        refine ⟨[s], ?_, by simp⟩
        simp only [est, if_true]
        exact Chain.base }
  have hx0 : (0 : ℚ) = est s (List.replicate n maxFloat64) s := by simp [est]
  obtain ⟨h2, dists2, hrel, inv2, hl2⟩ :=
    relaxLoop_inv (x := ⟨s, s, 0⟩) hg hw rfl hrow hwrow (Finset.mem_singleton_self s) row 0 []
      (List.replicate n maxFloat64) (by simp) inv0 hx0
      (by intro u hu; rw [Finset.mem_singleton.1 hu]; simp [est])
  rw [hrel]
  simp only
  apply dijkstraLoop_inv hg hw fuel1 h2 dists2 parent1 {s} inv2
  have hdeg := unsettledDeg_insert adj n ∅ s hs0 hs1 (Finset.not_mem_empty s)
  have hdv : deg adj s = row.length := by simp [deg, hrow]
  have hins : insert s (∅ : Finset Int) = {s} := by simp
  rw [hins] at hdeg
  simp only [List.length_nil, Nat.zero_add] at hl2
  omega

end Geopath

namespace Geopath

/-! ## More fuel does not change a finished run -/

theorem dijkstraLoop_succ (adj : List (List Int)) (adjDist : List (List ℚ)) (e : Int) :
    ∀ (fuel : Nat) (h : visitHeap) (dists : List ℚ) (parent : List Int),
      dijkstraLoop adj adjDist e fuel h dists parent ≠ Run.outOfFuel →
      dijkstraLoop adj adjDist e (fuel + 1) h dists parent
        = dijkstraLoop adj adjDist e fuel h dists parent := by
  intro fuel
  induction fuel with
  | zero => intro h dists parent hne; exact absurd rfl hne
  | succ fuel ih =>
    intro h dists parent hne
    rw [dijkstraLoop] at hne
    rw [dijkstraLoop]
    conv_rhs => rw [dijkstraLoop]
    cases hp : heapPop h with
    | none => rfl
    | some xh =>
      obtain ⟨x, h1⟩ := xh
      rw [hp] at hne
      simp only at hne ⊢
      cases hg : getAt dists x.eto with
      | none => rfl
      | some dx =>
        rw [hg] at hne
        simp only at hne ⊢
        by_cases hst : x.dist > dx
        · simp only [if_pos hst] at hne ⊢
          exact ih _ _ _ hne
        · simp only [if_neg hst] at hne ⊢
          cases hs : setAt parent x.eto x.efrom with
          | none => rfl
          | some parent1 =>
            rw [hs] at hne
            simp only at hne ⊢
            by_cases hxe : x.eto = e
            · simp only [if_pos hxe]
            · simp only [if_neg hxe] at hne ⊢
              cases hr : getAt adj x.eto with
              | none => rfl
              | some row =>
                rw [hr] at hne
                simp only at hne ⊢
                cases hrl : relaxLoop adjDist x 0 row h1 dists with
                | none => rfl
                | some hd =>
                  obtain ⟨h2, dists2⟩ := hd
                  rw [hrl] at hne
                  simp only at hne ⊢
                  exact ih _ _ _ hne

theorem dijkstraLoop_mono (adj : List (List Int)) (adjDist : List (List ℚ)) (e : Int)
    (h : visitHeap) (dists : List ℚ) (parent : List Int) (fuel : Nat)
    (hne : dijkstraLoop adj adjDist e fuel h dists parent ≠ Run.outOfFuel) :
    ∀ fuel1, fuel ≤ fuel1 → dijkstraLoop adj adjDist e fuel1 h dists parent
      = dijkstraLoop adj adjDist e fuel h dists parent := by
  intro fuel1 hle
  induction fuel1 with
  | zero =>
    have : fuel = 0 := by omega
    subst this; rfl
  | succ k ih =>
    by_cases hk : fuel = k + 1
    · subst hk; rfl
    · have hle1 : fuel ≤ k := by omega
      have h1 := ih hle1
      rw [dijkstraLoop_succ adj adjDist e k h dists parent (by rw [h1]; exact hne), h1]

theorem gatherLoop_zero (points : List LongLat) (parent : List Int) (s : Int) (i : Int)
    (acc : List LongLat) :
    gatherLoop points parent s 0 i acc = if i = s then Run.done acc else Run.outOfFuel := by
  rw [gatherLoop.eq_def]

theorem gatherLoop_step (points : List LongLat) (parent : List Int) (s : Int) (fuel : Nat)
    (i : Int) (acc : List LongLat) :
    gatherLoop points parent s (fuel + 1) i acc =
      if i = s then Run.done acc
      else
        match getAt points i with
        | none => Run.panic
        | some p =>
          match getAt parent i with
          | none => Run.panic
          | some next => gatherLoop points parent s fuel next (acc ++ [p]) := by
  rw [gatherLoop.eq_def]

theorem gatherLoop_succ (points : List LongLat) (parent : List Int) (s : Int) :
    ∀ (fuel : Nat) (i : Int) (acc : List LongLat),
      gatherLoop points parent s fuel i acc ≠ Run.outOfFuel →
      gatherLoop points parent s (fuel + 1) i acc = gatherLoop points parent s fuel i acc := by
  intro fuel
  induction fuel with
  | zero =>
    intro i acc hne
    rw [gatherLoop_zero] at hne
    rw [gatherLoop_step, gatherLoop_zero]
    by_cases his : i = s
    · rw [if_pos his, if_pos his]
    · rw [if_neg his] at hne
      exact absurd rfl hne
  | succ fuel ih =>
    intro i acc hne
    rw [gatherLoop_step] at hne
    rw [gatherLoop_step points parent s (fuel + 1), gatherLoop_step points parent s fuel]
    by_cases his : i = s
    · rw [if_pos his, if_pos his]
    · simp only [if_neg his] at hne ⊢
      cases hg : getAt points i with
      | none => rfl
      | some p =>
        rw [hg] at hne
        simp only at hne ⊢
        cases hq : getAt parent i with
        | none => rfl
        | some nxt =>
          rw [hq] at hne
          simp only at hne ⊢
          exact ih _ _ hne

theorem gatherLoop_mono (points : List LongLat) (parent : List Int) (s : Int)
    (i : Int) (acc : List LongLat) (fuel : Nat)
    (hne : gatherLoop points parent s fuel i acc ≠ Run.outOfFuel) :
    ∀ fuel1, fuel ≤ fuel1 → gatherLoop points parent s fuel1 i acc
      = gatherLoop points parent s fuel i acc := by
  intro fuel1 hle
  induction fuel1 with
  | zero =>
    have : fuel = 0 := by omega
    subst this; rfl
  | succ k ih =>
    by_cases hk : fuel = k + 1
    · subst hk; rfl
    · have hle1 : fuel ≤ k := by omega
      have h1 := ih hle1
      rw [gatherLoop_succ points parent s k i acc (by rw [h1]; exact hne), h1]

end Geopath

namespace Geopath

/-! ## Chains and the reconstruction loop -/

theorem chain_cons {adj : List (List Int)} {adjDist : List (List ℚ)} {parent : List Int}
    {s v : Int} {l : List Int} {d : ℚ} (h : Chain adj adjDist parent s v l d) :
    ∃ l1, l = v :: l1 := by
  cases h with
  | base => exact ⟨[], rfl⟩
  | step => exact ⟨_, rfl⟩

theorem chain_last {adj : List (List Int)} {adjDist : List (List ℚ)} {parent : List Int}
    {s v : Int} {l : List Int} {d : ℚ} (h : Chain adj adjDist parent s v l d) :
    l.getLast? = some s := by
  induction h with
  | base => rfl
  | step _ _ _ hc _ ih =>
    obtain ⟨l1, rfl⟩ := chain_cons hc
    rw [List.getLast?_cons_cons]; exact ih

theorem chain_nodup {adj : List (List Int)} {adjDist : List (List ℚ)} {parent : List Int}
    {s v : Int} {l : List Int} {d : ℚ} (h : Chain adj adjDist parent s v l d) : l.Nodup := by
  induction h with
  | base => simp
  | step _ _ _ _ hnot ih => exact List.nodup_cons.2 ⟨hnot, ih⟩

theorem chain_range {adj : List (List Int)} {adjDist : List (List ℚ)} {parent : List Int}
    {s v : Int} {l : List Int} {d : ℚ} {n : Nat} (h : Chain adj adjDist parent s v l d)
    (hpl : parent.length = n) (hs : 0 ≤ s ∧ s < (n : Int)) :
    ∀ u ∈ l, 0 ≤ u ∧ u < (n : Int) := by
  induction h with
  | base => intro u hu; simp at hu; rw [hu]; exact hs
  | step _ hpar _ _ _ ih =>
    intro u hu
    rcases List.mem_cons.1 hu with hu | hu
    · have := getAt_some_range hpar
      rw [hu, ← hpl]; exact this
    · exact ih u hu

theorem coords_cons {points : List LongLat} {u : Int} {p : LongLat}
    (h : getAt points u = some p) (l : List Int) :
    coords points (u :: l) = p :: coords points l := by
  simp [coords, List.filterMap_cons, h]

theorem coords_length {points : List LongLat} (l : List Int)
    (h : ∀ u ∈ l, ∃ p, getAt points u = some p) : (coords points l).length = l.length := by
  induction l with
  | nil => rfl
  | cons u l ih =>
    obtain ⟨p, hp⟩ := h u (List.mem_cons_self _ _)
    rw [coords_cons hp, List.length_cons, List.length_cons,
      ih (fun t ht => h t (List.mem_cons_of_mem _ ht))]

/-- On a chain the reconstruction loop collects the coordinates of the chain's
nodes, the start node excepted. -/
theorem gatherLoop_chain {adj : List (List Int)} {adjDist : List (List ℚ)} {parent : List Int}
    {points : List LongLat} {s v : Int} {l : List Int} {d : ℚ}
    (h : Chain adj adjDist parent s v l d)
    (hpts : ∀ u ∈ l, ∃ p, getAt points u = some p) :
    ∀ (fuel : Nat), l.length ≤ fuel → ∀ acc : List LongLat,
      gatherLoop points parent s fuel v acc = Run.done (acc ++ coords points l.dropLast) := by
  induction h with
  | base =>
    intro fuel _ acc
    cases fuel with
    | zero => rw [gatherLoop_zero, if_pos rfl]; simp [coords]
    | succ f => rw [gatherLoop_step, if_pos rfl]; simp [coords]
  | @step v u l d w hvs hpar _ hc _ ih =>
    intro fuel hf acc
    obtain ⟨f, rfl⟩ : ∃ f, fuel = f + 1 := ⟨fuel - 1, by simp at hf; omega⟩
    obtain ⟨p, hp⟩ := hpts v (List.mem_cons_self _ _)
    rw [gatherLoop_step, if_neg hvs]
    simp only [hp, hpar]
    rw [ih (fun t ht => hpts t (List.mem_cons_of_mem _ ht)) f (by simp at hf; omega)]
    obtain ⟨l1, rfl⟩ := chain_cons hc
    rw [List.dropLast_cons₂, coords_cons hp]
    simp

/-! ## The built graph and the segments -/

theorem getAt_mapGet {calcDist : LongLat → LongLat → ℚ} {segs : List Path}
    {pointIdx : List (LongLat × Int)} {points : List LongLat}
    {adj : List (List Int)} {adjDist : List (List ℚ)}
    (hb : Built calcDist segs pointIdx points adj adjDist) {p : LongLat} (hp : p ∈ points) :
    getAt points (mapGet pointIdx p) = some p := by
  obtain ⟨k, hk, hg⟩ := mapGet_of_mem hb.ok hp
  rw [hk, getAt_natCast]; exact hg

theorem mapGet_of_getAt {calcDist : LongLat → LongLat → ℚ} {segs : List Path}
    {pointIdx : List (LongLat × Int)} {points : List LongLat}
    {adj : List (List Int)} {adjDist : List (List ℚ)}
    (hb : Built calcDist segs pointIdx points adj adjDist) {u : Int} {p : LongLat}
    (hu : getAt points u = some p) : mapGet pointIdx p = u := by
  obtain ⟨j, rfl, hj⟩ := getAt_eq_some_iff.1 hu
  obtain ⟨k, hk, hg⟩ := mapGet_of_mem hb.ok (List.getElem?_mem hj)
  have : j = k := pointsOK_index_unique hb.ok hj hg
  rw [hk, this]

theorem seg_mem_points {calcDist : LongLat → LongLat → ℚ} {segs : List Path}
    {pointIdx : List (LongLat × Int)} {points : List LongLat}
    {adj : List (List Int)} {adjDist : List (List ℚ)}
    (hb : Built calcDist segs pointIdx points adj adjDist) {seg : Path} (hseg : seg ∈ segs) :
    seg.1 ∈ points ∧ seg.2 ∈ points :=
  ⟨(hb.mem _).2 ⟨seg, hseg, Or.inl rfl⟩, (hb.mem _).2 ⟨seg, hseg, Or.inr rfl⟩⟩

/-- An adjacency entry is a segment between the coordinates of its two nodes. -/
theorem arc_coords {calcDist : LongLat → LongLat → ℚ} {segs : List Path}
    {pointIdx : List (LongLat × Int)} {points : List LongLat}
    {adj : List (List Int)} {adjDist : List (List ℚ)}
    (hb : Built calcDist segs pointIdx points adj adjDist) {u v : Int} {w : ℚ}
    (harc : Arc adj adjDist u v w) :
    ∃ pu pv, getAt points u = some pu ∧ getAt points v = some pv ∧
      (((pu, pv) ∈ segs ∧ w = calcDist pu pv) ∨ ((pv, pu) ∈ segs ∧ w = calcDist pv pu)) := by
  obtain ⟨seg, hseg, h | h⟩ := (hb.arcs u v w).1 harc
  · obtain ⟨rfl, rfl, rfl⟩ := h
    obtain ⟨m1, m2⟩ := seg_mem_points hb hseg
    exact ⟨seg.1, seg.2, getAt_mapGet hb m1, getAt_mapGet hb m2, Or.inl ⟨hseg, rfl⟩⟩
  · obtain ⟨rfl, rfl, rfl⟩ := h
    obtain ⟨m1, m2⟩ := seg_mem_points hb hseg
    exact ⟨seg.2, seg.1, getAt_mapGet hb m2, getAt_mapGet hb m1, Or.inr ⟨hseg, rfl⟩⟩

theorem arc_nonneg {calcDist : LongLat → LongLat → ℚ} {segs : List Path}
    {pointIdx : List (LongLat × Int)} {points : List LongLat}
    {adj : List (List Int)} {adjDist : List (List ℚ)}
    (hb : Built calcDist segs pointIdx points adj adjDist) (hnn : ∀ p q, 0 ≤ calcDist p q) :
    ∀ u v w, Arc adj adjDist u v w → 0 ≤ w := by
  intro u v w harc
  obtain ⟨seg, _, h | h⟩ := (hb.arcs u v w).1 harc
  · rw [h.2.2]; exact hnn _ _
  · rw [h.2.2]; exact hnn _ _

theorem walk_route {calcDist : LongLat → LongLat → ℚ} {segs : List Path}
    {pointIdx : List (LongLat × Int)} {points : List LongLat}
    {adj : List (List Int)} {adjDist : List (List ℚ)}
    (hb : Built calcDist segs pointIdx points adj adjDist) {u v : Int} {d : ℚ}
    (hwalk : Walk adj adjDist u v d) {p : LongLat} (hp : getAt points u = some p) :
    ∃ q, getAt points v = some q ∧ Route calcDist segs p q d := by
  induction hwalk with
  | here => exact ⟨p, hp, Route.here p⟩
  | step _ harc ih =>
    obtain ⟨q, hq, hr⟩ := ih
    obtain ⟨pu, pv, h1, h2, h3⟩ := arc_coords hb harc
    have e1 : pu = q := Option.some.inj (h1.symm.trans hq)
    subst e1
    rcases h3 with ⟨hseg, rfl⟩ | ⟨hseg, rfl⟩
    · exact ⟨pv, h2, Route.forward hr hseg⟩
    · exact ⟨pv, h2, Route.backward hr hseg⟩

theorem route_walk {calcDist : LongLat → LongLat → ℚ} {segs : List Path}
    {pointIdx : List (LongLat × Int)} {points : List LongLat}
    {adj : List (List Int)} {adjDist : List (List ℚ)}
    (hb : Built calcDist segs pointIdx points adj adjDist) {p q : LongLat} {d : ℚ}
    (hr : Route calcDist segs p q d) {u : Int} (hu : getAt points u = some p) :
    ∃ v, getAt points v = some q ∧ Walk adj adjDist u v d := by
  induction hr with
  | here => exact ⟨u, hu, Walk.here u⟩
  | @forward v t d _ hseg ih =>
    obtain ⟨iv, hiv, hwalk⟩ := ih
    obtain ⟨m1, m2⟩ := seg_mem_points hb hseg
    have harc : Arc adj adjDist (mapGet pointIdx v) (mapGet pointIdx t) (calcDist v t) :=
      (hb.arcs _ _ _).2 ⟨(v, t), hseg, Or.inl ⟨rfl, rfl, rfl⟩⟩
    rw [mapGet_of_getAt hb hiv] at harc
    exact ⟨mapGet pointIdx t, getAt_mapGet hb m2, Walk.step hwalk harc⟩
  | @backward v t d _ hseg ih =>
    obtain ⟨iv, hiv, hwalk⟩ := ih
    obtain ⟨m1, m2⟩ := seg_mem_points hb hseg
    have harc : Arc adj adjDist (mapGet pointIdx v) (mapGet pointIdx t) (calcDist t v) :=
      (hb.arcs _ _ _).2 ⟨(t, v), hseg, Or.inr ⟨rfl, rfl, rfl⟩⟩
    rw [mapGet_of_getAt hb hiv] at harc
    exact ⟨mapGet pointIdx t, getAt_mapGet hb m1, Walk.step hwalk harc⟩

/-- The coordinates of a chain are a route read backwards. -/
theorem chain_backRoute {calcDist : LongLat → LongLat → ℚ} {segs : List Path}
    {pointIdx : List (LongLat × Int)} {points : List LongLat}
    {adj : List (List Int)} {adjDist : List (List ℚ)} {parent : List Int}
    (hb : Built calcDist segs pointIdx points adj adjDist) {s v : Int} {l : List Int} {d : ℚ}
    (h : Chain adj adjDist parent s v l d) {ps : LongLat} (hs : getAt points s = some ps) :
    BackRoute calcDist segs (coords points l) d := by
  induction h with
  | base => rw [coords_cons hs]; exact BackRoute.single ps
  | @step v u l d w _ _ harc hc _ ih =>
    obtain ⟨pu, pv, h1, h2, h3⟩ := arc_coords hb harc
    obtain ⟨l1, rfl⟩ := chain_cons hc
    rw [coords_cons h2, coords_cons h1]
    rw [coords_cons h1] at ih
    rcases h3 with ⟨hseg, rfl⟩ | ⟨hseg, rfl⟩
    · exact BackRoute.forward ih hseg
    · exact BackRoute.backward ih hseg

theorem route_congr {calcDist : LongLat → LongLat → ℚ} {segs1 segs2 : List Path}
    (hm : ∀ x, x ∈ segs1 ↔ x ∈ segs2) {p q : LongLat} {d : ℚ}
    (h : Route calcDist segs1 p q d) : Route calcDist segs2 p q d := by
  induction h with
  | here => exact Route.here _
  | forward _ hseg ih => exact Route.forward ih ((hm _).1 hseg)
  | backward _ hseg ih => exact Route.backward ih ((hm _).1 hseg)

/-- The slices that `findFrom` builds are the graph of the segment list it is
given. -/
theorem built_of_paths {sortFunc : (Path → Path → Bool) → List Path → List Path}
    (hs : IsSortFunc sortFunc) (calcDist : LongLat → LongLat → ℚ) (paths : List Path) :
    ∃ adj adjDist,
      buildAdj calcDist (nodeIndex sortFunc paths) (nodes sortFunc paths).length
        (segments sortFunc paths) = some (adj, adjDist) ∧
      Built calcDist paths (nodeIndex sortFunc paths) (nodes sortFunc paths) adj adjDist := by
  obtain ⟨adj, adjDist, hbuild, hg, harcs⟩ := buildAdj_spec calcDist (segments sortFunc paths)
  obtain ⟨hok, hmem⟩ := addPoints_ok (segments sortFunc paths)
  have hseg : ∀ seg, seg ∈ segments sortFunc paths ↔ seg ∈ paths := mem_segments hs paths
  refine ⟨adj, adjDist, hbuild, ⟨hok, ?_, hg, ?_⟩⟩
  · intro q
    show q ∈ (addPoints (segments sortFunc paths)).2 ↔ _
    rw [hmem]
    unfold IsNode
    constructor
    · rintro ⟨seg, hseg1, h⟩; exact ⟨seg, (hseg seg).1 hseg1, h⟩
    · rintro ⟨seg, hseg1, h⟩; exact ⟨seg, (hseg seg).2 hseg1, h⟩
  · intro a b c
    rw [harcs]
    constructor
    · rintro ⟨seg, hseg1, h⟩; exact ⟨seg, (hseg seg).1 hseg1, h⟩
    · rintro ⟨seg, hseg1, h⟩; exact ⟨seg, (hseg seg).2 hseg1, h⟩

end Geopath

namespace Geopath

/-! ## The whole of `findFrom` -/

theorem nearest_good (calcDist : LongLat → LongLat → ℚ) (points : List LongLat)
    (qs qe : LongLat) :
    ScanGood calcDist qs points
      ((nearest calcDist points qs qe).startIdx, (nearest calcDist points qs qe).startDist) ∧
    ScanGood calcDist qe points
      ((nearest calcDist points qs qe).endIdx, (nearest calcDist points qs qe).endDist) := by
  have h0 : ∀ q, ScanGood calcDist q [] ((-1 : Int), maxFloat64) :=
    fun q => Or.inl ⟨rfl, rfl, by simp⟩
  have h1 := scanOne_good calcDist qs points [] _ (h0 qs)
  have h2 := scanOne_good calcDist qe points [] _ (h0 qe)
  simp only [List.length_nil, Nat.cast_zero, List.nil_append] at h1 h2
  unfold nearest
  rw [nearestLoop_eq_scanOne]
  exact ⟨h1, h2⟩

theorem scanGood_index {calcDist : LongLat → LongLat → ℚ} {q : LongLat} {points : List LongLat}
    {st : Int × ℚ} (h : ScanGood calcDist q points st) :
    st.1 = -1 ∨ ∃ p, getAt points st.1 = some p ∧ st.2 = calcDist p q ∧
      ∀ p1 ∈ points, calcDist p q ≤ calcDist p1 q := by
  rcases h with ⟨h1, _, _⟩ | ⟨k, hk, hkn, hval, _, hmin, _⟩
  · exact Or.inl h1
  · right
    cases hp : points[k]? with
    | none => exact absurd hp hkn
    | some p =>
      rw [hp] at hval
      simp only [Option.map_some', Option.some.injEq] at hval
      refine ⟨p, by rw [hk, getAt_natCast]; exact hp, hval.symm, ?_⟩
      intro p1 hp1
      rw [hval]; exact hmin p1 hp1

theorem findFrom_eq {sortFunc : (Path → Path → Bool) → List Path → List Path}
    {calcDist : LongLat → LongLat → ℚ} {paths : List Path}
    {adj : List (List Int)} {adjDist : List (List ℚ)}
    (hbuild : buildAdj calcDist (nodeIndex sortFunc paths) (nodes sortFunc paths).length
      (segments sortFunc paths) = some (adj, adjDist))
    (fuel : Nat) (qs qe : LongLat) :
    findFrom sortFunc calcDist fuel paths qs qe =
      match dijkstraLoop adj adjDist (nearest calcDist (nodes sortFunc paths) qs qe).endIdx fuel
          [⟨(nearest calcDist (nodes sortFunc paths) qs qe).startIdx,
            (nearest calcDist (nodes sortFunc paths) qs qe).startIdx, 0⟩]
          (List.replicate (nodes sortFunc paths).length maxFloat64)
          ((List.range (nodes sortFunc paths).length).map Int.ofNat) with
      | Run.outOfFuel => Run.outOfFuel
      | Run.panic => Run.panic
      | Run.done (dists, parent) =>
        returnPath (nodes sortFunc paths) (nearest calcDist (nodes sortFunc paths) qs qe)
          qs qe fuel dists parent := by
  unfold findFrom
  simp only [hbuild]

theorem findFrom_spec {sortFunc : (Path → Path → Bool) → List Path → List Path}
    (hs : IsSortFunc sortFunc) {calcDist : LongLat → LongLat → ℚ}
    (hnn : ∀ p q, 0 ≤ calcDist p q) (paths : List Path) (qs qe : LongLat) :
    ∃ F, ∀ fuel, F ≤ fuel →
      FindSpec calcDist paths (nodes sortFunc paths)
        (nearest calcDist (nodes sortFunc paths) qs qe) qs qe
        (findFrom sortFunc calcDist fuel paths qs qe) := by
  obtain ⟨adj, adjDist, hbuild, hb⟩ := built_of_paths hs calcDist paths
  have hw := arc_nonneg hb hnn
  have hg := hb.gok
  obtain ⟨hsg, heg⟩ := nearest_good calcDist (nodes sortFunc paths) qs qe
  have hfind := fun fuel => findFrom_eq hbuild fuel qs qe
  clear hbuild
  generalize nodes sortFunc paths = points at hfind hsg heg hb hg ⊢
  generalize nearest calcDist points qs qe = near at hfind hsg heg ⊢
  have hnot : ¬ ((0 : ℚ) > maxFloat64) := not_lt.2 (le_of_lt maxFloat64_pos)
  rcases scanGood_index hsg with hs1 | ⟨ps, hps, _, _⟩
  · -- no start node
    simp only at hs1
    refine ⟨1, fun fuel hf => ?_⟩
    obtain ⟨f, rfl⟩ : ∃ f, fuel = f + 1 := ⟨fuel - 1, by omega⟩
    rw [hfind]
    have hgn : getAt (List.replicate points.length maxFloat64) (-1) = none := by
      simp [getAt]
    have : dijkstraLoop adj adjDist near.endIdx (f + 1) [⟨near.startIdx, near.startIdx, 0⟩]
        (List.replicate points.length maxFloat64) ((List.range points.length).map Int.ofNat)
        = Run.panic := by
      rw [hs1]
      simp only [dijkstraLoop, heapPop_singleton, hgn]
    rw [this]
    exact FindSpec.noStart hs1
  · simp only at hps
    obtain ⟨hs0, hs1⟩ := getAt_some_range hps
    have hgd : getAt (List.replicate points.length maxFloat64) near.startIdx = some maxFloat64 := by
      have := getAt_distOf hs0 (by simp; exact hs1 :
        near.startIdx < ((List.replicate points.length maxFloat64).length : Int))
      rw [this, distOf_replicate]
    by_cases hse : near.endIdx = near.startIdx
    · -- both query points have the same nearest node
      refine ⟨1, fun fuel hf => ?_⟩
      obtain ⟨f, rfl⟩ : ∃ f, fuel = f + 1 := ⟨fuel - 1, by omega⟩
      rw [hfind]
      obtain ⟨parent1, hset⟩ := setAt_of_range near.startIdx hs0
        (by simp; exact hs1 :
          near.startIdx < (((List.range points.length).map Int.ofNat).length : Int))
      have : dijkstraLoop adj adjDist near.endIdx (f + 1) [⟨near.startIdx, near.startIdx, 0⟩]
          (List.replicate points.length maxFloat64) ((List.range points.length).map Int.ofNat)
          = Run.done (List.replicate points.length maxFloat64, parent1) := by
        simp only [dijkstraLoop, heapPop_singleton, hgd, hnot, if_false, hset, hse, if_true]
      rw [this]
      simp only [returnPath, hse, hgd, if_true]
      exact FindSpec.sameNode hps hse
    · obtain ⟨dists1, parent1, hrun, hlen1, hlen2, hpost⟩ :=
        dijkstra_run hg hw hs0 hs1 (Ne.symm hse) (unsettledDeg adj points.length ∅ + 2)
          (le_refl _)
      have hmono : ∀ fuel, unsettledDeg adj points.length ∅ + 2 ≤ fuel →
          dijkstraLoop adj adjDist near.endIdx fuel [⟨near.startIdx, near.startIdx, 0⟩]
            (List.replicate points.length maxFloat64) ((List.range points.length).map Int.ofNat)
            = Run.done (dists1, parent1) := by
        intro fuel hf
        rw [dijkstraLoop_mono _ _ _ _ _ _ _ (by rw [hrun]; simp) fuel hf, hrun]
      rcases scanGood_index heg with he1 | ⟨pe, hpe, _, _⟩
      · -- no end node
        simp only at he1
        refine ⟨unsettledDeg adj points.length ∅ + 2, fun fuel hf => ?_⟩
        rw [hfind, hmono fuel hf]
        have hgn : getAt dists1 near.endIdx = none := by
          rw [he1]; simp [getAt]
        simp only [returnPath, hgn]
        exact FindSpec.noEnd hps he1
      · simp only at hpe
        obtain ⟨he0, he1⟩ := getAt_some_range hpe
        have hgde : getAt dists1 near.endIdx = some (distOf dists1 near.endIdx) :=
          getAt_distOf he0 (by rw [hlen1]; exact he1)
        rcases hpost with ⟨hmax, hall⟩ | ⟨hlt, hmin, l, hc⟩
        · -- the search ends without reaching the end node
          refine ⟨unsettledDeg adj points.length ∅ + 2, fun fuel hf => ?_⟩
          rw [hfind, hmono fuel hf]
          simp only [returnPath, hgde, hmax, if_true]
          refine FindSpec.noRoute hps hpe hse ?_
          intro d hr
          obtain ⟨v, hv, hwalk⟩ := route_walk hb hr hps
          have : v = near.endIdx := by
            rw [← mapGet_of_getAt hb hv, ← mapGet_of_getAt hb hpe]
          rw [this] at hwalk
          exact hall d hwalk
        · -- the end node is reached
          refine ⟨max (unsettledDeg adj points.length ∅ + 2) l.length, fun fuel hf => ?_⟩
          rw [hfind, hmono fuel (le_trans (le_max_left _ _) hf)]
          have hrange := chain_range hc hlen2 ⟨hs0, hs1⟩
          have hptsl : ∀ u ∈ l, ∃ p, getAt points u = some p :=
            fun u hu => getAt_of_range (hrange u hu).1 (hrange u hu).2
          have hgather := gatherLoop_chain hc hptsl fuel (le_trans (le_max_right _ _) hf)
            [qe]
          have hne : distOf dists1 near.endIdx ≠ maxFloat64 := ne_of_lt hlt
          simp only [returnPath, hgde, hne, if_false, hgather, hps]
          have hsplit : l = l.dropLast ++ [near.startIdx] :=
            (List.dropLast_append_getLast? _ (chain_last hc)).symm
          have hcoords : coords points l = coords points l.dropLast ++ [ps] := by
            conv_lhs => rw [hsplit]
            simp [coords, List.filterMap_append, hps]
          have hpath : ([qe] ++ coords points l.dropLast ++ [ps, qs]).reverse
              = qs :: (coords points l).reverse ++ [qe] := by
            rw [hcoords]; simp
          rw [hpath]
          obtain ⟨q, hq, hroute⟩ := walk_route hb (chain_walk hc) hps
          have hqe : q = pe := Option.some.inj (hq.symm.trans hpe)
          subst hqe
          refine FindSpec.found hps hpe hse hlt hroute ?_ (chain_backRoute hb hc hps) ?_ ?_
          · intro d hr
            obtain ⟨v, hv, hwalk⟩ := route_walk hb hr hps
            have : v = near.endIdx := by
              rw [← mapGet_of_getAt hb hv, ← mapGet_of_getAt hb hpe]
            rw [this] at hwalk
            exact hmin d hwalk
          · obtain ⟨l1, hl1⟩ := chain_cons hc
            rw [hl1, coords_cons hpe]; rfl
          · rw [hcoords]; simp

end Geopath

namespace Geopath

/-! ## `FindShortestPath` through the quantizer -/

theorem FindShortestPath_eq (sortFunc : (Path → Path → Bool) → List Path → List Path)
    (calcDist : LongLat → LongLat → ℚ) (fuel : Nat) (paths : List Path)
    (startLongLat endLongLat : LongLat) (precision : ℚ) :
    FindShortestPath sortFunc calcDist fuel paths startLongLat endLongLat precision =
      findFrom sortFunc calcDist fuel (quantizedPaths precision paths)
        (quantizedPoint precision startLongLat) (quantizedPoint precision endLongLat) := by
  unfold FindShortestPath quantizedPaths quantizedPoint
  split <;> rfl

/-! ## More fuel does not change a finished call -/

theorem returnPath_mono (points : List LongLat) (near : Nearest) (qs qe : LongLat)
    (dists : List ℚ) (parent : List Int) (fuel fuel1 : Nat) (hle : fuel ≤ fuel1)
    (hne : returnPath points near qs qe fuel dists parent ≠ Run.outOfFuel) :
    returnPath points near qs qe fuel1 dists parent
      = returnPath points near qs qe fuel dists parent := by
  unfold returnPath at hne ⊢
  cases hg : getAt dists near.endIdx with
  | none => rfl
  | some de =>
    rw [hg] at hne
    simp only at hne ⊢
    by_cases hde : de = maxFloat64
    · simp only [if_pos hde]
    · simp only [if_neg hde] at hne ⊢
      have hgne : gatherLoop points parent near.startIdx fuel near.endIdx [qe] ≠ Run.outOfFuel := by
        intro hcon
        rw [hcon] at hne
        exact hne rfl
      rw [gatherLoop_mono _ _ _ _ _ _ hgne fuel1 hle]

theorem findFrom_mono (sortFunc : (Path → Path → Bool) → List Path → List Path)
    (calcDist : LongLat → LongLat → ℚ) (paths : List Path) (qs qe : LongLat)
    (fuel fuel1 : Nat) (hle : fuel ≤ fuel1)
    (hne : findFrom sortFunc calcDist fuel paths qs qe ≠ Run.outOfFuel) :
    findFrom sortFunc calcDist fuel1 paths qs qe = findFrom sortFunc calcDist fuel paths qs qe := by
  cases hbuild : buildAdj calcDist (nodeIndex sortFunc paths) (nodes sortFunc paths).length
      (segments sortFunc paths) with
  | none =>
    unfold findFrom
    simp only [hbuild]
  | some g =>
    obtain ⟨adj, adjDist⟩ := g
    rw [findFrom_eq hbuild] at hne ⊢
    rw [findFrom_eq hbuild]
    have hdne : dijkstraLoop adj adjDist (nearest calcDist (nodes sortFunc paths) qs qe).endIdx fuel
        [⟨(nearest calcDist (nodes sortFunc paths) qs qe).startIdx,
          (nearest calcDist (nodes sortFunc paths) qs qe).startIdx, 0⟩]
        (List.replicate (nodes sortFunc paths).length maxFloat64)
        ((List.range (nodes sortFunc paths).length).map Int.ofNat) ≠ Run.outOfFuel := by
      intro hcon
      rw [hcon] at hne
      exact hne rfl
    rw [dijkstraLoop_mono _ _ _ _ _ _ _ hdne fuel1 hle]
    cases hd : dijkstraLoop adj adjDist (nearest calcDist (nodes sortFunc paths) qs qe).endIdx fuel
        [⟨(nearest calcDist (nodes sortFunc paths) qs qe).startIdx,
          (nearest calcDist (nodes sortFunc paths) qs qe).startIdx, 0⟩]
        (List.replicate (nodes sortFunc paths).length maxFloat64)
        ((List.range (nodes sortFunc paths).length).map Int.ofNat) with
    | outOfFuel => exact absurd hd hdne
    | panic => rfl
    | done dp =>
      obtain ⟨dists, parent⟩ := dp
      rw [hd] at hne
      simp only at hne ⊢
      exact returnPath_mono _ _ _ _ _ _ _ _ hle hne

/-- What is known of a call of `findFrom` that has returned, whatever the fuel. -/
theorem findFrom_done {sortFunc : (Path → Path → Bool) → List Path → List Path}
    (hs : IsSortFunc sortFunc) {calcDist : LongLat → LongLat → ℚ}
    (hnn : ∀ p q, 0 ≤ calcDist p q) {paths : List Path} {qs qe : LongLat} {fuel : Nat}
    {r : Run Ret} (hrun : findFrom sortFunc calcDist fuel paths qs qe = r)
    (hne : r ≠ Run.outOfFuel) :
    FindSpec calcDist paths (nodes sortFunc paths)
      (nearest calcDist (nodes sortFunc paths) qs qe) qs qe r := by
  obtain ⟨F, hF⟩ := findFrom_spec hs hnn paths qs qe
  have h1 := hF (max fuel F) (le_max_right _ _)
  rw [findFrom_mono _ _ _ _ _ fuel _ (le_max_left _ _) (by rw [hrun]; exact hne), hrun] at h1
  exact h1

/-! ## The nearest nodes -/

theorem mem_nodes {sortFunc : (Path → Path → Bool) → List Path → List Path}
    (hs : IsSortFunc sortFunc) (paths : List Path) (q : LongLat) :
    q ∈ nodes sortFunc paths ↔ IsNode paths q := by
  obtain ⟨_, _, _, hb⟩ := built_of_paths hs (fun _ _ => (0 : ℚ)) paths
  exact hb.mem q

theorem nodes_nodup (sortFunc : (Path → Path → Bool) → List Path → List Path)
    (paths : List Path) : (nodes sortFunc paths).Nodup :=
  (addPoints_ok (segments sortFunc paths)).1.1

theorem nodes_ne_nil {sortFunc : (Path → Path → Bool) → List Path → List Path}
    (hs : IsSortFunc sortFunc) {paths : List Path} (hne : paths ≠ []) :
    ∃ p, p ∈ nodes sortFunc paths := by
  cases paths with
  | nil => exact absurd rfl hne
  | cons seg rest =>
    exact ⟨seg.1, (mem_nodes hs _ _).2 ⟨seg, List.mem_cons_self _ _, Or.inl rfl⟩⟩

/-- The scan finds a node as soon as one node is below the sentinel. -/
theorem scanGood_found {calcDist : LongLat → LongLat → ℚ} {q : LongLat} {points : List LongLat}
    {st : Int × ℚ} (h : ScanGood calcDist q points st)
    (hex : ∃ p ∈ points, calcDist p q < maxFloat64) :
    ∃ k : Nat, st.1 = (k : Int) ∧ ∃ p, points[k]? = some p ∧ st.2 = calcDist p q ∧
      (∀ p1 ∈ points, calcDist p q ≤ calcDist p1 q) ∧
      (∀ (j : Nat) (p1 : LongLat), j < k → points[j]? = some p1 → calcDist p q < calcDist p1 q) := by
  rcases h with ⟨_, _, h3⟩ | ⟨k, hk, hkn, hval, _, hmin, hfirst⟩
  · obtain ⟨p, hp, hlt⟩ := hex
    exact absurd (h3 p hp) (not_le.2 hlt)
  · cases hp : points[k]? with
    | none => exact absurd hp hkn
    | some p =>
      rw [hp] at hval
      simp only [Option.map_some', Option.some.injEq] at hval
      refine ⟨k, hk, p, hp, hval.symm, ?_, ?_⟩
      · intro p1 hp1; rw [hval]; exact hmin p1 hp1
      · intro j p1 hj hp1; rw [hval]; exact hfirst j hj p1 hp1

/-- The node that the scan has chosen for the start point is a nearest node, and
`startDist` is its distance. -/
theorem nearest_start {sortFunc : (Path → Path → Bool) → List Path → List Path}
    (hs : IsSortFunc sortFunc) (calcDist : LongLat → LongLat → ℚ) (paths : List Path)
    (qs qe : LongLat) {ps : LongLat}
    (hps : getAt (nodes sortFunc paths) (nearest calcDist (nodes sortFunc paths) qs qe).startIdx
      = some ps) :
    (nearest calcDist (nodes sortFunc paths) qs qe).startDist = calcDist ps qs ∧
      IsNearestNode calcDist paths qs ps := by
  rcases scanGood_index (nearest_good calcDist (nodes sortFunc paths) qs qe).1 with h | h
  · simp only at h
    rw [h] at hps
    simp [getAt] at hps
  · obtain ⟨p, hp, hd, hmin⟩ := h
    simp only at hp hd
    have e : p = ps := Option.some.inj (hp.symm.trans hps)
    subst e
    obtain ⟨k, _, hk⟩ := getAt_eq_some_iff.1 hps
    refine ⟨hd, (mem_nodes hs paths p).1 (List.getElem?_mem hk), ?_⟩
    intro p1 hp1
    exact hmin p1 ((mem_nodes hs paths p1).2 hp1)

theorem nearest_end {sortFunc : (Path → Path → Bool) → List Path → List Path}
    (hs : IsSortFunc sortFunc) (calcDist : LongLat → LongLat → ℚ) (paths : List Path)
    (qs qe : LongLat) {pe : LongLat}
    (hpe : getAt (nodes sortFunc paths) (nearest calcDist (nodes sortFunc paths) qs qe).endIdx
      = some pe) :
    (nearest calcDist (nodes sortFunc paths) qs qe).endDist = calcDist pe qe ∧
      IsNearestNode calcDist paths qe pe := by
  rcases scanGood_index (nearest_good calcDist (nodes sortFunc paths) qs qe).2 with h | h
  · simp only at h
    rw [h] at hpe
    simp [getAt] at hpe
  · obtain ⟨p, hp, hd, hmin⟩ := h
    simp only at hp hd
    have e : p = pe := Option.some.inj (hp.symm.trans hpe)
    subst e
    obtain ⟨k, _, hk⟩ := getAt_eq_some_iff.1 hpe
    refine ⟨hd, (mem_nodes hs paths p).1 (List.getElem?_mem hk), ?_⟩
    intro p1 hp1
    exact hmin p1 ((mem_nodes hs paths p1).2 hp1)

/-- Swapping the two query points swaps the two halves of the scan. -/
theorem nearest_swap (calcDist : LongLat → LongLat → ℚ) (points : List LongLat)
    (qs qe : LongLat) :
    (nearest calcDist points qe qs).startIdx = (nearest calcDist points qs qe).endIdx ∧
    (nearest calcDist points qe qs).startDist = (nearest calcDist points qs qe).endDist ∧
    (nearest calcDist points qe qs).endIdx = (nearest calcDist points qs qe).startIdx ∧
    (nearest calcDist points qe qs).endDist = (nearest calcDist points qs qe).startDist := by
  unfold nearest
  rw [nearestLoop_eq_scanOne, nearestLoop_eq_scanOne]
  exact ⟨rfl, rfl, rfl, rfl⟩

/-! ## Routes -/

theorem route_cast {calcDist : LongLat → LongLat → ℚ} {segs : List Path} {p q : LongLat}
    {d d1 : ℚ} (h : Route calcDist segs p q d) (he : d = d1) : Route calcDist segs p q d1 :=
  he ▸ h

theorem route_trans {calcDist : LongLat → LongLat → ℚ} {segs : List Path} {p q r : LongLat}
    {d1 d2 : ℚ} (h1 : Route calcDist segs p q d1) (h2 : Route calcDist segs q r d2) :
    Route calcDist segs p r (d1 + d2) := by
  induction h2 with
  | here => exact route_cast h1 (by ring)
  | forward _ hseg ih => exact route_cast (Route.forward ih hseg) (by ring)
  | backward _ hseg ih => exact route_cast (Route.backward ih hseg) (by ring)

theorem route_reverse {calcDist : LongLat → LongLat → ℚ} {segs : List Path} {p q : LongLat}
    {d : ℚ} (h : Route calcDist segs p q d) : Route calcDist segs q p d := by
  induction h with
  | here => exact Route.here _
  | @forward v t d _ hseg ih =>
    exact route_cast (route_trans (Route.backward (Route.here t) hseg) ih) (by ring)
  | @backward v t d _ hseg ih =>
    exact route_cast (route_trans (Route.forward (Route.here t) hseg) ih) (by ring)

theorem route_nonneg {calcDist : LongLat → LongLat → ℚ} (hnn : ∀ p q, 0 ≤ calcDist p q)
    {segs : List Path} {p q : LongLat} {d : ℚ} (h : Route calcDist segs p q d) : 0 ≤ d := by
  induction h with
  | here => exact le_refl _
  | forward _ _ ih => exact add_nonneg ih (hnn _ _)
  | backward _ _ ih => exact add_nonneg ih (hnn _ _)

/-! ## The returned sequence as a route -/

theorem pathLength_append_pair (calcDist : LongLat → LongLat → ℚ) :
    ∀ (l : List LongLat) (a b : LongLat),
      pathLength calcDist (l ++ [a, b]) = pathLength calcDist (l ++ [a]) + calcDist a b := by
  intro l
  induction l with
  | nil => intro a b; simp [pathLength]
  | cons x l ih =>
    intro a b
    cases l with
    | nil => simp [pathLength]
    | cons y l =>
      have h1 := ih a b
      simp only [List.cons_append] at h1 ⊢
      simp only [pathLength]
      rw [h1]; ring

/-- With a symmetric metric, the route that a backward route lists has the same
length, and its neighbours are joined by segments. -/
theorem backRoute_reverse {calcDist : LongLat → LongLat → ℚ}
    (hsym : ∀ p q, calcDist p q = calcDist q p) {segs : List Path} {l : List LongLat} {d : ℚ}
    (h : BackRoute calcDist segs l d) :
    pathLength calcDist l.reverse = d ∧
      List.Chain' (fun p q => (p, q) ∈ segs ∨ (q, p) ∈ segs) l.reverse := by
  induction h with
  | single p => simp [pathLength]
  | @forward u v r d _ hseg ih =>
    obtain ⟨ih1, ih2⟩ := ih
    constructor
    · simp only [List.reverse_cons, List.append_assoc, List.singleton_append] at ih1 ⊢
      rw [pathLength_append_pair, ih1]
    · simp only [List.reverse_cons, List.append_assoc, List.singleton_append] at ih2 ⊢
      have : r.reverse ++ [u, v] = (r.reverse ++ [u]) ++ [v] := by simp
      rw [this]
      apply List.Chain'.append ih2 (List.chain'_singleton v)
      intro x hx y hy
      have hx1 : u = x := by simpa using hx
      have hy1 : v = y := by simpa using hy
      subst hx1; subst hy1
      exact Or.inl hseg
  | @backward u v r d _ hseg ih =>
    obtain ⟨ih1, ih2⟩ := ih
    constructor
    · simp only [List.reverse_cons, List.append_assoc, List.singleton_append] at ih1 ⊢
      rw [pathLength_append_pair, ih1, hsym u v]
    · simp only [List.reverse_cons, List.append_assoc, List.singleton_append] at ih2 ⊢
      have : r.reverse ++ [u, v] = (r.reverse ++ [u]) ++ [v] := by simp
      rw [this]
      apply List.Chain'.append ih2 (List.chain'_singleton v)
      intro x hx y hy
      have hx1 : u = x := by simpa using hx
      have hy1 : v = y := by simpa using hy
      subst hx1; subst hy1
      exact Or.inr hseg

end Geopath

namespace Geopath

/-! ## The stand-in metric and sort of the concrete evaluations -/

theorem gridDist_nonneg (p q : LongLat) : 0 ≤ gridDist p q := by
  unfold gridDist
  exact add_nonneg (abs_nonneg _) (abs_nonneg _)

theorem gridDist_symm (p q : LongLat) : gridDist p q = gridDist q p := by
  unfold gridDist
  rw [abs_sub_comm q.1 p.1, abs_sub_comm q.2 p.2]

theorem isSortFunc_insertion : IsSortFunc insertionSortLessFunc :=
  insertionSortLessFunc_isSortFunc

/-! ## Claims about the result of a call -/

/-- C1. For every call of `FindShortestPath` that succeeds, with a metric that is
non-negative and symmetric, the returned distance is
`calcDist start ns + D + calcDist ne end`, where `start` and `end` are the query
points after the optional rounding, `ns` and `ne` are graph nodes nearest to
them (the ones the scan chose) and `D` is the minimum, over all routes from `ns`
to `ne` in the graph of the rounded segments, of the sum of the segment
lengths. -/
theorem FindShortestPath_distance (sortFunc : (Path → Path → Bool) → List Path → List Path)
    (calcDist : LongLat → LongLat → ℚ) (fuel : Nat) (paths : List Path)
    (startLongLat endLongLat : LongLat) (precision : ℚ) (path : List LongLat) (dist : ℚ)
    (hs : IsSortFunc sortFunc) (hnn : ∀ p q, 0 ≤ calcDist p q)
    (hsym : ∀ p q, calcDist p q = calcDist q p)
    (hrun : FindShortestPath sortFunc calcDist fuel paths startLongLat endLongLat precision
      = Run.done ⟨path, dist, none⟩) :
    ∃ ns ne D,
      nearestStart sortFunc calcDist (quantizedPaths precision paths)
        (quantizedPoint precision startLongLat) (quantizedPoint precision endLongLat) = some ns ∧
      nearestEnd sortFunc calcDist (quantizedPaths precision paths)
        (quantizedPoint precision startLongLat) (quantizedPoint precision endLongLat) = some ne ∧
      IsNearestNode calcDist (quantizedPaths precision paths)
        (quantizedPoint precision startLongLat) ns ∧
      IsNearestNode calcDist (quantizedPaths precision paths)
        (quantizedPoint precision endLongLat) ne ∧
      Route calcDist (quantizedPaths precision paths) ns ne D ∧
      (∀ d, Route calcDist (quantizedPaths precision paths) ns ne d → D ≤ d) ∧
      dist = calcDist (quantizedPoint precision startLongLat) ns + D
        + calcDist ne (quantizedPoint precision endLongLat) := by
  rw [FindShortestPath_eq] at hrun
  have hspec := findFrom_done hs hnn hrun (by simp)
  cases hspec with
  | @found ps pe D lc hps hpe _ _ hroute hmin _ _ _ =>
    obtain ⟨hd1, hn1⟩ := nearest_start hs calcDist _ _ _ hps
    obtain ⟨hd2, hn2⟩ := nearest_end hs calcDist _ _ _ hpe
    refine ⟨ps, pe, D, hps, hpe, hn1, hn2, hroute, hmin, ?_⟩
    rw [hd1, hd2, hsym ps]

theorem FindShortestPath_distance_witness :
    ∃ ns ne D,
      nearestStart insertionSortLessFunc gridDist
        (quantizedPaths 0 [((0, 0), (0, 1)), ((0, 1), (0, 2))])
        (quantizedPoint 0 (0, 0)) (quantizedPoint 0 (0, 2)) = some ns ∧
      nearestEnd insertionSortLessFunc gridDist
        (quantizedPaths 0 [((0, 0), (0, 1)), ((0, 1), (0, 2))])
        (quantizedPoint 0 (0, 0)) (quantizedPoint 0 (0, 2)) = some ne ∧
      IsNearestNode gridDist (quantizedPaths 0 [((0, 0), (0, 1)), ((0, 1), (0, 2))])
        (quantizedPoint 0 (0, 0)) ns ∧
      IsNearestNode gridDist (quantizedPaths 0 [((0, 0), (0, 1)), ((0, 1), (0, 2))])
        (quantizedPoint 0 (0, 2)) ne ∧
      Route gridDist (quantizedPaths 0 [((0, 0), (0, 1)), ((0, 1), (0, 2))]) ns ne D ∧
      (∀ d, Route gridDist (quantizedPaths 0 [((0, 0), (0, 1)), ((0, 1), (0, 2))]) ns ne d →
        D ≤ d) ∧
      (2 : ℚ) = gridDist (quantizedPoint 0 (0, 0)) ns + D + gridDist ne (quantizedPoint 0 (0, 2)) :=
  FindShortestPath_distance insertionSortLessFunc gridDist 20
    [((0, 0), (0, 1)), ((0, 1), (0, 2))] (0, 0) (0, 2) 0
    [(0, 0), (0, 0), (0, 1), (0, 2), (0, 2)] 2
    isSortFunc_insertion gridDist_nonneg gridDist_symm (by decide!)

/-- C6. For every call of `FindShortestPath` that succeeds, with a metric that is
non-negative and symmetric, the returned sequence is the (rounded) start point,
then a route `r`, then the (rounded) end point; `r` begins with the node chosen
for the start and ends with the node chosen for the end, every two consecutive
coordinates of `r` are the two endpoints of a (rounded) segment, and the sum of
`calcDist` over the consecutive pairs of `r` is the solver's distance
`dists[endIdx]`, the term `D` of the returned total
`startDist + D + endDist`, which no route between the two nodes undercuts. -/
theorem FindShortestPath_route (sortFunc : (Path → Path → Bool) → List Path → List Path)
    (calcDist : LongLat → LongLat → ℚ) (fuel : Nat) (paths : List Path)
    (startLongLat endLongLat : LongLat) (precision : ℚ) (path : List LongLat) (dist : ℚ)
    (hs : IsSortFunc sortFunc) (hnn : ∀ p q, 0 ≤ calcDist p q)
    (hsym : ∀ p q, calcDist p q = calcDist q p)
    (hrun : FindShortestPath sortFunc calcDist fuel paths startLongLat endLongLat precision
      = Run.done ⟨path, dist, none⟩) :
    ∃ (r : List LongLat) (ns ne : LongLat),
      path = quantizedPoint precision startLongLat :: r ++ [quantizedPoint precision endLongLat] ∧
      r.head? = some ns ∧ r.getLast? = some ne ∧
      nearestStart sortFunc calcDist (quantizedPaths precision paths)
        (quantizedPoint precision startLongLat) (quantizedPoint precision endLongLat) = some ns ∧
      nearestEnd sortFunc calcDist (quantizedPaths precision paths)
        (quantizedPoint precision startLongLat) (quantizedPoint precision endLongLat) = some ne ∧
      List.Chain' (fun p q => (p, q) ∈ quantizedPaths precision paths ∨
        (q, p) ∈ quantizedPaths precision paths) r ∧
      dist = (nearest calcDist (nodes sortFunc (quantizedPaths precision paths))
          (quantizedPoint precision startLongLat) (quantizedPoint precision endLongLat)).startDist
        + pathLength calcDist r
        + (nearest calcDist (nodes sortFunc (quantizedPaths precision paths))
          (quantizedPoint precision startLongLat) (quantizedPoint precision endLongLat)).endDist ∧
      ∀ d, Route calcDist (quantizedPaths precision paths) ns ne d → pathLength calcDist r ≤ d := by
  rw [FindShortestPath_eq] at hrun
  have hspec := findFrom_done hs hnn hrun (by simp)
  cases hspec with
  | @found ps pe D lc hps hpe _ _ hroute hmin hback hhead hlast =>
    obtain ⟨hlen, hchain⟩ := backRoute_reverse hsym hback
    refine ⟨lc.reverse, ps, pe, rfl, ?_, ?_, hps, hpe, hchain, ?_, ?_⟩
    · rw [List.head?_reverse]; exact hlast
    · rw [List.getLast?_reverse]; exact hhead
    · rw [hlen]
    · rw [hlen]; exact hmin

theorem FindShortestPath_route_witness :
    ∃ (r : List LongLat) (ns ne : LongLat),
      [((0 : ℚ), (0 : ℚ)), (0, 0), (0, 1), (0, 2), (0, 2)]
        = quantizedPoint 0 (0, 0) :: r ++ [quantizedPoint 0 (0, 2)] ∧
      r.head? = some ns ∧ r.getLast? = some ne ∧
      nearestStart insertionSortLessFunc gridDist
        (quantizedPaths 0 [((0, 0), (0, 1)), ((0, 1), (0, 2))])
        (quantizedPoint 0 (0, 0)) (quantizedPoint 0 (0, 2)) = some ns ∧
      nearestEnd insertionSortLessFunc gridDist
        (quantizedPaths 0 [((0, 0), (0, 1)), ((0, 1), (0, 2))])
        (quantizedPoint 0 (0, 0)) (quantizedPoint 0 (0, 2)) = some ne ∧
      List.Chain' (fun p q => (p, q) ∈ quantizedPaths 0 [((0, 0), (0, 1)), ((0, 1), (0, 2))] ∨
        (q, p) ∈ quantizedPaths 0 [((0, 0), (0, 1)), ((0, 1), (0, 2))]) r ∧
      (2 : ℚ) = (nearest gridDist
          (nodes insertionSortLessFunc (quantizedPaths 0 [((0, 0), (0, 1)), ((0, 1), (0, 2))]))
          (quantizedPoint 0 (0, 0)) (quantizedPoint 0 (0, 2))).startDist
        + pathLength gridDist r
        + (nearest gridDist
          (nodes insertionSortLessFunc (quantizedPaths 0 [((0, 0), (0, 1)), ((0, 1), (0, 2))]))
          (quantizedPoint 0 (0, 0)) (quantizedPoint 0 (0, 2))).endDist ∧
      ∀ d, Route gridDist (quantizedPaths 0 [((0, 0), (0, 1)), ((0, 1), (0, 2))]) ns ne d →
        pathLength gridDist r ≤ d :=
  FindShortestPath_route insertionSortLessFunc gridDist 20
    [((0, 0), (0, 1)), ((0, 1), (0, 2))] (0, 0) (0, 2) 0
    [(0, 0), (0, 0), (0, 1), (0, 2), (0, 2)] 2
    isSortFunc_insertion gridDist_nonneg gridDist_symm (by decide!)

end Geopath

namespace Geopath

/-! ## Claims about failure and symmetry -/

/-- With a node below the sentinel for each query point, both scans choose a
node. -/
theorem nearest_nodes_exist {sortFunc : (Path → Path → Bool) → List Path → List Path}
    (hs : IsSortFunc sortFunc) {calcDist : LongLat → LongLat → ℚ} {segs : List Path}
    (hne : segs ≠ []) {qs qe : LongLat}
    (hb : ∀ p, IsNode segs p → calcDist p qs < maxFloat64 ∧ calcDist p qe < maxFloat64) :
    (∃ ps, getAt (nodes sortFunc segs) (nearest calcDist (nodes sortFunc segs) qs qe).startIdx
      = some ps) ∧
    (∃ pe, getAt (nodes sortFunc segs) (nearest calcDist (nodes sortFunc segs) qs qe).endIdx
      = some pe) := by
  obtain ⟨p0, hp0⟩ := nodes_ne_nil hs hne
  have hn0 := (mem_nodes hs segs p0).1 hp0
  obtain ⟨h1, h2⟩ := nearest_good calcDist (nodes sortFunc segs) qs qe
  obtain ⟨k1, hk1, p1, hp1, _⟩ := scanGood_found h1 ⟨p0, hp0, (hb p0 hn0).1⟩
  obtain ⟨k2, hk2, p2, hp2, _⟩ := scanGood_found h2 ⟨p0, hp0, (hb p0 hn0).2⟩
  simp only at hk1 hk2
  exact ⟨⟨p1, by rw [hk1, getAt_natCast]; exact hp1⟩, ⟨p2, by rw [hk2, getAt_natCast]; exact hp2⟩⟩

theorem quantizedPaths_ne_nil {paths : List Path} (hne : paths ≠ []) (precision : ℚ) :
    quantizedPaths precision paths ≠ [] := by
  unfold quantizedPaths roundPaths
  split
  · simpa using hne
  · exact hne

theorem getAt_neg_one {α : Type} (s : List α) : getAt s (-1) = none := by
  simp [getAt]

/-- C3. For every non-empty segment list and query points such that no route in
the built graph connects the node chosen for the start to the node chosen for
the end (the metric being non-negative and below the sentinel on the nodes),
`FindShortestPath` returns, given enough fuel, the error `ErrNoPath` with a nil
point sequence. -/
theorem FindShortestPath_no_route (sortFunc : (Path → Path → Bool) → List Path → List Path)
    (calcDist : LongLat → LongLat → ℚ) (paths : List Path)
    (startLongLat endLongLat : LongLat) (precision : ℚ)
    (hs : IsSortFunc sortFunc) (hnn : ∀ p q, 0 ≤ calcDist p q) (hne : paths ≠ [])
    (hb : ∀ p, IsNode (quantizedPaths precision paths) p →
      calcDist p (quantizedPoint precision startLongLat) < maxFloat64 ∧
      calcDist p (quantizedPoint precision endLongLat) < maxFloat64)
    (hnr : ∀ ns ne,
      nearestStart sortFunc calcDist (quantizedPaths precision paths)
        (quantizedPoint precision startLongLat) (quantizedPoint precision endLongLat) = some ns →
      nearestEnd sortFunc calcDist (quantizedPaths precision paths)
        (quantizedPoint precision startLongLat) (quantizedPoint precision endLongLat) = some ne →
      ∀ d, ¬ Route calcDist (quantizedPaths precision paths) ns ne d) :
    ∃ F, ∀ fuel, F ≤ fuel →
      FindShortestPath sortFunc calcDist fuel paths startLongLat endLongLat precision
        = Run.done ⟨[], maxFloat64, some GoError.ErrNoPath⟩ := by
  obtain ⟨F, hF⟩ := findFrom_spec hs hnn (quantizedPaths precision paths)
    (quantizedPoint precision startLongLat) (quantizedPoint precision endLongLat)
  obtain ⟨⟨ps0, hps0⟩, ⟨pe0, hpe0⟩⟩ :=
    nearest_nodes_exist hs (quantizedPaths_ne_nil hne precision) hb
  refine ⟨F, fun fuel hf => ?_⟩
  rw [FindShortestPath_eq]
  have hspec := hF fuel hf
  generalize hr : findFrom sortFunc calcDist fuel (quantizedPaths precision paths)
    (quantizedPoint precision startLongLat) (quantizedPoint precision endLongLat) = r at hspec
  cases hspec with
  | noStart h1 => rw [h1, getAt_neg_one] at hps0; exact absurd hps0 (by simp)
  | sameNode hps hse =>
    exact absurd (Route.here _) (hnr _ _ hps (by unfold nearestEnd; rw [hse]; exact hps) 0)
  | noEnd _ h1 => rw [h1, getAt_neg_one] at hpe0; exact absurd hpe0 (by simp)
  | noRoute _ _ _ _ => rfl
  | found hps hpe _ _ hroute _ _ _ _ => exact absurd hroute (hnr _ _ hps hpe _)

theorem no_route_example (q : LongLat) (d : ℚ)
    (h : Route gridDist [((0, 0), (0, 1)), ((5, 5), (6, 6))] (0, 0) q d) :
    q = (0, 0) ∨ q = (0, 1) := by
  induction h with
  | here => exact Or.inl rfl
  | @forward v t d _ hseg ih =>
    simp only [List.mem_cons, Prod.mk.injEq, List.mem_singleton, List.not_mem_nil, or_false]
      at hseg
    rcases hseg with ⟨hv, ht⟩ | ⟨hv, _⟩
    · exact Or.inr ht
    · rcases ih with ih | ih
      · rw [ih] at hv; norm_num [Prod.ext_iff] at hv
      · rw [ih] at hv; norm_num [Prod.ext_iff] at hv
  | @backward v t d _ hseg ih =>
    simp only [List.mem_cons, Prod.mk.injEq, List.mem_singleton, List.not_mem_nil, or_false]
      at hseg
    rcases hseg with ⟨ht, hv⟩ | ⟨_, hv⟩
    · exact Or.inl ht
    · rcases ih with ih | ih
      · rw [ih] at hv; norm_num [Prod.ext_iff] at hv
      · rw [ih] at hv; norm_num [Prod.ext_iff] at hv

theorem FindShortestPath_no_route_witness :
    ∃ F, ∀ fuel, F ≤ fuel →
      FindShortestPath insertionSortLessFunc gridDist fuel
        [((0, 0), (0, 1)), ((5, 5), (6, 6))] (0, 0) (6, 6) 0
        = Run.done ⟨[], maxFloat64, some GoError.ErrNoPath⟩ :=
  FindShortestPath_no_route insertionSortLessFunc gridDist
    [((0, 0), (0, 1)), ((5, 5), (6, 6))] (0, 0) (6, 6) 0
    isSortFunc_insertion gridDist_nonneg (by simp)
    (by
      rintro p ⟨seg, hseg, hp⟩
      have hq : quantizedPaths 0 [(((0 : ℚ), (0 : ℚ)), ((0 : ℚ), (1 : ℚ))), ((5, 5), (6, 6))]
          = [((0, 0), (0, 1)), ((5, 5), (6, 6))] := by decide!
      rw [hq] at hseg
      simp only [List.mem_cons, List.mem_singleton, List.not_mem_nil, or_false] at hseg
      rcases hseg with rfl | rfl <;> rcases hp with rfl | rfl <;> decide!)
    (by
      intro ns ne h1 h2 d hroute
      have e1 : nearestStart insertionSortLessFunc gridDist
          (quantizedPaths 0 [((0, 0), (0, 1)), ((5, 5), (6, 6))])
          (quantizedPoint 0 (0, 0)) (quantizedPoint 0 (6, 6)) = some (0, 0) := by decide!
      have e2 : nearestEnd insertionSortLessFunc gridDist
          (quantizedPaths 0 [((0, 0), (0, 1)), ((5, 5), (6, 6))])
          (quantizedPoint 0 (0, 0)) (quantizedPoint 0 (6, 6)) = some (6, 6) := by decide!
      have hq : quantizedPaths 0 [(((0 : ℚ), (0 : ℚ)), ((0 : ℚ), (1 : ℚ))), ((5, 5), (6, 6))]
          = [((0, 0), (0, 1)), ((5, 5), (6, 6))] := by decide!
      rw [e1] at h1; rw [e2] at h2
      have n1 := Option.some.inj h1
      have n2 := Option.some.inj h2
      subst n1; subst n2
      rw [hq] at hroute
      rcases no_route_example _ _ hroute with h | h
      · norm_num at h
      · norm_num at h)

/-- C8. Symmetry: for every non-empty segment list, coordinates `A` and `B` and
precision (the metric being non-negative and below the sentinel on the nodes),
the calls from `A` to `B` and from `B` to `A` return, given enough fuel, the
same distance value: both fail with `ErrNoPath`, or both succeed with the same
total distance. -/
theorem FindShortestPath_symmetric (sortFunc : (Path → Path → Bool) → List Path → List Path)
    (calcDist : LongLat → LongLat → ℚ) (paths : List Path) (A B : LongLat) (precision : ℚ)
    (hs : IsSortFunc sortFunc) (hnn : ∀ p q, 0 ≤ calcDist p q) (hne : paths ≠ [])
    (hb : ∀ p, IsNode (quantizedPaths precision paths) p →
      calcDist p (quantizedPoint precision A) < maxFloat64 ∧
      calcDist p (quantizedPoint precision B) < maxFloat64) :
    ∃ F, ∀ fuel, F ≤ fuel →
      (FindShortestPath sortFunc calcDist fuel paths A B precision
          = Run.done ⟨[], maxFloat64, some GoError.ErrNoPath⟩ ∧
        FindShortestPath sortFunc calcDist fuel paths B A precision
          = Run.done ⟨[], maxFloat64, some GoError.ErrNoPath⟩) ∨
      ∃ path1 path2 d,
        FindShortestPath sortFunc calcDist fuel paths A B precision
          = Run.done ⟨path1, d, none⟩ ∧
        FindShortestPath sortFunc calcDist fuel paths B A precision
          = Run.done ⟨path2, d, none⟩ := by
  obtain ⟨F1, hF1⟩ := findFrom_spec hs hnn (quantizedPaths precision paths)
    (quantizedPoint precision A) (quantizedPoint precision B)
  obtain ⟨F2, hF2⟩ := findFrom_spec hs hnn (quantizedPaths precision paths)
    (quantizedPoint precision B) (quantizedPoint precision A)
  obtain ⟨⟨ps0, hps0⟩, ⟨pe0, hpe0⟩⟩ :=
    nearest_nodes_exist hs (quantizedPaths_ne_nil hne precision) hb
  obtain ⟨sw1, sw2, sw3, sw4⟩ := nearest_swap calcDist
    (nodes sortFunc (quantizedPaths precision paths))
    (quantizedPoint precision A) (quantizedPoint precision B)
  refine ⟨max F1 F2, fun fuel hf => ?_⟩
  rw [FindShortestPath_eq, FindShortestPath_eq]
  have hspec1 := hF1 fuel (le_trans (le_max_left _ _) hf)
  have hspec2 := hF2 fuel (le_trans (le_max_right _ _) hf)
  generalize findFrom sortFunc calcDist fuel (quantizedPaths precision paths)
    (quantizedPoint precision A) (quantizedPoint precision B) = r1 at hspec1
  generalize findFrom sortFunc calcDist fuel (quantizedPaths precision paths)
    (quantizedPoint precision B) (quantizedPoint precision A) = r2 at hspec2
  cases hspec1 with
  | noStart h1 => rw [h1, getAt_neg_one] at hps0; exact absurd hps0 (by simp)
  | noEnd _ h1 => rw [h1, getAt_neg_one] at hpe0; exact absurd hpe0 (by simp)
  | sameNode hps hse =>
    cases hspec2 with
    | noStart h1 => rw [sw1] at h1; rw [h1, getAt_neg_one] at hpe0; exact absurd hpe0 (by simp)
    | noEnd _ h1 => rw [sw3] at h1; rw [h1, getAt_neg_one] at hps0; exact absurd hps0 (by simp)
    | sameNode _ _ => exact Or.inl ⟨rfl, rfl⟩
    | noRoute _ _ hse2 _ => rw [sw1, sw3] at hse2; exact absurd hse.symm hse2
    | found _ _ hse2 _ _ _ _ _ _ => rw [sw1, sw3] at hse2; exact absurd hse.symm hse2
  | noRoute hps hpe hse hall =>
    cases hspec2 with
    | noStart h1 => rw [sw1] at h1; rw [h1, getAt_neg_one] at hpe0; exact absurd hpe0 (by simp)
    | noEnd _ h1 => rw [sw3] at h1; rw [h1, getAt_neg_one] at hps0; exact absurd hps0 (by simp)
    | sameNode _ hse2 => rw [sw1, sw3] at hse2; exact absurd hse2.symm hse
    | noRoute _ _ _ _ => exact Or.inl ⟨rfl, rfl⟩
    | found hps2 hpe2 _ hlt hroute _ _ _ _ =>
      rw [sw1] at hps2; rw [sw3] at hpe2
      have e1 := Option.some.inj (hps2.symm.trans hpe)
      have e2 := Option.some.inj (hpe2.symm.trans hps)
      subst e1; subst e2
      have := hall _ (route_reverse hroute)
      linarith
  | found hps hpe hse hlt hroute hmin _ _ _ =>
    cases hspec2 with
    | noStart h1 => rw [sw1] at h1; rw [h1, getAt_neg_one] at hpe0; exact absurd hpe0 (by simp)
    | noEnd _ h1 => rw [sw3] at h1; rw [h1, getAt_neg_one] at hps0; exact absurd hps0 (by simp)
    | sameNode _ hse2 => rw [sw1, sw3] at hse2; exact absurd hse2.symm hse
    | noRoute hps2 hpe2 _ hall =>
      rw [sw1] at hps2; rw [sw3] at hpe2
      have e1 := Option.some.inj (hps2.symm.trans hpe)
      have e2 := Option.some.inj (hpe2.symm.trans hps)
      subst e1; subst e2
      have := hall _ (route_reverse hroute)
      linarith
    | @found ps2 pe2 D2 lc2 hps2 hpe2 _ _ hroute2 hmin2 _ _ _ =>
      rw [sw1] at hps2; rw [sw3] at hpe2
      have e1 := Option.some.inj (hps2.symm.trans hpe)
      have e2 := Option.some.inj (hpe2.symm.trans hps)
      subst e1; subst e2
      have h1 := hmin _ (route_reverse hroute2)
      have h2 := hmin2 _ (route_reverse hroute)
      have hD := le_antisymm h1 h2
      refine Or.inr ⟨_, quantizedPoint precision B :: lc2.reverse ++ [quantizedPoint precision A],
        _, rfl, ?_⟩
      rw [sw2, sw4, hD]
      congr 1
      congr 1
      ring

end Geopath

namespace Geopath

/-! ## The two scans and the quantizer -/

theorem FindShortestPath_symmetric_witness :
    ∃ F, ∀ fuel, F ≤ fuel →
      (FindShortestPath insertionSortLessFunc gridDist fuel
          [((0, 0), (0, 1)), ((0, 1), (0, 2))] (0, 0) (0, 2) 0
          = Run.done ⟨[], maxFloat64, some GoError.ErrNoPath⟩ ∧
        FindShortestPath insertionSortLessFunc gridDist fuel
          [((0, 0), (0, 1)), ((0, 1), (0, 2))] (0, 2) (0, 0) 0
          = Run.done ⟨[], maxFloat64, some GoError.ErrNoPath⟩) ∨
      ∃ path1 path2 d,
        FindShortestPath insertionSortLessFunc gridDist fuel
          [((0, 0), (0, 1)), ((0, 1), (0, 2))] (0, 0) (0, 2) 0
          = Run.done ⟨path1, d, none⟩ ∧
        FindShortestPath insertionSortLessFunc gridDist fuel
          [((0, 0), (0, 1)), ((0, 1), (0, 2))] (0, 2) (0, 0) 0
          = Run.done ⟨path2, d, none⟩ :=
  FindShortestPath_symmetric insertionSortLessFunc gridDist
    [((0, 0), (0, 1)), ((0, 1), (0, 2))] (0, 0) (0, 2) 0
    isSortFunc_insertion gridDist_nonneg (by simp)
    (by
      rintro p ⟨seg, hseg, hp⟩
      have hq : quantizedPaths 0 [(((0 : ℚ), (0 : ℚ)), ((0 : ℚ), (1 : ℚ))), ((0, 1), (0, 2))]
          = [((0, 0), (0, 1)), ((0, 1), (0, 2))] := by decide!
      rw [hq] at hseg
      simp only [List.mem_cons, List.mem_singleton, List.not_mem_nil, or_false] at hseg
      rcases hseg with rfl | rfl <;> rcases hp with rfl | rfl <;> decide!)

/-- C9. Nearest point locator: for every non-empty node list whose nodes are
closer to the two query points than the sentinel `maxFloat64`, the index chosen
for a query point `q` (`startIdx` for the start, `endIdx` for the end) is the
index `i` of a node that minimizes `calcDist points[i] q` over all nodes, the
recorded distance (`startDist`, `endDist`) is that minimum, and every node at
the minimum has an index of at least `i`: the first one in node order wins. -/
theorem nearest_first_minimum (calcDist : LongLat → LongLat → ℚ) (points : List LongLat)
    (startLongLat endLongLat : LongLat) (hne : points ≠ [])
    (hb : ∀ p ∈ points, calcDist p startLongLat < maxFloat64 ∧
      calcDist p endLongLat < maxFloat64) :
    (∃ (i : Nat) (p : LongLat),
      (nearest calcDist points startLongLat endLongLat).startIdx = (i : Int) ∧
      points[i]? = some p ∧
      (nearest calcDist points startLongLat endLongLat).startDist = calcDist p startLongLat ∧
      (∀ p1 ∈ points, calcDist p startLongLat ≤ calcDist p1 startLongLat) ∧
      (∀ (j : Nat) (p1 : LongLat), points[j]? = some p1 →
        calcDist p1 startLongLat = calcDist p startLongLat → i ≤ j)) ∧
    (∃ (i : Nat) (p : LongLat),
      (nearest calcDist points startLongLat endLongLat).endIdx = (i : Int) ∧
      points[i]? = some p ∧
      (nearest calcDist points startLongLat endLongLat).endDist = calcDist p endLongLat ∧
      (∀ p1 ∈ points, calcDist p endLongLat ≤ calcDist p1 endLongLat) ∧
      (∀ (j : Nat) (p1 : LongLat), points[j]? = some p1 →
        calcDist p1 endLongLat = calcDist p endLongLat → i ≤ j)) := by
  obtain ⟨p0, hp0⟩ := List.exists_mem_of_ne_nil points hne
  obtain ⟨h1, h2⟩ := nearest_good calcDist points startLongLat endLongLat
  obtain ⟨k1, hk1, p1, hp1, hd1, hmin1, hfirst1⟩ := scanGood_found h1 ⟨p0, hp0, (hb p0 hp0).1⟩
  obtain ⟨k2, hk2, p2, hp2, hd2, hmin2, hfirst2⟩ := scanGood_found h2 ⟨p0, hp0, (hb p0 hp0).2⟩
  simp only at hk1 hk2 hd1 hd2
  refine ⟨⟨k1, p1, hk1, hp1, hd1, hmin1, ?_⟩, ⟨k2, p2, hk2, hp2, hd2, hmin2, ?_⟩⟩
  · intro j q hq heq
    by_contra hlt
    have := hfirst1 j q (not_le.1 hlt) hq
    rw [heq] at this
    exact lt_irrefl _ this
  · intro j q hq heq
    by_contra hlt
    have := hfirst2 j q (not_le.1 hlt) hq
    rw [heq] at this
    exact lt_irrefl _ this

theorem nearest_first_minimum_witness :
    (∃ (i : Nat) (p : LongLat),
      (nearest gridDist [(2, 0), (0, 1), (1, 0)] (0, 0) (2, 1)).startIdx = (i : Int) ∧
      [((2 : ℚ), (0 : ℚ)), (0, 1), (1, 0)][i]? = some p ∧
      (nearest gridDist [(2, 0), (0, 1), (1, 0)] (0, 0) (2, 1)).startDist = gridDist p (0, 0) ∧
      (∀ p1 ∈ [((2 : ℚ), (0 : ℚ)), (0, 1), (1, 0)], gridDist p (0, 0) ≤ gridDist p1 (0, 0)) ∧
      (∀ (j : Nat) (p1 : LongLat), [((2 : ℚ), (0 : ℚ)), (0, 1), (1, 0)][j]? = some p1 →
        gridDist p1 (0, 0) = gridDist p (0, 0) → i ≤ j)) ∧
    (∃ (i : Nat) (p : LongLat),
      (nearest gridDist [(2, 0), (0, 1), (1, 0)] (0, 0) (2, 1)).endIdx = (i : Int) ∧
      [((2 : ℚ), (0 : ℚ)), (0, 1), (1, 0)][i]? = some p ∧
      (nearest gridDist [(2, 0), (0, 1), (1, 0)] (0, 0) (2, 1)).endDist = gridDist p (2, 1) ∧
      (∀ p1 ∈ [((2 : ℚ), (0 : ℚ)), (0, 1), (1, 0)], gridDist p (2, 1) ≤ gridDist p1 (2, 1)) ∧
      (∀ (j : Nat) (p1 : LongLat), [((2 : ℚ), (0 : ℚ)), (0, 1), (1, 0)][j]? = some p1 →
        gridDist p1 (2, 1) = gridDist p (2, 1) → i ≤ j)) :=
  nearest_first_minimum gridDist [(2, 0), (0, 1), (1, 0)] (0, 0) (2, 1) (by simp)
    (by
      intro p hp
      simp only [List.mem_cons, List.mem_singleton, List.not_mem_nil, or_false] at hp
      rcases hp with rfl | rfl | rfl <;> decide!)

theorem nearest_example :
    nearest gridDist [(2, 0), (0, 1), (1, 0)] (0, 0) (2, 1) = ⟨1, 1, 0, 1⟩ := by
  decide!

/-- The function `math.Round` rounds to the nearest integer, halves away from
zero. -/
theorem mathRound_spec (x : ℚ) :
    (∃ n : ℤ, mathRound x = (n : ℚ)) ∧ |mathRound x - x| ≤ 1 / 2 ∧
      (|mathRound x - x| = 1 / 2 → |x| < |mathRound x|) := by
  unfold mathRound
  split
  · rename_i hx
    have e : Rat.floor (-x + 1 / 2) = ⌊-x + 1 / 2⌋ := rfl
    rw [e]
    have h1 := Int.floor_le (-x + 1 / 2)
    have h2 := Int.lt_floor_add_one (-x + 1 / 2)
    refine ⟨⟨-⌊-x + 1 / 2⌋, by push_cast; rfl⟩, abs_le.2 ⟨by linarith, by linarith⟩, ?_⟩
    intro h
    rcases (abs_eq (by norm_num)).1 h with h3 | h3
    · linarith
    · rw [abs_of_neg hx, abs_of_neg (by linarith)]
      linarith
  · rename_i hx
    have hx0 : 0 ≤ x := not_lt.1 hx
    have e : Rat.floor (x + 1 / 2) = ⌊x + 1 / 2⌋ := rfl
    rw [e]
    have h1 := Int.floor_le (x + 1 / 2)
    have h2 := Int.lt_floor_add_one (x + 1 / 2)
    refine ⟨⟨⌊x + 1 / 2⌋, rfl⟩, abs_le.2 ⟨by linarith, by linarith⟩, ?_⟩
    intro h
    rcases (abs_eq (by norm_num)).1 h with h3 | h3
    · rw [abs_of_nonneg hx0, abs_of_pos (by linarith)]
      linarith
    · linarith

/-- Rounding to the nearest integer, a tie to the even one. -/
theorem roundHalfEven_spec (s : ℚ) :
    |((roundHalfEven s : Int) : ℚ) - s| ≤ 1 / 2 ∧
      (|((roundHalfEven s : Int) : ℚ) - s| = 1 / 2 → roundHalfEven s % 2 = 0) := by
  have e : Rat.floor s = ⌊s⌋ := rfl
  have h1 := Int.floor_le s
  have h2 := Int.lt_floor_add_one s
  unfold roundHalfEven
  simp only [e]
  by_cases c1 : s - (⌊s⌋ : ℚ) < 1 / 2
  · rw [if_pos c1]
    refine ⟨abs_le.2 ⟨by linarith, by linarith⟩, fun h => ?_⟩
    rcases (abs_eq (by norm_num)).1 h with h3 | h3 <;> linarith
  · rw [if_neg c1]
    by_cases c2 : 1 / 2 < s - (⌊s⌋ : ℚ)
    · rw [if_pos c2]
      push_cast
      refine ⟨abs_le.2 ⟨by linarith, by linarith⟩, fun h => ?_⟩
      rcases (abs_eq (by norm_num)).1 h with h3 | h3 <;> linarith
    · rw [if_neg c2]
      by_cases c3 : ⌊s⌋ % 2 = 0
      · rw [if_pos c3]
        exact ⟨abs_le.2 ⟨by linarith, by linarith⟩, fun _ => c3⟩
      · rw [if_neg c3]
        push_cast
        exact ⟨abs_le.2 ⟨by linarith, by linarith⟩, fun _ => by omega⟩

theorem pow2_eq_zpow (k : Int) : pow2 k = (2 : ℚ) ^ k := by
  unfold pow2
  split
  · rename_i h
    obtain ⟨n, rfl⟩ := Int.eq_ofNat_of_zero_le h
    simp
  · rename_i h
    obtain ⟨n, hn⟩ := Int.eq_ofNat_of_zero_le (by omega : 0 ≤ -k)
    have hk : k = -(n : Int) := by omega
    subst hk
    simp

theorem log2Aux_spec : ∀ (fuel n : Nat), 0 < n → n ≤ fuel →
    2 ^ log2Aux fuel n ≤ n ∧ n < 2 ^ (log2Aux fuel n + 1) := by
  intro fuel
  induction fuel with
  | zero => intro n h0 h1; omega
  | succ fuel ih =>
    intro n h0 h1
    simp only [log2Aux]
    split
    · rename_i h2
      have : n = 1 := by omega
      subst this
      simp
    · rename_i h2
      obtain ⟨a, b⟩ := ih (n / 2) (by omega) (by omega)
      rw [pow_succ] at b ⊢
      rw [pow_succ]
      constructor <;> omega

theorem ilog2_spec (q : ℚ) (hq : q ≠ 0) :
    (2 : ℚ) ^ ilog2 q ≤ |q| ∧ |q| < (2 : ℚ) ^ (ilog2 q + 1) := by
  have hnum : 0 < q.num.natAbs := Int.natAbs_pos.2 (Rat.num_ne_zero.2 hq)
  have hden : 0 < q.den := q.den_pos
  obtain ⟨a1, a2⟩ := log2Aux_spec q.num.natAbs q.num.natAbs hnum (le_refl _)
  obtain ⟨b1, b2⟩ := log2Aux_spec q.den q.den hden (le_refl _)
  have habs : |q| = (q.num.natAbs : ℚ) / (q.den : ℚ) := by
    conv_lhs => rw [← Rat.num_div_den q]
    rw [abs_div, Nat.abs_cast, Nat.cast_natAbs, Int.cast_abs]
  have hD : (0 : ℚ) < (q.den : ℚ) := by exact_mod_cast hden
  have A1 : ((2 : ℚ) ^ log2Aux q.num.natAbs q.num.natAbs) ≤ (q.num.natAbs : ℚ) := by
    exact_mod_cast a1
  have A2 : (q.num.natAbs : ℚ) < (2 : ℚ) ^ (log2Aux q.num.natAbs q.num.natAbs + 1) := by
    exact_mod_cast a2
  have B1 : ((2 : ℚ) ^ log2Aux q.den q.den) ≤ (q.den : ℚ) := by exact_mod_cast b1
  have B2 : (q.den : ℚ) < (2 : ℚ) ^ (log2Aux q.den q.den + 1) := by exact_mod_cast b2
  unfold ilog2
  simp only
  rw [pow2_eq_zpow]
  generalize log2Aux q.num.natAbs q.num.natAbs = a at *
  generalize log2Aux q.den q.den = b at *
  have h2 : (0 : ℚ) < 2 := by norm_num
  have hlow : (2 : ℚ) ^ ((a : Int) - (b : Int) - 1) ≤ |q| := by
    rw [habs, le_div_iff₀ hD]
    have : (2 : ℚ) ^ ((a : Int) - (b : Int) - 1) * (2 : ℚ) ^ (b + 1) = (2 : ℚ) ^ a := by
      rw [← zpow_natCast, ← zpow_natCast, ← zpow_add₀ (by norm_num)]
      congr 1
      push_cast
      ring
    calc (2 : ℚ) ^ ((a : Int) - (b : Int) - 1) * (q.den : ℚ)
        ≤ (2 : ℚ) ^ ((a : Int) - (b : Int) - 1) * (2 : ℚ) ^ (b + 1) :=
          mul_le_mul_of_nonneg_left B2.le (zpow_nonneg h2.le _)
      _ = (2 : ℚ) ^ a := this
      _ ≤ (q.num.natAbs : ℚ) := A1
  have hup : |q| < (2 : ℚ) ^ ((a : Int) - (b : Int) + 1) := by
    rw [habs, div_lt_iff₀ hD]
    have : (2 : ℚ) ^ ((a : Int) - (b : Int) + 1) * (2 : ℚ) ^ b = (2 : ℚ) ^ (a + 1) := by
      rw [← zpow_natCast, ← zpow_natCast, ← zpow_add₀ (by norm_num)]
      congr 1
      push_cast
      ring
    calc (q.num.natAbs : ℚ) < (2 : ℚ) ^ (a + 1) := A2
      _ = (2 : ℚ) ^ ((a : Int) - (b : Int) + 1) * (2 : ℚ) ^ b := this.symm
      _ ≤ (2 : ℚ) ^ ((a : Int) - (b : Int) + 1) * (q.den : ℚ) :=
          mul_le_mul_of_nonneg_left B1 (zpow_nonneg h2.le _)
  split
  · rename_i h
    exact ⟨h, hup⟩
  · rename_i h
    refine ⟨hlow, ?_⟩
    rw [sub_add_cancel]
    exact not_le.1 h

/-- The value `f64 q` is a multiple of the spacing `2^(max e (-1022) - 52)` of
the `float64` values around `q`, where `2^e ≤ |q| < 2^(e+1)`, and is nearest to
`q` among these multiples, a tie going to the even multiple. -/
theorem f64_spec (q : ℚ) (hq : q ≠ 0) :
    ∃ e n : Int, (2 : ℚ) ^ e ≤ |q| ∧ |q| < (2 : ℚ) ^ (e + 1) ∧
      f64 q = (n : ℚ) * (2 : ℚ) ^ (max e (-1022) - 52) ∧
      |(n : ℚ) - q / (2 : ℚ) ^ (max e (-1022) - 52)| ≤ 1 / 2 ∧
      (|(n : ℚ) - q / (2 : ℚ) ^ (max e (-1022) - 52)| = 1 / 2 → n % 2 = 0) := by
  obtain ⟨h1, h2⟩ := ilog2_spec q hq
  have hr := roundHalfEven_spec (q / pow2 (max (ilog2 q) (-1022) - 52))
  rw [pow2_eq_zpow] at hr
  refine ⟨ilog2 q, roundHalfEven (q / pow2 (max (ilog2 q) (-1022) - 52)), h1, h2, ?_, ?_, ?_⟩
  · unfold f64
    rw [if_neg hq]
    simp only [pow2_eq_zpow]
  · rw [pow2_eq_zpow]; exact hr.1
  · rw [pow2_eq_zpow]; exact hr.2

/-- C10. Quantizer contract: `math.Round` rounds to the nearest integer with
halves away from zero, a `float64` operation rounds its exact result `q`, with
`2^e ≤ |q| < 2^(e+1)`, to the nearest multiple of `2^(max e (-1022) - 52)` with
ties to the even multiple, and `round` maps `(x, y)`
to `(round(x/p)*p, round(y/p)*p)`, the division and the product being the
`float64` operations, as for `x = 0.25`, `p = 0.1`, where the result is
`0.30000000000000004`, and for `x = -84.396865`, `p = 0.00001`, where it is
`-84.39687`; when the precision `p` is not zero, `FindShortestPath` runs its
body on the segments with both endpoints rounded and on the two rounded query
points, so that the graph nodes are the distinct rounded endpoints; when
`p = 0` it runs its body on the segments and query points as supplied, and the
graph nodes are exactly the distinct segment endpoints. -/
theorem FindShortestPath_quantizer (sortFunc : (Path → Path → Bool) → List Path → List Path)
    (calcDist : LongLat → LongLat → ℚ) (fuel : Nat) (paths : List Path)
    (startLongLat endLongLat : LongLat) (precision : ℚ) (hs : IsSortFunc sortFunc) :
    (∀ x : ℚ, (∃ n : ℤ, mathRound x = (n : ℚ)) ∧ |mathRound x - x| ≤ 1 / 2 ∧
      (|mathRound x - x| = 1 / 2 → |x| < |mathRound x|)) ∧
    (∀ q : ℚ, q ≠ 0 →
      ∃ e n : Int, (2 : ℚ) ^ e ≤ |q| ∧ |q| < (2 : ℚ) ^ (e + 1) ∧
        f64 q = (n : ℚ) * (2 : ℚ) ^ (max e (-1022) - 52) ∧
        |(n : ℚ) - q / (2 : ℚ) ^ (max e (-1022) - 52)| ≤ 1 / 2 ∧
        (|(n : ℚ) - q / (2 : ℚ) ^ (max e (-1022) - 52)| = 1 / 2 → n % 2 = 0)) ∧
    (∀ x : LongLat, round precision x =
      (f64 (mathRound (f64 (x.1 / precision)) * precision),
        f64 (mathRound (f64 (x.2 / precision)) * precision))) ∧
    round (3602879701896397 / 36028797018963968) (1 / 4, -1 / 4)
      = (1351079888211149 / 4503599627370496, -1351079888211149 / 4503599627370496) ∧
    round (5902958103587057 / 590295810358705651712)
        (-5938901402581845 / 70368744177664, 2377964498071335 / 70368744177664)
      = (-2969450877212783 / 35184372088832, 297245579851103 / 8796093022208) ∧
    (precision ≠ 0 →
      FindShortestPath sortFunc calcDist fuel paths startLongLat endLongLat precision =
        findFrom sortFunc calcDist fuel
          (paths.map fun seg => (round precision seg.1, round precision seg.2))
          (round precision startLongLat) (round precision endLongLat) ∧
      (nodes sortFunc (paths.map fun seg => (round precision seg.1, round precision seg.2))).Nodup ∧
      ∀ q, q ∈ nodes sortFunc (paths.map fun seg => (round precision seg.1, round precision seg.2))
        ↔ ∃ seg ∈ paths, q = round precision seg.1 ∨ q = round precision seg.2) ∧
    (precision = 0 →
      FindShortestPath sortFunc calcDist fuel paths startLongLat endLongLat precision =
        findFrom sortFunc calcDist fuel paths startLongLat endLongLat ∧
      (nodes sortFunc paths).Nodup ∧
      ∀ q, q ∈ nodes sortFunc paths ↔ ∃ seg ∈ paths, q = seg.1 ∨ q = seg.2) := by
  refine ⟨mathRound_spec, f64_spec, fun _ => rfl, by decide!, by decide!,
    fun hp => ⟨?_, nodes_nodup _ _, fun q => ?_⟩,
    fun hp => ⟨?_, nodes_nodup _ _, fun q => mem_nodes hs paths q⟩⟩
  · unfold FindShortestPath
    rw [if_pos hp]
    rfl
  · rw [mem_nodes hs]
    unfold IsNode
    simp only [List.mem_map, exists_exists_and_eq_and]
  · unfold FindShortestPath
    rw [if_neg (not_not.2 hp)]

theorem FindShortestPath_quantizer_witness :
    FindShortestPath insertionSortLessFunc gridDist 20 [((1 / 4, 0), (3 / 2, 0))]
        (1 / 2, 0) (-1 / 2, 0) 1 =
      findFrom insertionSortLessFunc gridDist 20
        ([(((1 / 4 : ℚ), (0 : ℚ)), ((3 / 2 : ℚ), (0 : ℚ)))].map
          fun seg => (round 1 seg.1, round 1 seg.2))
        (round 1 (1 / 2, 0)) (round 1 (-1 / 2, 0)) :=
  ((FindShortestPath_quantizer insertionSortLessFunc gridDist 20 [((1 / 4, 0), (3 / 2, 0))]
    (1 / 2, 0) (-1 / 2, 0) 1 isSortFunc_insertion).2.2.2.2.2.1 (by norm_num)).1

theorem round_example :
    round 1 (1 / 2, 0) = (1, 0) ∧ round 1 (-1 / 2, 0) = (-1, 0) ∧
      round 1 (1 / 4, 3 / 2) = (0, 2) ∧
      f64 ((1 / 4 : ℚ) / (3602879701896397 / 36028797018963968)) = 5 / 2 ∧
      f64 (3 * (3602879701896397 / 36028797018963968))
        = 1351079888211149 / 4503599627370496 ∧
      f64 (1 / 10) = 3602879701896397 / 36028797018963968 := by
  decide!

end Geopath

namespace Geopath

/-! ## The shape of a returned path, and the graph of two segments in a line -/

theorem gatherLoop_length (points : List LongLat) (parent : List Int) (s : Int) :
    ∀ (fuel : Nat) (i : Int) (acc sp : List LongLat),
      gatherLoop points parent s fuel i acc = Run.done sp →
      (i = s ∧ sp = acc) ∨ acc.length < sp.length := by
  intro fuel
  induction fuel with
  | zero =>
    intro i acc sp h
    rw [gatherLoop_zero] at h
    by_cases hi : i = s
    · rw [if_pos hi] at h
      exact Or.inl ⟨hi, (Run.done.inj h).symm⟩
    · rw [if_neg hi] at h
      exact absurd h (by simp)
  | succ fuel ih =>
    intro i acc sp h
    rw [gatherLoop_step] at h
    by_cases hi : i = s
    · rw [if_pos hi] at h
      exact Or.inl ⟨hi, (Run.done.inj h).symm⟩
    · rw [if_neg hi] at h
      right
      cases hp : getAt points i with
      | none => rw [hp] at h; exact absurd h (by simp)
      | some p =>
        rw [hp] at h
        cases hn : getAt parent i with
        | none => rw [hn] at h; exact absurd h (by simp)
        | some next =>
          rw [hn] at h
          simp only at h
          rcases ih next (acc ++ [p]) sp h with ⟨_, h2⟩ | h2
          · rw [h2]; simp
          · simp only [List.length_append, List.length_singleton] at h2
            omega

/-- A successful call returns at least four coordinates: the two query points
and two different nodes. -/
theorem findFrom_success_length (sortFunc : (Path → Path → Bool) → List Path → List Path)
    (calcDist : LongLat → LongLat → ℚ) (fuel : Nat) (paths : List Path) (qs qe : LongLat)
    (path : List LongLat) (dist : ℚ)
    (h : findFrom sortFunc calcDist fuel paths qs qe = Run.done ⟨path, dist, none⟩) :
    4 ≤ path.length := by
  unfold findFrom at h
  simp only at h
  cases hadj : buildAdj calcDist (nodeIndex sortFunc paths) (nodes sortFunc paths).length
      (segments sortFunc paths) with
  | none => rw [hadj] at h; exact absurd h (by simp)
  | some g =>
    obtain ⟨adj, adjDist⟩ := g
    rw [hadj] at h
    simp only at h
    generalize hnear : nearest calcDist (nodes sortFunc paths) qs qe = near at h
    cases hd : dijkstraLoop adj adjDist near.endIdx fuel [⟨near.startIdx, near.startIdx, 0⟩]
        (List.replicate (nodes sortFunc paths).length maxFloat64)
        ((List.range (nodes sortFunc paths).length).map Int.ofNat) with
    | outOfFuel => rw [hd] at h; exact absurd h (by simp)
    | panic => rw [hd] at h; exact absurd h (by simp)
    | done res =>
      obtain ⟨dists, parent⟩ := res
      rw [hd] at h
      simp only [returnPath] at h
      cases hg : getAt dists near.endIdx with
      | none => rw [hg] at h; exact absurd h (by simp)
      | some de =>
        rw [hg] at h
        simp only at h
        by_cases hde : de = maxFloat64
        · rw [if_pos hde] at h
          exact absurd h (by simp)
        · rw [if_neg hde] at h
          cases hgl : gatherLoop (nodes sortFunc paths) parent near.startIdx fuel near.endIdx
              [qe] with
          | outOfFuel => rw [hgl] at h; exact absurd h (by simp)
          | panic => rw [hgl] at h; exact absurd h (by simp)
          | done sp =>
            rw [hgl] at h
            simp only at h
            cases hps : getAt (nodes sortFunc paths) near.startIdx with
            | none => rw [hps] at h; exact absurd h (by simp)
            | some ps =>
              rw [hps] at h
              simp only [Run.done.injEq, Ret.mk.injEq] at h
              rcases gatherLoop_length _ _ _ _ _ _ _ hgl with ⟨hse, _⟩ | hlen
              · exfalso
                rw [hse] at hd hg
                rcases dijkstraLoop_start_is_end adj adjDist near.startIdx fuel
                    (List.replicate (nodes sortFunc paths).length maxFloat64)
                    ((List.range (nodes sortFunc paths).length).map Int.ofNat)
                    (fun dx h => getAt_replicate _ _ _ _ h) with h1 | h1 | ⟨parent1, h1⟩
                · rw [h1] at hd; exact absurd hd (by simp)
                · rw [h1] at hd; exact absurd hd (by simp)
                · rw [h1] at hd
                  simp only [Run.done.injEq, Prod.mk.injEq] at hd
                  rw [← hd.1] at hg
                  exact hde (getAt_replicate _ _ _ _ hg)
              · rw [← h.1]
                simp only [List.length_reverse, List.length_append, List.length_cons,
                  List.length_nil, List.length_singleton] at hlen ⊢
                omega

theorem backRoute_length {calcDist : LongLat → LongLat → ℚ} {segs : List Path} {w : ℚ}
    (hw : ∀ seg ∈ segs, calcDist seg.1 seg.2 = w) {l : List LongLat} {d : ℚ}
    (h : BackRoute calcDist segs l d) : d = ((l.length : ℚ) - 1) * w := by
  induction h with
  | single p => simp
  | @forward u v r d _ hseg ih =>
    have := hw (u, v) hseg
    simp only at this
    rw [ih, this]
    simp only [List.length_cons]
    push_cast
    ring
  | @backward u v r d _ hseg ih =>
    have := hw (v, u) hseg
    simp only at this
    rw [ih, this]
    simp only [List.length_cons]
    push_cast
    ring

theorem backRoute_adjacent {calcDist : LongLat → LongLat → ℚ} {segs : List Path}
    {u v : LongLat} {r : List LongLat} {d : ℚ}
    (h : BackRoute calcDist segs (v :: u :: r) d) : (u, v) ∈ segs ∨ (v, u) ∈ segs := by
  cases h with
  | forward _ hseg => exact Or.inl hseg
  | backward _ hseg => exact Or.inr hseg

theorem line_nodes {A B C p : LongLat} (h : IsNode [(A, B), (B, C)] p) :
    p = A ∨ p = B ∨ p = C := by
  obtain ⟨seg, hseg, hp⟩ := h
  simp only [List.mem_cons, List.mem_singleton, List.not_mem_nil, or_false] at hseg
  rcases hseg with rfl | rfl
  · rcases hp with rfl | rfl
    · exact Or.inl rfl
    · exact Or.inr (Or.inl rfl)
  · rcases hp with rfl | rfl
    · exact Or.inr (Or.inl rfl)
    · exact Or.inr (Or.inr rfl)

theorem nearest_start_exists (calcDist : LongLat → LongLat → ℚ) (points : List LongLat)
    (qs qe : LongLat) (hex : ∃ p ∈ points, calcDist p qs < maxFloat64) :
    ∃ ps, getAt points (nearest calcDist points qs qe).startIdx = some ps := by
  obtain ⟨k, hk, p, hp, _⟩ := scanGood_found (nearest_good calcDist points qs qe).1 hex
  simp only at hk
  exact ⟨p, by rw [hk, getAt_natCast]; exact hp⟩

theorem nearest_end_exists (calcDist : LongLat → LongLat → ℚ) (points : List LongLat)
    (qs qe : LongLat) (hex : ∃ p ∈ points, calcDist p qe < maxFloat64) :
    ∃ pe, getAt points (nearest calcDist points qs qe).endIdx = some pe := by
  obtain ⟨k, hk, p, hp, _⟩ := scanGood_found (nearest_good calcDist points qs qe).2 hex
  simp only at hk
  exact ⟨p, by rw [hk, getAt_natCast]; exact hp⟩

/-- Two segments `(A, B)` and `(B, C)` of equal length in a line, queried from
`A` to `C`. -/
theorem findFrom_line {sortFunc : (Path → Path → Bool) → List Path → List Path}
    (hs : IsSortFunc sortFunc) {calcDist : LongLat → LongLat → ℚ}
    (hnn : ∀ p q, 0 ≤ calcDist p q) (A B C : LongLat)
    (hAB : A ≠ B) (hBC : B ≠ C) (hAC : A ≠ C)
    (hA0 : calcDist A A = 0) (hC0 : calcDist C C = 0)
    (pBA : 0 < calcDist B A) (pCA : 0 < calcDist C A) (pAC : 0 < calcDist A C)
    (pBC : 0 < calcDist B C) (pAB : 0 < calcDist A B)
    (heq : calcDist B C = calcDist A B) (hsum : 2 * calcDist A B < maxFloat64) :
    ∃ F, ∀ fuel, F ≤ fuel →
      findFrom sortFunc calcDist fuel [(A, B), (B, C)] A C
        = Run.done ⟨[A, A, B, C, C], 2 * calcDist A B, none⟩ := by
  obtain ⟨F, hF⟩ := findFrom_spec hs hnn [(A, B), (B, C)] A C
  have nA : IsNode [(A, B), (B, C)] A := ⟨(A, B), by simp, Or.inl rfl⟩
  have nC : IsNode [(A, B), (B, C)] C := ⟨(B, C), by simp, Or.inr rfl⟩
  have hstart : ∀ ps, getAt (nodes sortFunc [(A, B), (B, C)])
      (nearest calcDist (nodes sortFunc [(A, B), (B, C)]) A C).startIdx = some ps →
      ps = A ∧ (nearest calcDist (nodes sortFunc [(A, B), (B, C)]) A C).startDist = 0 := by
    intro ps hps
    obtain ⟨hd, hnode, hmin⟩ := nearest_start hs calcDist [(A, B), (B, C)] A C hps
    have h1 := hmin A nA
    rw [hA0] at h1
    rcases line_nodes hnode with rfl | rfl | rfl
    · exact ⟨rfl, by rw [hd, hA0]⟩
    · exact absurd h1 (not_le.2 pBA)
    · exact absurd h1 (not_le.2 pCA)
  have hend : ∀ pe, getAt (nodes sortFunc [(A, B), (B, C)])
      (nearest calcDist (nodes sortFunc [(A, B), (B, C)]) A C).endIdx = some pe →
      pe = C ∧ (nearest calcDist (nodes sortFunc [(A, B), (B, C)]) A C).endDist = 0 := by
    intro pe hpe
    obtain ⟨hd, hnode, hmin⟩ := nearest_end hs calcDist [(A, B), (B, C)] A C hpe
    have h1 := hmin C nC
    rw [hC0] at h1
    rcases line_nodes hnode with rfl | rfl | rfl
    · exact absurd h1 (not_le.2 pAC)
    · exact absurd h1 (not_le.2 pBC)
    · exact ⟨rfl, by rw [hd, hC0]⟩
  obtain ⟨ps0, hps0⟩ := nearest_start_exists calcDist (nodes sortFunc [(A, B), (B, C)]) A C
    ⟨A, (mem_nodes hs _ _).2 nA, by rw [hA0]; exact maxFloat64_pos⟩
  obtain ⟨pe0, hpe0⟩ := nearest_end_exists calcDist (nodes sortFunc [(A, B), (B, C)]) A C
    ⟨C, (mem_nodes hs _ _).2 nC, by rw [hC0]; exact maxFloat64_pos⟩
  have hroute : Route calcDist [(A, B), (B, C)] A C (0 + calcDist A B + calcDist B C) :=
    Route.forward (Route.forward (Route.here A) (by simp)) (by simp)
  have hw : ∀ seg ∈ [(A, B), (B, C)], calcDist seg.1 seg.2 = calcDist A B := by
    intro seg hseg
    simp only [List.mem_cons, List.mem_singleton, List.not_mem_nil, or_false] at hseg
    rcases hseg with rfl | rfl
    · rfl
    · exact heq
  refine ⟨F, fun fuel hf => ?_⟩
  have hspec := hF fuel hf
  generalize findFrom sortFunc calcDist fuel [(A, B), (B, C)] A C = r at hspec
  cases hspec with
  | noStart h1 => rw [h1, getAt_neg_one] at hps0; exact absurd hps0 (by simp)
  | noEnd _ h1 => rw [h1, getAt_neg_one] at hpe0; exact absurd hpe0 (by simp)
  | sameNode hps hse =>
    have h1 := (hstart _ hps).1
    rw [← hse] at hps
    have h2 := (hend _ hps).1
    exact absurd (h1.symm.trans h2) hAC
  | noRoute hps hpe _ hall =>
    obtain ⟨rfl, _⟩ := hstart _ hps
    obtain ⟨rfl, _⟩ := hend _ hpe
    have := hall _ hroute
    linarith
  | @found ps pe D lc hps hpe _ _ _ hmin hback hhead hlast =>
    obtain ⟨rfl, hsd⟩ := hstart _ hps
    obtain ⟨rfl, hed⟩ := hend _ hpe
    have hD := hmin _ hroute
    have hlen := backRoute_length hw hback
    rw [hsd, hed]
    match lc, hback, hhead, hlast, hlen with
    | [], _, hhead, _, _ => exact absurd hhead (by simp)
    | [x], _, hhead, hlast, _ =>
      simp only [List.head?_cons, Option.some.injEq, List.getLast?_singleton] at hhead hlast
      exact absurd (hlast.symm.trans hhead) hAC
    | [x, y], hback, hhead, hlast, _ =>
      simp only [List.head?_cons, Option.some.injEq] at hhead
      have hy : y = ps := by simpa using hlast
      subst hhead; subst hy
      rcases backRoute_adjacent hback with h | h
      · simp only [List.mem_cons, Prod.mk.injEq, List.mem_singleton, List.not_mem_nil,
          or_false] at h
        rcases h with ⟨_, h⟩ | ⟨h, _⟩
        · exact absurd h.symm hBC
        · exact absurd h hAB
      · simp only [List.mem_cons, Prod.mk.injEq, List.mem_singleton, List.not_mem_nil,
          or_false] at h
        rcases h with ⟨h, _⟩ | ⟨_, h⟩
        · exact absurd h.symm hAC
        · exact absurd h hAC
    | [x, y, z], hback, hhead, hlast, hlen =>
      simp only [List.head?_cons, Option.some.injEq] at hhead
      have hz : z = ps := by simpa using hlast
      subst hhead; subst hz
      have hyB : y = B := by
        rcases backRoute_adjacent hback with h | h
        · simp only [List.mem_cons, Prod.mk.injEq, List.mem_singleton, List.not_mem_nil,
            or_false] at h
          rcases h with ⟨_, h⟩ | ⟨h, _⟩
          · exact absurd h.symm hBC
          · exact h
        · simp only [List.mem_cons, Prod.mk.injEq, List.mem_singleton, List.not_mem_nil,
            or_false] at h
          rcases h with ⟨h, _⟩ | ⟨h, _⟩
          · exact absurd h.symm hAC
          · exact absurd h.symm hBC
      subst hyB
      simp only [List.length_cons, List.length_nil] at hlen
      have hD2 : D = 2 * calcDist z y := by rw [hlen]; push_cast; ring
      rw [hD2]
      simp
    | x :: y :: z :: t :: rest, _, _, _, hlen =>
      exfalso
      simp only [List.length_cons] at hlen
      push_cast at hlen
      have : 0 ≤ (rest.length : ℚ) := Nat.cast_nonneg _
      nlinarith

/-- C7 (as it fails). On the segment list `[(A,B),(B,C)]` with `A = (0,0)`,
`B = (0,1)`, `C = (0,2)`, start `A`, end `C` and precision 0, the call returns
the five coordinates `[A, A, B, C, C]`, and with no sort function, metric and
fuel does it return the three coordinates `[A, B, C]`. -/
theorem FindShortestPath_line_not_three :
    FindShortestPath insertionSortLessFunc gridDist 20
        [((0, 0), (0, 1)), ((0, 1), (0, 2))] (0, 0) (0, 2) 0
      = Run.done ⟨[(0, 0), (0, 0), (0, 1), (0, 2), (0, 2)], 2, none⟩ ∧
    ¬ ∃ (sortFunc : (Path → Path → Bool) → List Path → List Path)
        (calcDist : LongLat → LongLat → ℚ) (fuel : Nat) (d : ℚ),
      FindShortestPath sortFunc calcDist fuel
        [((0, 0), (0, 1)), ((0, 1), (0, 2))] (0, 0) (0, 2) 0
      = Run.done ⟨[(0, 0), (0, 1), (0, 2)], d, none⟩ := by
  refine ⟨by decide!, ?_⟩
  rintro ⟨sortFunc, calcDist, fuel, d, h⟩
  rw [FindShortestPath_eq] at h
  have := findFrom_success_length _ _ _ _ _ _ _ _ h
  simp at this

/-- C7 (amended). Known small graph: for the segment list `[(A,B),(B,C)]` with
`A = (0,0)`, `B = (0,1)`, `C = (0,2)`, start `A`, end `C` and precision 0, with
a metric that is non-negative, zero from a point to itself, positive between
different nodes, and gives both segments the same length,
`FindShortestPath` succeeds once it has enough fuel, the returned sequence is
exactly `[A, A, B, C, C]` (the start point, the node nearest to it, `B`, the
node nearest to the end point, the end point), and the returned total distance
is 2 times the single-segment distance `calcDist A B`. -/
theorem FindShortestPath_line (sortFunc : (Path → Path → Bool) → List Path → List Path)
    (calcDist : LongLat → LongLat → ℚ)
    (hs : IsSortFunc sortFunc) (hnn : ∀ p q, 0 ≤ calcDist p q)
    (h0 : ∀ p, calcDist p p = 0)
    (hpos : ∀ p q, p ∈ [((0 : ℚ), (0 : ℚ)), (0, 1), (0, 2)] →
      q ∈ [((0 : ℚ), (0 : ℚ)), (0, 1), (0, 2)] → p ≠ q → 0 < calcDist p q)
    (heq : calcDist (0, 1) (0, 2) = calcDist (0, 0) (0, 1))
    (hsum : 2 * calcDist (0, 0) (0, 1) < maxFloat64) :
    ∃ F, ∀ fuel, F ≤ fuel →
      FindShortestPath sortFunc calcDist fuel
        [((0, 0), (0, 1)), ((0, 1), (0, 2))] (0, 0) (0, 2) 0
      = Run.done ⟨[(0, 0), (0, 0), (0, 1), (0, 2), (0, 2)], 2 * calcDist (0, 0) (0, 1), none⟩ := by
  have hAB : (((0 : ℚ), (0 : ℚ)) : LongLat) ≠ (0, 1) := by decide
  have hBC : (((0 : ℚ), (1 : ℚ)) : LongLat) ≠ (0, 2) := by decide
  have hAC : (((0 : ℚ), (0 : ℚ)) : LongLat) ≠ (0, 2) := by decide
  obtain ⟨F, hF⟩ := findFrom_line hs hnn (0, 0) (0, 1) (0, 2) hAB hBC hAC (h0 _) (h0 _)
    (hpos _ _ (by simp) (by simp) hAB.symm) (hpos _ _ (by simp) (by simp) hAC.symm)
    (hpos _ _ (by simp) (by simp) hAC) (hpos _ _ (by simp) (by simp) hBC)
    (hpos _ _ (by simp) (by simp) hAB) heq hsum
  refine ⟨F, fun fuel hf => ?_⟩
  rw [FindShortestPath_eq]
  have e1 : quantizedPaths 0 [(((0 : ℚ), (0 : ℚ)), ((0 : ℚ), (1 : ℚ))), ((0, 1), (0, 2))]
      = [((0, 0), (0, 1)), ((0, 1), (0, 2))] := by simp [quantizedPaths]
  have e2 : ∀ x : LongLat, quantizedPoint 0 x = x := fun x => by simp [quantizedPoint]
  rw [e1, e2, e2]
  exact hF fuel hf

theorem gridDist_self (p : LongLat) : gridDist p p = 0 := by
  simp [gridDist]

theorem gridDist_pos (p q : LongLat) (h : p ≠ q) : 0 < gridDist p q := by
  unfold gridDist
  rcases lt_or_eq_of_le (add_nonneg (abs_nonneg (q.1 - p.1)) (abs_nonneg (q.2 - p.2))) with h1 | h1
  · exact h1
  · exfalso
    have a1 := abs_nonneg (q.1 - p.1)
    have a2 := abs_nonneg (q.2 - p.2)
    have z1 : |q.1 - p.1| = 0 := by linarith
    have z2 : |q.2 - p.2| = 0 := by linarith
    rw [abs_eq_zero, sub_eq_zero] at z1 z2
    exact h (Prod.ext z1.symm z2.symm)

theorem FindShortestPath_line_witness :
    ∃ F, ∀ fuel, F ≤ fuel →
      FindShortestPath insertionSortLessFunc gridDist fuel
        [((0, 0), (0, 1)), ((0, 1), (0, 2))] (0, 0) (0, 2) 0
      = Run.done ⟨[(0, 0), (0, 0), (0, 1), (0, 2), (0, 2)], 2 * gridDist (0, 0) (0, 1), none⟩ :=
  FindShortestPath_line insertionSortLessFunc gridDist isSortFunc_insertion gridDist_nonneg
    gridDist_self (fun p q _ _ h => gridDist_pos p q h) (by decide!) (by decide!)

end Geopath

namespace Geopath

/-! ## Where the code leaves its documented behaviour -/

/-- C2 (as the code fails it). When the two query points are the same point, so
that they have the same nearest node and are joined by the route of zero
segments, `FindShortestPath` does not succeed: on the segment list
`[((0,0),(0,1))]` with start and end `(0,0)` and precision 0 it returns
`ErrNoPath` with the distance `maxFloat64`, and for no sort function, metric,
fuel, segment list, point and precision does a call with equal start and end
return a nil error. -/
theorem FindShortestPath_same_point_fails :
    FindShortestPath insertionSortLessFunc gridDist 8 [((0, 0), (0, 1))] (0, 0) (0, 0) 0
      = Run.done ⟨[], maxFloat64, some GoError.ErrNoPath⟩ ∧
    ∀ (sortFunc : (Path → Path → Bool) → List Path → List Path)
      (calcDist : LongLat → LongLat → ℚ) (fuel : Nat) (paths : List Path) (q : LongLat)
      (precision : ℚ) (path : List LongLat) (dist : ℚ),
      FindShortestPath sortFunc calcDist fuel paths q q precision
        ≠ Run.done ⟨path, dist, none⟩ := by
  refine ⟨by decide!, ?_⟩
  intro sortFunc calcDist fuel paths q precision path dist
  rw [FindShortestPath_eq]
  exact findFrom_same_point _ _ _ _ _ _ _

/-- C4 (as the code fails it). For the empty segment collection and every start
point, end point and precision, `FindShortestPath` does not return `ErrNoPath`:
the scan leaves `startIdx = -1`, and the first iteration of the Dijkstra loop
reads `dists[-1]`, which is a run-time panic (index out of range). -/
theorem FindShortestPath_empty_panics (sortFunc : (Path → Path → Bool) → List Path → List Path)
    (calcDist : LongLat → LongLat → ℚ) (fuel : Nat)
    (startLongLat endLongLat : LongLat) (precision : ℚ) (hs : IsSortFunc sortFunc) :
    FindShortestPath sortFunc calcDist (fuel + 1) [] startLongLat endLongLat precision
      = Run.panic := by
  unfold FindShortestPath
  split <;> simp [roundPaths, findFrom_nil sortFunc hs]

theorem FindShortestPath_empty_panics_witness :
    FindShortestPath insertionSortLessFunc gridDist 1 [] (0, 0) (1, 1) 0 = Run.panic :=
  FindShortestPath_empty_panics insertionSortLessFunc gridDist 0 (0, 0) (1, 1) 0
    isSortFunc_insertion

/-- C5 (as the code fails it). With a non-zero precision the first and last
elements of the returned sequence are the rounded query points, not the points
the caller supplied: on the segment list `[((0,0),(1,0))]` with start
`(1/4, 0)`, end `(1, 0)` and precision 1 the call succeeds and the sequence
starts with `(0, 0)`; and for every successful call the first element is the
start point after the optional rounding and the last element is the end point
after the optional rounding. -/
theorem FindShortestPath_endpoints_rounded :
    FindShortestPath insertionSortLessFunc gridDist 8 [((0, 0), (1, 0))] (1 / 4, 0) (1, 0) 1
      = Run.done ⟨[(0, 0), (0, 0), (1, 0), (1, 0)], 1, none⟩ ∧
    ∀ (sortFunc : (Path → Path → Bool) → List Path → List Path)
      (calcDist : LongLat → LongLat → ℚ) (fuel : Nat) (paths : List Path)
      (startLongLat endLongLat : LongLat) (precision : ℚ) (path : List LongLat) (dist : ℚ),
      IsSortFunc sortFunc → (∀ p q, 0 ≤ calcDist p q) →
      FindShortestPath sortFunc calcDist fuel paths startLongLat endLongLat precision
        = Run.done ⟨path, dist, none⟩ →
      path.head? = some (quantizedPoint precision startLongLat) ∧
      path.getLast? = some (quantizedPoint precision endLongLat) := by
  refine ⟨by decide!, ?_⟩
  intro sortFunc calcDist fuel paths startLongLat endLongLat precision path dist hs hnn hrun
  rw [FindShortestPath_eq] at hrun
  have hspec := findFrom_done hs hnn hrun (by simp)
  cases hspec with
  | found _ _ _ _ _ _ _ _ _ =>
    refine ⟨rfl, ?_⟩
    rw [List.getLast?_append]
    rfl

end Geopath

namespace Geopath

/-! ## The segment slice after sorting and compaction -/

theorem compactFrom_length_le (last : Path) (s : List Path) :
    (compactFrom last s).length ≤ s.length := by
  induction s generalizing last with
  | nil => simp [compactFrom]
  | cons v rest ih =>
    simp only [compactFrom]
    split
    · simp only [List.length_cons]
      exact Nat.succ_le_succ (ih v)
    · exact le_trans (ih last) (Nat.le_succ _)

theorem compactKept_length_le (s : List Path) : (compactKept s).length ≤ s.length := by
  cases s with
  | nil => simp [compactKept]
  | cons first rest =>
    simp only [compactKept, List.length_cons]
    exact Nat.succ_le_succ (compactFrom_length_le first rest)

theorem slicesCompact_length (s : List Path) : (slicesCompact s).length = s.length := by
  unfold slicesCompact
  have := compactKept_length_le s
  simp only [List.length_append, List.length_drop]
  omega

theorem segments_length {sortFunc : (Path → Path → Bool) → List Path → List Path}
    (hs : IsSortFunc sortFunc) (paths : List Path) :
    (segments sortFunc paths).length = paths.length := by
  unfold segments
  rw [slicesCompact_length]
  exact (hs.1 less paths).length_eq

/-- The slice that `slices.Compact` returns has no two equal neighbours. -/
theorem compactFrom_chain (last : Path) (s : List Path) :
    List.Chain (fun a b => a ≠ b) last (compactFrom last s) := by
  induction s generalizing last with
  | nil => simp [compactFrom]
  | cons v rest ih =>
    simp only [compactFrom]
    split
    · rename_i hne
      exact List.Chain.cons (Ne.symm hne) (ih v)
    · exact ih last

theorem compactKept_chain (s : List Path) : List.Chain' (fun a b => a ≠ b) (compactKept s) := by
  cases s with
  | nil => simp [compactKept]
  | cons first rest => exact compactFrom_chain first rest

/-- C11 (as the code fails it). The result of `slices.Compact` is discarded, so
the segment list from which nodes and adjacency are built keeps its duplicates:
on the input `[s, s]` with `s = ((0,0),(0,1))` the list after the "remove
duplicates" step is still `[s, s]`, and the segment contributes two entries to
the adjacency of each of its two nodes; for every input the list keeps its
length, while the slice that `slices.Compact` returns (and the code drops) has
no two equal neighbours. -/
theorem segments_keep_duplicates :
    segments insertionSortLessFunc [((0, 0), (0, 1)), ((0, 0), (0, 1))]
      = [((0, 0), (0, 1)), ((0, 0), (0, 1))] ∧
    buildAdj gridDist (nodeIndex insertionSortLessFunc [((0, 0), (0, 1)), ((0, 0), (0, 1))])
        (nodes insertionSortLessFunc [((0, 0), (0, 1)), ((0, 0), (0, 1))]).length
        (segments insertionSortLessFunc [((0, 0), (0, 1)), ((0, 0), (0, 1))])
      = some ([[1, 1], [0, 0]], [[1, 1], [1, 1]]) ∧
    (∀ (sortFunc : (Path → Path → Bool) → List Path → List Path) (paths : List Path),
      IsSortFunc sortFunc → (segments sortFunc paths).length = paths.length) ∧
    ∀ s : List Path, List.Chain' (fun a b => a ≠ b) (compactKept s) := by
  refine ⟨by decide!, by decide!, fun sortFunc paths hs => segments_length hs paths,
    compactKept_chain⟩

/-- C20. Effect on the caller's segment slice: after the rounding, the sort and
the compaction, which all write to the caller's slice, the slice has the length
it had, and a segment is in it exactly if it is one of the input segments after
the optional rounding (so one of the input segments themselves when the
precision is 0); order and multiplicity are all that can differ. -/
theorem caller_slice_effect (sortFunc : (Path → Path → Bool) → List Path → List Path)
    (paths : List Path) (precision : ℚ) (hs : IsSortFunc sortFunc) :
    (segments sortFunc (quantizedPaths precision paths)).length = paths.length ∧
    (∀ seg, seg ∈ segments sortFunc (quantizedPaths precision paths) ↔
      seg ∈ quantizedPaths precision paths) ∧
    (precision ≠ 0 → quantizedPaths precision paths =
      paths.map fun seg => (round precision seg.1, round precision seg.2)) ∧
    (precision = 0 → quantizedPaths precision paths = paths) := by
  refine ⟨?_, fun seg => mem_segments hs _ seg, fun hp => ?_, fun hp => ?_⟩
  · rw [segments_length hs]
    unfold quantizedPaths roundPaths
    split <;> simp
  · unfold quantizedPaths roundPaths
    rw [if_pos hp]
  · unfold quantizedPaths
    rw [if_neg (not_not.2 hp)]

theorem caller_slice_effect_witness :
    (segments insertionSortLessFunc
      (quantizedPaths 1 [((1 / 4, 0), (3 / 2, 0)), ((0, 0), (2, 0)), ((5, 5), (6, 6))])).length
      = [(((1 / 4 : ℚ), (0 : ℚ)), ((3 / 2 : ℚ), (0 : ℚ))), ((0, 0), (2, 0)),
          ((5, 5), (6, 6))].length :=
  (caller_slice_effect insertionSortLessFunc
    [((1 / 4, 0), (3 / 2, 0)), ((0, 0), (2, 0)), ((5, 5), (6, 6))] 1 isSortFunc_insertion).1

theorem caller_slice_example :
    segments insertionSortLessFunc
      (quantizedPaths 1 [((1 / 4, 0), (3 / 2, 0)), ((5, 5), (6, 6)), ((0, 0), (2, 0))])
      = [((0, 0), (2, 0)), ((5, 5), (6, 6)), ((5, 5), (6, 6))] := by
  decide!

/-! ## Rounding keeps routes -/

theorem route_round {calcDist : LongLat → LongLat → ℚ} {paths : List Path} (precision : ℚ)
    {u v : LongLat} {d : ℚ} (h : Route calcDist paths u v d) :
    ∃ d1, Route calcDist (roundPaths precision paths) (round precision u) (round precision v)
      d1 := by
  induction h with
  | here => exact ⟨0, Route.here _⟩
  | @forward v t d _ hseg ih =>
    obtain ⟨d1, h1⟩ := ih
    exact ⟨_, Route.forward h1 (List.mem_map.2 ⟨(v, t), hseg, rfl⟩)⟩
  | @backward v t d _ hseg ih =>
    obtain ⟨d1, h1⟩ := ih
    exact ⟨_, Route.backward h1 (List.mem_map.2 ⟨(t, v), hseg, rfl⟩)⟩

end Geopath

namespace Geopath

theorem quantizedPaths_zero (paths : List Path) : quantizedPaths 0 paths = paths := by
  simp [quantizedPaths]

theorem quantizedPaths_round {precision : ℚ} (hp : precision ≠ 0) (paths : List Path) :
    quantizedPaths precision paths = roundPaths precision paths := by
  simp [quantizedPaths, hp]

theorem isNode_round {paths : List Path} {u : LongLat} (precision : ℚ) (h : IsNode paths u) :
    IsNode (roundPaths precision paths) (round precision u) := by
  obtain ⟨seg, hseg, hu⟩ := h
  refine ⟨(round precision seg.1, round precision seg.2), List.mem_map.2 ⟨seg, hseg, rfl⟩, ?_⟩
  rcases hu with rfl | rfl
  · exact Or.inl rfl
  · exact Or.inr rfl

/-- C16. Monotonic connectivity with precision: for every segment list and every
precision `p` other than 0, a route between two coordinates in the graph of the
segments as supplied (precision 0) gives a route between their rounded images in
the graph of the rounded segments (precision `p`); and the same holds in the
adjacency structures that the code builds: if following adjacency entries leads
from the node of `u` to the node of `v` in the structure built with precision 0,
then the rounded images of `u` and `v` are nodes of the structure built with
precision `p` and following its entries leads from the one to the other. -/
theorem precision_keeps_connected (sortFunc : (Path → Path → Bool) → List Path → List Path)
    (calcDist : LongLat → LongLat → ℚ) (paths : List Path) (precision : ℚ)
    (hs : IsSortFunc sortFunc) (hp : precision ≠ 0) :
    (∀ (u v : LongLat) (d : ℚ), Route calcDist (quantizedPaths 0 paths) u v d →
      ∃ d1, Route calcDist (quantizedPaths precision paths)
        (round precision u) (round precision v) d1) ∧
    (∀ (adj0 adj1 : List (List Int)) (adjDist0 adjDist1 : List (List ℚ)),
      buildAdj calcDist (nodeIndex sortFunc (quantizedPaths 0 paths))
        (nodes sortFunc (quantizedPaths 0 paths)).length
        (segments sortFunc (quantizedPaths 0 paths)) = some (adj0, adjDist0) →
      buildAdj calcDist (nodeIndex sortFunc (quantizedPaths precision paths))
        (nodes sortFunc (quantizedPaths precision paths)).length
        (segments sortFunc (quantizedPaths precision paths)) = some (adj1, adjDist1) →
      ∀ (i j : Int) (u v : LongLat) (d : ℚ),
        getAt (nodes sortFunc (quantizedPaths 0 paths)) i = some u →
        getAt (nodes sortFunc (quantizedPaths 0 paths)) j = some v →
        Walk adj0 adjDist0 i j d →
        ∃ (i1 j1 : Int) (d1 : ℚ),
          getAt (nodes sortFunc (quantizedPaths precision paths)) i1
            = some (round precision u) ∧
          getAt (nodes sortFunc (quantizedPaths precision paths)) j1
            = some (round precision v) ∧
          Walk adj1 adjDist1 i1 j1 d1) := by
  rw [quantizedPaths_zero, quantizedPaths_round hp]
  refine ⟨fun u v d h => route_round precision h, ?_⟩
  intro adj0 adj1 adjDist0 adjDist1 hb0 hb1 i j u v d hu hv hwalk
  obtain ⟨a0, ad0, e0, B0⟩ := built_of_paths hs calcDist paths
  obtain ⟨a1, ad1, e1, B1⟩ := built_of_paths hs calcDist (roundPaths precision paths)
  rw [hb0] at e0
  rw [hb1] at e1
  simp only [Option.some.injEq, Prod.mk.injEq] at e0 e1
  obtain ⟨rfl, rfl⟩ := e0
  obtain ⟨rfl, rfl⟩ := e1
  obtain ⟨q, hq, hroute⟩ := walk_route B0 hwalk hu
  rw [hv] at hq
  obtain rfl := Option.some.inj hq
  obtain ⟨d1, hr1⟩ := route_round precision hroute
  have hmem : u ∈ nodes sortFunc paths := by
    obtain ⟨k, _, hk⟩ := getAt_eq_some_iff.1 hu
    exact List.getElem?_mem hk
  have hnode := isNode_round precision ((mem_nodes hs paths u).1 hmem)
  have hmem1 := (mem_nodes hs (roundPaths precision paths) _).2 hnode
  obtain ⟨k, hk⟩ := List.mem_iff_getElem?.1 hmem1
  have hi1 : getAt (nodes sortFunc (roundPaths precision paths)) (k : Int)
      = some (round precision u) := by rw [getAt_natCast]; exact hk
  obtain ⟨j1, hj1, hw1⟩ := route_walk B1 hr1 hi1
  exact ⟨k, j1, d1, hi1, hj1, hw1⟩

theorem precision_keeps_connected_witness :
    ∃ d1, Route gridDist (quantizedPaths 1 [((1 / 4, 0), (3 / 2, 0)), ((3 / 2, 0), (3, 3))])
      (round 1 (1 / 4, 0)) (round 1 (3, 3)) d1 :=
  (precision_keeps_connected insertionSortLessFunc gridDist
    [((1 / 4, 0), (3 / 2, 0)), ((3 / 2, 0), (3, 3))] 1 isSortFunc_insertion (by norm_num)).1
    (1 / 4, 0) (3, 3) (0 + gridDist (1 / 4, 0) (3 / 2, 0) + gridDist (3 / 2, 0) (3, 3))
    (by
      rw [quantizedPaths_zero]
      exact Route.forward (Route.forward (Route.here _) (by simp)) (by simp))

/-! ## Node identities -/

theorem addPoints_eq_foldl (segs : List Path) :
    ∀ st, segs.foldl (fun st path => addPoint (addPoint st path.1) path.2) st
      = (endpoints segs).foldl addPoint st := by
  induction segs with
  | nil => intro st; rfl
  | cons seg rest ih =>
    intro st
    simp only [List.foldl_cons, endpoints, List.flatMap_cons, List.foldl_append, List.foldl_nil]
    exact ih _

/-- The order of the node slice while the endpoints `pre` have been met: the
slice holds the coordinates of `pre`, in the order of their first occurrence. -/
theorem addPoint_order {st : List (LongLat × Int) × List LongLat} (hok : PointsOK st)
    {pre : List LongLat} (hmem : ∀ p, p ∈ st.2 ↔ p ∈ pre)
    (hord : ∀ (i j : Nat) (p q : LongLat), st.2[i]? = some p → st.2[j]? = some q → i < j →
      ∃ m : Nat, pre[m]? = some p ∧ ∀ m1 : Nat, m1 ≤ m → pre[m1]? ≠ some q) (a : LongLat) :
    (∀ p, p ∈ (addPoint st a).2 ↔ p ∈ pre ++ [a]) ∧
    ∀ (i j : Nat) (p q : LongLat), (addPoint st a).2[i]? = some p →
      (addPoint st a).2[j]? = some q → i < j →
      ∃ m : Nat, (pre ++ [a])[m]? = some p ∧ ∀ m1 : Nat, m1 ≤ m → (pre ++ [a])[m1]? ≠ some q := by
  have hadd := (addPoint_ok hok a).2
  have hold : ∀ (i j : Nat) (p q : LongLat), st.2[i]? = some p → st.2[j]? = some q → i < j →
      ∃ m : Nat, (pre ++ [a])[m]? = some p ∧
        ∀ m1 : Nat, m1 ≤ m → (pre ++ [a])[m1]? ≠ some q := by
    intro i j p q hi hj hij
    obtain ⟨m, hm, hbefore⟩ := hord i j p q hi hj hij
    have hml : m < pre.length := (List.getElem?_eq_some.1 hm).1
    refine ⟨m, by rw [List.getElem?_append_left hml]; exact hm, fun m1 hm1 => ?_⟩
    rw [List.getElem?_append_left (by omega)]
    exact hbefore m1 hm1
  refine ⟨fun p => ?_, ?_⟩
  · rw [hadd, hmem]
    simp
  · unfold addPoint
    cases hl : st.1.lookup a with
    | some k =>
      simp only
      exact hold
    | none =>
      simp only
      have ha : a ∉ pre := by
        intro hin
        obtain ⟨k, hk⟩ := List.mem_iff_getElem?.1 ((hmem a).2 hin)
        have := (hok.2 a (k : Int)).2 ⟨k, rfl, hk⟩
        rw [hl] at this
        exact absurd this (by simp)
      intro i j p q hi hj hij
      have hjl : j < (st.2 ++ [a]).length := (List.getElem?_eq_some.1 hj).1
      simp only [List.length_append, List.length_singleton] at hjl
      have hil : i < st.2.length := by omega
      rw [List.getElem?_append_left hil] at hi
      by_cases hjl2 : j < st.2.length
      · rw [List.getElem?_append_left hjl2] at hj
        exact hold i j p q hi hj hij
      · have hje : j = st.2.length := by omega
        rw [hje, List.getElem?_append_right (le_refl _)] at hj
        simp only [Nat.sub_self, List.getElem?_cons_zero, Option.some.injEq] at hj
        subst hj
        have hp : p ∈ pre := (hmem p).1 (List.getElem?_mem hi)
        obtain ⟨m, hm⟩ := List.mem_iff_getElem?.1 hp
        have hml : m < pre.length := (List.getElem?_eq_some.1 hm).1
        refine ⟨m, by rw [List.getElem?_append_left hml]; exact hm, fun m1 hm1 hcon => ?_⟩
        rw [List.getElem?_append_left (by omega)] at hcon
        exact ha (List.getElem?_mem hcon)

theorem foldl_addPoint_order (rest : List LongLat) :
    ∀ (st : List (LongLat × Int) × List LongLat) (pre : List LongLat), PointsOK st →
      (∀ p, p ∈ st.2 ↔ p ∈ pre) →
      (∀ (i j : Nat) (p q : LongLat), st.2[i]? = some p → st.2[j]? = some q → i < j →
        ∃ m : Nat, pre[m]? = some p ∧ ∀ m1 : Nat, m1 ≤ m → pre[m1]? ≠ some q) →
      ∀ (i j : Nat) (p q : LongLat), (rest.foldl addPoint st).2[i]? = some p →
        (rest.foldl addPoint st).2[j]? = some q → i < j →
        ∃ m : Nat, (pre ++ rest)[m]? = some p ∧
          ∀ m1 : Nat, m1 ≤ m → (pre ++ rest)[m1]? ≠ some q := by
  induction rest with
  | nil =>
    intro st pre _ _ hord
    simpa using hord
  | cons a rest ih =>
    intro st pre hok hmem hord
    obtain ⟨h1, h2⟩ := addPoint_order hok hmem hord a
    have := ih (addPoint st a) (pre ++ [a]) (addPoint_ok hok a).1 h1 h2
    simpa using this

/-- C12. Node identities: after node assignment over a segment list, `points`
has no repeated coordinate; the map `pointIdx` holds `points[i] -> i` for every
index `i` of `points` and nothing else, so the map and the slice are inverse
bijections between the distinct endpoints and `[0, N)`; every endpoint of every
segment is in `points` and `points` holds endpoints only; and the identities are
in the order of first occurrence in the walk over the segment list, first
endpoint before second: of two nodes the one with the smaller identity occurs
in that walk at a position before which, and at which, the other does not
occur. -/
theorem addPoints_identities (segs : List Path) :
    (addPoints segs).2.Nodup ∧
    (∀ (i : Nat) (p : LongLat), (addPoints segs).2[i]? = some p →
      (addPoints segs).1.lookup p = some (i : Int) ∧ mapGet (addPoints segs).1 p = (i : Int)) ∧
    (∀ (p : LongLat) (i : Int), (addPoints segs).1.lookup p = some i →
      ∃ k : Nat, i = (k : Int) ∧ (addPoints segs).2[k]? = some p) ∧
    (∀ seg ∈ segs, seg.1 ∈ (addPoints segs).2 ∧ seg.2 ∈ (addPoints segs).2) ∧
    (∀ p ∈ (addPoints segs).2, p ∈ endpoints segs) ∧
    (∀ (i j : Nat) (p q : LongLat), (addPoints segs).2[i]? = some p →
      (addPoints segs).2[j]? = some q → i < j →
      ∃ m : Nat, (endpoints segs)[m]? = some p ∧
        ∀ m1 : Nat, m1 ≤ m → (endpoints segs)[m1]? ≠ some q) := by
  obtain ⟨hok, hmem⟩ := addPoints_ok segs
  refine ⟨hok.1, ?_, ?_, ?_, ?_, ?_⟩
  · intro i p hi
    have hl := (hok.2 p (i : Int)).2 ⟨i, rfl, hi⟩
    exact ⟨hl, by simp [mapGet, hl]⟩
  · intro p i hl
    exact (hok.2 p i).1 hl
  · intro seg hseg
    exact ⟨(hmem _).2 ⟨seg, hseg, Or.inl rfl⟩, (hmem _).2 ⟨seg, hseg, Or.inr rfl⟩⟩
  · intro p hp
    obtain ⟨seg, hseg, h⟩ := (hmem p).1 hp
    unfold endpoints
    rw [List.mem_flatMap]
    refine ⟨seg, hseg, ?_⟩
    rcases h with rfl | rfl <;> simp
  · have h0 : PointsOK (([] : List (LongLat × Int)), ([] : List LongLat)) := by
      refine ⟨List.nodup_nil, fun p i => ?_⟩
      simp
    have := foldl_addPoint_order (endpoints segs) ([], []) [] h0 (by simp) (by simp)
    simp only [List.nil_append] at this
    unfold addPoints
    rw [addPoints_eq_foldl]
    exact this

theorem addPoints_example :
    addPoints [((0, 1), (0, 0)), ((0, 0), (0, 2)), ((0, 1), (0, 2))]
      = ([((0, 2), 2), ((0, 0), 1), ((0, 1), 0)], [(0, 1), (0, 0), (0, 2)]) := by
  decide!

end Geopath

namespace Geopath

/-! ## The adjacency of a node as a list of pairs -/

theorem appendAt_row {α : Type} {s s1 : List (List α)} {i : Int} {a : α}
    (h : appendAt s i a = some s1) (u : Int) :
    (getAt s1 u).getD [] = (getAt s u).getD [] ++ (if u = i then [a] else []) := by
  unfold appendAt at h
  cases hrow : getAt s i with
  | none => rw [hrow] at h; exact absurd h (by simp)
  | some row =>
    rw [hrow] at h
    simp only at h
    obtain ⟨_, _, _, hget, hother⟩ := setAt_some h
    by_cases hu : u = i
    · subst hu
      rw [hget, hrow, if_pos rfl]
      rfl
    · rw [hother u hu, if_neg hu, List.append_nil]

theorem adjStep_entries {calcDist : LongLat → LongLat → ℚ} {pointIdx : List (LongLat × Int)}
    {st st1 : List (List Int) × List (List ℚ)} {seg : Path}
    (h : adjStep calcDist pointIdx st seg = some st1)
    (hlen : ∀ u, ((getAt st.1 u).getD []).length = ((getAt st.2 u).getD []).length) :
    (∀ u, ((getAt st1.1 u).getD []).length = ((getAt st1.2 u).getD []).length) ∧
    ∀ u, entries st1.1 st1.2 u = entries st.1 st.2 u ++ segmentEntries calcDist pointIdx u seg := by
  unfold adjStep at h
  simp only at h
  cases h1 : appendAt st.2 (mapGet pointIdx seg.1) (calcDist seg.1 seg.2) with
  | none => rw [h1] at h; exact absurd h (by simp)
  | some adjDist1 =>
    rw [h1] at h
    simp only at h
    cases h2 : appendAt adjDist1 (mapGet pointIdx seg.2) (calcDist seg.1 seg.2) with
    | none => rw [h2] at h; exact absurd h (by simp)
    | some adjDist2 =>
      rw [h2] at h
      simp only at h
      cases h3 : appendAt st.1 (mapGet pointIdx seg.1) (mapGet pointIdx seg.2) with
      | none => rw [h3] at h; exact absurd h (by simp)
      | some adj1 =>
        rw [h3] at h
        simp only at h
        cases h4 : appendAt adj1 (mapGet pointIdx seg.2) (mapGet pointIdx seg.1) with
        | none => rw [h4] at h; exact absurd h (by simp)
        | some adj2 =>
          rw [h4] at h
          simp only [Option.some.injEq] at h
          subst h
          have e1 := appendAt_row h1
          have e2 := appendAt_row h2
          have e3 := appendAt_row h3
          have e4 := appendAt_row h4
          constructor
          · intro u
            simp only [e4 u, e3 u, e2 u, e1 u, List.length_append, hlen u]
            split_ifs <;> simp
          · intro u
            unfold entries segmentEntries
            simp only [e4 u, e3 u, e2 u, e1 u]
            rw [List.append_assoc, List.append_assoc, List.zip_append (hlen u)]
            split_ifs <;> simp

theorem adjLoop_entries {calcDist : LongLat → LongLat → ℚ} {pointIdx : List (LongLat × Int)}
    (segs : List Path) :
    ∀ (st st1 : List (List Int) × List (List ℚ)), adjLoop calcDist pointIdx segs st = some st1 →
      (∀ u, ((getAt st.1 u).getD []).length = ((getAt st.2 u).getD []).length) →
      ∀ u, entries st1.1 st1.2 u
        = entries st.1 st.2 u ++ segs.flatMap (segmentEntries calcDist pointIdx u) := by
  induction segs with
  | nil =>
    intro st st1 h _ u
    simp only [adjLoop, Option.some.injEq] at h
    subst h
    simp
  | cons seg rest ih =>
    intro st st1 h hlen u
    simp only [adjLoop] at h
    cases hstep : adjStep calcDist pointIdx st seg with
    | none => rw [hstep] at h; exact absurd h (by simp)
    | some st2 =>
      rw [hstep] at h
      simp only at h
      obtain ⟨hlen2, hent⟩ := adjStep_entries hstep hlen
      rw [ih st2 st1 h hlen2 u, hent u, List.flatMap_cons, List.append_assoc]

theorem count_ite_singleton (c : Prop) [Decidable c] (y x : Int × ℚ) :
    (if c then [y] else []).count x = if c ∧ y = x then 1 else 0 := by
  by_cases hc : c
  · by_cases hy : y = x
    · simp [hc, hy]
    · simp [hc, hy, List.count_cons]
  · simp [hc]

theorem count_segmentEntries (calcDist : LongLat → LongLat → ℚ)
    (pointIdx : List (LongLat × Int)) (seg : Path) (u v : Int) (w : ℚ) :
    (segmentEntries calcDist pointIdx u seg).count (v, w)
      = (segmentEntries calcDist pointIdx v seg).count (u, w) := by
  unfold segmentEntries
  generalize mapGet pointIdx seg.1 = p1
  generalize mapGet pointIdx seg.2 = p2
  generalize calcDist seg.1 seg.2 = d
  simp only [List.count_append, count_ite_singleton, Prod.mk.injEq]
  have a1 : (u = p2 ∧ p1 = v ∧ d = w) ↔ (v = p1 ∧ p2 = u ∧ d = w) := by
    constructor <;> rintro ⟨h1, h2, h3⟩ <;> exact ⟨h2.symm, h1.symm, h3⟩
  have a2 : (u = p1 ∧ p2 = v ∧ d = w) ↔ (v = p2 ∧ p1 = u ∧ d = w) := by
    constructor <;> rintro ⟨h1, h2, h3⟩ <;> exact ⟨h2.symm, h1.symm, h3⟩
  rw [if_congr a1 rfl rfl, if_congr a2 rfl rfl]
  exact add_comm _ _

theorem count_flatMap_segmentEntries (calcDist : LongLat → LongLat → ℚ)
    (pointIdx : List (LongLat × Int)) (segs : List Path) (u v : Int) (w : ℚ) :
    (segs.flatMap (segmentEntries calcDist pointIdx u)).count (v, w)
      = (segs.flatMap (segmentEntries calcDist pointIdx v)).count (u, w) := by
  induction segs with
  | nil => simp
  | cons seg rest ih =>
    rw [List.flatMap_cons, List.flatMap_cons, List.count_append, List.count_append, ih,
      count_segmentEntries]

/-- C13. Adjacency symmetry: for every segment list the adjacency structure is
built, the adjacency of a node `u`, read as pairs `(node, weight)`, is exactly
what the segments contribute in their order, each segment `(p, q)` giving
`(node q, calcDist p q)` to the node of `p` and `(node p, calcDist p q)` to the
node of `q`; so the number of entries `(v, w)` in the adjacency of `u` equals
the number of entries `(u, w)` in the adjacency of `v`, and an entry from `u` to
`v` with weight `w` comes with an entry from `v` to `u` with weight `w`. -/
theorem buildAdj_symmetric (calcDist : LongLat → LongLat → ℚ) (segs : List Path) :
    ∃ adj adjDist,
      buildAdj calcDist (addPoints segs).1 (addPoints segs).2.length segs = some (adj, adjDist) ∧
      (∀ u, entries adj adjDist u
        = segs.flatMap (segmentEntries calcDist (addPoints segs).1 u)) ∧
      (∀ (u v : Int) (w : ℚ),
        (entries adj adjDist u).count (v, w) = (entries adj adjDist v).count (u, w)) ∧
      (∀ (u v : Int) (w : ℚ), Arc adj adjDist u v w → Arc adj adjDist v u w) := by
  obtain ⟨adj, adjDist, hbuild, _, harc⟩ := buildAdj_spec calcDist segs
  have hent : ∀ u, entries adj adjDist u
      = segs.flatMap (segmentEntries calcDist (addPoints segs).1 u) := by
    intro u
    have h0 : ∀ (α : Type) (n : Nat) (t : Int),
        (getAt (List.replicate n ([] : List α)) t).getD [] = [] := by
      intro α n t
      cases hg : getAt (List.replicate n ([] : List α)) t with
      | none => rfl
      | some r => rw [getAt_replicate _ _ _ _ hg]; rfl
    have := adjLoop_entries segs _ _ hbuild (fun t => by simp only [h0, List.length_nil]) u
    rw [this]
    unfold entries
    simp only [h0, List.zip_nil_left, List.nil_append]
  refine ⟨adj, adjDist, hbuild, hent, fun u v w => ?_, fun u v w h => ?_⟩
  · rw [hent u, hent v]
    exact count_flatMap_segmentEntries _ _ _ _ _ _
  · rw [harc] at h ⊢
    obtain ⟨seg, hseg, h1 | h1⟩ := h
    · exact ⟨seg, hseg, Or.inr ⟨h1.2.1, h1.1, h1.2.2⟩⟩
    · exact ⟨seg, hseg, Or.inl ⟨h1.2.1, h1.1, h1.2.2⟩⟩

theorem buildAdj_example :
    buildAdj gridDist (addPoints [((0, 0), (0, 1)), ((0, 1), (0, 3)), ((0, 0), (0, 0))]).1 3
      [((0, 0), (0, 1)), ((0, 1), (0, 3)), ((0, 0), (0, 0))]
      = some ([[1, 0, 0], [0, 2], [1]], [[1, 0, 0], [1, 2], [2]]) := by
  decide!

end Geopath

namespace Geopath

/-! ## `ParsePaths` -/

theorem parseFeatures_bad (fs : List geoJSONFeature) :
    ∀ (i : Nat) (res : List Path), (∃ f ∈ fs, badFeature f) →
      (parseFeatures i fs res).err ≠ none ∧ (parseFeatures i fs res).paths = [] := by
  induction fs with
  | nil => intro i res h; simp at h
  | cons f rest ih =>
    intro i res h
    simp only [parseFeatures]
    by_cases hf : f.Typ = geoJSONFeatureTypeFeature
    · rw [if_neg (not_not.2 hf)]
      by_cases hg : f.Geom.Typ = geoJSONGeometryTypeLineString
      · rw [if_neg (not_not.2 hg)]
        rcases hc : f.Geom.Coordinates with _ | ⟨c0, _ | ⟨c1, _ | ⟨c2, t⟩⟩⟩
        · simp
        · simp
        · simp only
          obtain ⟨g, hg1, hg2⟩ := h
          rcases List.mem_cons.1 hg1 with rfl | hin
          · rcases hg2 with h1 | ⟨_, h2⟩
            · exact absurd hf h1
            · rw [hc] at h2
              simp at h2
          · exact ih _ _ ⟨g, hin, hg2⟩
        · simp
      · rw [if_pos hg]
        obtain ⟨g, hg1, hg2⟩ := h
        rcases List.mem_cons.1 hg1 with rfl | hin
        · rcases hg2 with h1 | ⟨h2, _⟩
          · exact absurd hf h1
          · exact absurd h2 hg
        · exact ih _ _ ⟨g, hin, hg2⟩
    · rw [if_pos hf]
      simp

theorem parseFeatures_good (fs : List geoJSONFeature) :
    ∀ (i : Nat) (res : List Path), (∀ f ∈ fs, ¬ badFeature f) →
      parseFeatures i fs res = ⟨res ++ (fs.filter isLineString).map lineSegment, none⟩ := by
  induction fs with
  | nil => intro i res _; simp [parseFeatures]
  | cons f rest ih =>
    intro i res h
    have hf0 := h f (List.mem_cons_self _ _)
    have hrest : ∀ g ∈ rest, ¬ badFeature g := fun g hg => h g (List.mem_cons_of_mem _ hg)
    unfold badFeature at hf0
    rw [not_or, not_not, not_and, not_not] at hf0
    obtain ⟨hf, hlen⟩ := hf0
    simp only [parseFeatures]
    rw [if_neg (not_not.2 hf)]
    by_cases hg : f.Geom.Typ = geoJSONGeometryTypeLineString
    · rw [if_neg (not_not.2 hg)]
      have hl := hlen hg
      have hline : isLineString f = true := by simp [isLineString, hg]
      rcases hc : f.Geom.Coordinates with _ | ⟨c0, _ | ⟨c1, _ | ⟨c2, t⟩⟩⟩
      · rw [hc] at hl; simp at hl
      · rw [hc] at hl; simp at hl
      · simp only
        rw [ih _ _ hrest, List.filter_cons_of_pos hline, List.map_cons]
        have : lineSegment f = (c0, c1) := by simp [lineSegment, hc]
        rw [this, List.append_assoc]
        rfl
      · rw [hc] at hl; simp at hl
    · rw [if_pos hg]
      have hline : ¬ (isLineString f = true) := by simp [isLineString, hg]
      rw [ih _ _ hrest, List.filter_cons_of_neg hline]

theorem ParsePaths_bad (data : geoJSON)
    (h : data.Typ ≠ geoJSONTypeFeatureCollection ∨ ∃ f ∈ data.Features, badFeature f) :
    (ParsePaths (Except.ok data)).err ≠ none ∧ (ParsePaths (Except.ok data)).paths = [] := by
  unfold ParsePaths
  simp only
  by_cases hroot : data.Typ = geoJSONTypeFeatureCollection
  · rw [if_neg (not_not.2 hroot)]
    rcases h with h | h
    · exact absurd hroot h
    · exact parseFeatures_bad data.Features 0 [] h
  · rw [if_pos hroot]
    exact ⟨by simp, rfl⟩

theorem ParsePaths_good (data : geoJSON)
    (h : ¬ (data.Typ ≠ geoJSONTypeFeatureCollection ∨ ∃ f ∈ data.Features, badFeature f)) :
    ParsePaths (Except.ok data)
      = ⟨(data.Features.filter isLineString).map lineSegment, none⟩ := by
  rw [not_or, not_not] at h
  obtain ⟨hroot, hbad⟩ := h
  have hgood : ∀ f ∈ data.Features, ¬ badFeature f := fun f hf hb => hbad ⟨f, hf, hb⟩
  unfold ParsePaths
  simp only
  rw [if_neg (not_not.2 hroot), parseFeatures_good data.Features 0 [] hgood]
  rfl

/-- C14. ParsePaths rejection: for every decoded document, `ParsePaths` returns
an error exactly if the root type is not `FeatureCollection`, or some feature
has a type other than `Feature`, or some feature whose geometry type is
`LineString` has a coordinate count other than two; and with an error the
returned segment list is nil. -/
theorem ParsePaths_rejects (data : geoJSON) :
    ((ParsePaths (Except.ok data)).err ≠ none ↔
      (data.Typ ≠ geoJSONTypeFeatureCollection ∨
        ∃ f ∈ data.Features, f.Typ ≠ geoJSONFeatureTypeFeature ∨
          (f.Geom.Typ = geoJSONGeometryTypeLineString ∧ f.Geom.Coordinates.length ≠ 2))) ∧
    ((ParsePaths (Except.ok data)).err ≠ none → (ParsePaths (Except.ok data)).paths = []) := by
  by_cases hbad : data.Typ ≠ geoJSONTypeFeatureCollection ∨ ∃ f ∈ data.Features, badFeature f
  · obtain ⟨h1, h2⟩ := ParsePaths_bad data hbad
    exact ⟨⟨fun _ => hbad, fun _ => h1⟩, fun _ => h2⟩
  · rw [ParsePaths_good data hbad]
    exact ⟨⟨fun h => absurd rfl h, fun h => absurd h hbad⟩, fun h => absurd rfl h⟩

/-- C15. ParsePaths result: for every decoded document on which `ParsePaths`
succeeds, the returned list is, in document order, the pair
`(Coordinates[0], Coordinates[1])` of each feature whose geometry type is
`LineString`, each of which has exactly two coordinates; features of any other
geometry type are skipped, so the length of the result is the number of
`LineString` features. -/
theorem ParsePaths_result (data : geoJSON) (h : (ParsePaths (Except.ok data)).err = none) :
    (ParsePaths (Except.ok data)).paths
      = (data.Features.filter isLineString).map lineSegment ∧
    (∀ f ∈ data.Features, f.Geom.Typ = geoJSONGeometryTypeLineString →
      ∃ c0 c1, f.Geom.Coordinates = [c0, c1] ∧ lineSegment f = (c0, c1)) ∧
    (ParsePaths (Except.ok data)).paths.length = data.Features.countP isLineString := by
  have hno : ¬ (data.Typ ≠ geoJSONTypeFeatureCollection ∨
      ∃ f ∈ data.Features, badFeature f) := fun hb => (ParsePaths_bad data hb).1 h
  have hval := ParsePaths_good data hno
  rw [not_or, not_not] at hno
  obtain ⟨hroot, hbad⟩ := hno
  have hgood : ∀ f ∈ data.Features, ¬ badFeature f := fun f hf hb => hbad ⟨f, hf, hb⟩
  refine ⟨by rw [hval], fun f hf hline => ?_, by rw [hval, List.length_map, List.countP_eq_length_filter]⟩
  have hb := hgood f hf
  unfold badFeature at hb
  rw [not_or, not_not, not_and, not_not] at hb
  have hl := hb.2 hline
  rcases hc : f.Geom.Coordinates with _ | ⟨c0, _ | ⟨c1, _ | ⟨c2, t⟩⟩⟩
  · rw [hc] at hl; simp at hl
  · rw [hc] at hl; simp at hl
  · exact ⟨c0, c1, rfl, by simp [lineSegment, hc]⟩
  · rw [hc] at hl; simp at hl

theorem ParsePaths_result_witness :
    (ParsePaths (Except.ok ⟨"FeatureCollection",
      [⟨"Feature", ⟨[(0, 0), (0, 1)], "LineString"⟩⟩,
       ⟨"Feature", ⟨[(5, 5)], "Point"⟩⟩,
       ⟨"Feature", ⟨[(0, 1), (2, 2)], "LineString"⟩⟩]⟩)).paths.length
      = List.countP isLineString
        [⟨"Feature", ⟨[(0, 0), (0, 1)], "LineString"⟩⟩,
         ⟨"Feature", ⟨[(5, 5)], "Point"⟩⟩,
         ⟨"Feature", ⟨[(0, 1), (2, 2)], "LineString"⟩⟩] :=
  (ParsePaths_result ⟨"FeatureCollection",
      [⟨"Feature", ⟨[(0, 0), (0, 1)], "LineString"⟩⟩,
       ⟨"Feature", ⟨[(5, 5)], "Point"⟩⟩,
       ⟨"Feature", ⟨[(0, 1), (2, 2)], "LineString"⟩⟩]⟩ (by decide)).2.2

theorem ParsePaths_examples :
    ParsePaths (Except.ok ⟨"FeatureCollection",
      [⟨"Feature", ⟨[(0, 0), (0, 1)], "LineString"⟩⟩,
       ⟨"Feature", ⟨[(5, 5)], "Point"⟩⟩,
       ⟨"Feature", ⟨[(0, 1), (2, 2)], "LineString"⟩⟩]⟩)
      = ⟨[((0, 0), (0, 1)), ((0, 1), (2, 2))], none⟩ ∧
    ParsePaths (Except.ok ⟨"FeatureCollection",
      [⟨"Feature", ⟨[(0, 0), (0, 1)], "LineString"⟩⟩,
       ⟨"Feature", ⟨[(0, 1), (2, 2), (3, 3)], "LineString"⟩⟩]⟩)
      = ⟨[], some (ParseError.lineString 1)⟩ ∧
    ParsePaths (Except.ok ⟨"Feature", []⟩) = ⟨[], some (ParseError.invalidRoot "Feature")⟩ := by
  decide

end Geopath

namespace Geopath

/-! ## Index safety -/

theorem heapPop_mem {h h1 : visitHeap} {x : edge} (hp : heapPop h = some (x, h1)) :
    x ∈ h ∧ ∀ y ∈ h1, y ∈ h := by
  have hne : h ≠ [] := by
    intro he
    rw [he, heapPop_nil] at hp
    exact absurd hp (by simp)
  obtain ⟨x1, h2, he, hperm, _⟩ := heapPop_spec h hne
  rw [hp] at he
  simp only [Option.some.injEq, Prod.mk.injEq] at he
  obtain ⟨rfl, rfl⟩ := he
  exact ⟨hperm.mem_iff.2 (List.mem_cons_self _ _),
    fun y hy => hperm.mem_iff.2 (List.mem_cons_of_mem _ hy)⟩

theorem mem_setAt {α : Type} {s s1 : List α} {i : Int} {a : α} (h : setAt s i a = some s1)
    {v : α} (hv : v ∈ s1) : v ∈ s ∨ v = a := by
  obtain ⟨_, _, _, hget, hother⟩ := setAt_some h
  obtain ⟨k, hk⟩ := List.mem_iff_getElem?.1 hv
  by_cases hki : (k : Int) = i
  · right
    rw [← hki, getAt_natCast, hk] at hget
    exact Option.some.inj hget
  · left
    have := hother (k : Int) hki
    rw [getAt_natCast, getAt_natCast, hk] at this
    exact List.getElem?_mem this.symm

theorem inRange_pop {n : Nat} {h h1 : visitHeap} {dists : List ℚ} {parent : List Int} {x : edge}
    (hin : InRange n h dists parent) (hp : heapPop h = some (x, h1)) :
    InRange n h1 dists parent ∧
      (0 ≤ x.efrom ∧ x.efrom < (n : Int)) ∧ (0 ≤ x.eto ∧ x.eto < (n : Int)) := by
  obtain ⟨hx, hsub⟩ := heapPop_mem hp
  obtain ⟨hd, hpl, hpar, hh⟩ := hin
  exact ⟨⟨hd, hpl, hpar, fun y hy => hh y (hsub y hy)⟩, hh x hx⟩

theorem inRange_setParent {n : Nat} {h : visitHeap} {dists : List ℚ} {parent parent1 : List Int}
    {u v : Int} (hin : InRange n h dists parent) (hv : 0 ≤ v ∧ v < (n : Int))
    (hset : setAt parent u v = some parent1) : InRange n h dists parent1 := by
  obtain ⟨hd, hpl, hpar, hh⟩ := hin
  refine ⟨hd, by rw [(setAt_some hset).2.2.1, hpl], fun t ht => ?_, hh⟩
  rcases mem_setAt hset ht with h1 | h1
  · exact hpar t h1
  · rw [h1]; exact hv

theorem relaxLoop_range {adj : List (List Int)} {adjDist : List (List ℚ)} {n : Nat}
    (hg : GraphOK n adj adjDist) {x : edge} (hx : 0 ≤ x.eto ∧ x.eto < (n : Int))
    {row : List Int} {wrow : List ℚ} (hrow : getAt adj x.eto = some row)
    (hwrow : getAt adjDist x.eto = some wrow) {parent : List Int} :
    ∀ (rest : List Int) (i : Nat) (h : visitHeap) (dists : List ℚ), rest = row.drop i →
      InRange n h dists parent →
      ∃ h2 dists2, relaxLoop adjDist x i rest h dists = some (h2, dists2) ∧
        InRange n h2 dists2 parent := by
  intro rest
  induction rest with
  | nil => intro i h dists _ hin; exact ⟨h, dists, by simp [relaxLoop], hin⟩
  | cons nei rest ih =>
    intro i h dists hrest hin
    have hi : i < row.length := by
      by_contra hcon
      rw [List.drop_eq_nil_iff.2 (not_lt.1 hcon)] at hrest
      exact absurd hrest (by simp)
    have hd := List.drop_eq_getElem_cons hi
    rw [hd] at hrest
    simp only [List.cons.injEq] at hrest
    have hnei : row[i]? = some nei := by
      rw [List.getElem?_eq_getElem hi, hrest.1]
    have hlen : row.length = wrow.length := hg.rows _ row wrow hrow hwrow
    obtain ⟨w, hwi⟩ : ∃ w, wrow[i]? = some w := getElem?_exists wrow i (by omega)
    have hnr : 0 ≤ nei ∧ nei < (n : Int) := hg.range _ row nei hrow (List.getElem?_mem hnei)
    obtain ⟨hdl, hpl, hpar, hh⟩ := hin
    obtain ⟨dn, hdn⟩ := getAt_of_range hnr.1 (by rw [hdl]; exact hnr.2 : nei < (dists.length : Int))
    have hbind : (getAt adjDist x.eto).bind (fun row => row[i]?) = some w := by
      rw [hwrow]; exact hwi
    simp only [relaxLoop, hbind, hdn]
    by_cases hge : x.dist + w ≥ dn
    · rw [if_pos hge]
      exact ih (i + 1) h dists hrest.2 ⟨hdl, hpl, hpar, hh⟩
    · rw [if_neg hge]
      obtain ⟨dists1, hset⟩ := setAt_of_range (x.dist + w) hnr.1
        (by rw [hdl]; exact hnr.2 : nei < (dists.length : Int))
      rw [hset]
      simp only
      refine ih (i + 1) _ dists1 hrest.2 ⟨by rw [(setAt_some hset).2.2.1, hdl], hpl, hpar, ?_⟩
      intro y hy
      rcases List.mem_cons.1 ((heapPush_perm h _).mem_iff.1 hy) with rfl | hy1
      · exact ⟨hx, hnr⟩
      · exact hh y hy1

/-- Every state that the loop reaches is in range. -/
theorem reached_inRange {adj : List (List Int)} {adjDist : List (List ℚ)} {n : Nat}
    (hg : GraphOK n adj adjDist) {endIdx : Int} {h0 : visitHeap} {dists0 : List ℚ}
    {parent0 : List Int} (h0in : InRange n h0 dists0 parent0)
    {h : visitHeap} {dists : List ℚ} {parent : List Int}
    (hr : Reached adj adjDist endIdx h0 dists0 parent0 h dists parent) :
    InRange n h dists parent := by
  induction hr with
  | start => exact h0in
  | skip _ hp _ _ ih => exact (inRange_pop ih hp).1
  | relax _ hp _ _ hset _ hrow hrel ih =>
    obtain ⟨hin1, hfrom, hto⟩ := inRange_pop ih hp
    have hin2 := inRange_setParent hin1 hfrom hset
    obtain ⟨wrow, hwrow⟩ := getAt_of_range hto.1
      (by rw [hg.dist_len]; exact hto.2 : _ < (adjDist.length : Int))
    obtain ⟨h3, d3, he, hin3⟩ := relaxLoop_range hg hto hrow hwrow _ 0 _ _ (List.drop_zero _).symm hin2
    rw [hrel] at he
    simp only [Option.some.injEq, Prod.mk.injEq] at he
    obtain ⟨rfl, rfl⟩ := he
    exact hin3

theorem dijkstraLoop_safe {adj : List (List Int)} {adjDist : List (List ℚ)} {n : Nat}
    (hg : GraphOK n adj adjDist) (endIdx : Int) :
    ∀ (fuel : Nat) (h : visitHeap) (dists : List ℚ) (parent : List Int),
      InRange n h dists parent →
      dijkstraLoop adj adjDist endIdx fuel h dists parent ≠ Run.panic ∧
      ∀ d p, dijkstraLoop adj adjDist endIdx fuel h dists parent = Run.done (d, p) →
        InRange n [] d p := by
  intro fuel
  induction fuel with
  | zero => intro h dists parent _; simp [dijkstraLoop]
  | succ fuel ih =>
    intro h dists parent hin
    simp only [dijkstraLoop]
    cases hp : heapPop h with
    | none =>
      simp only
      refine ⟨by simp, fun d p he => ?_⟩
      simp only [Run.done.injEq, Prod.mk.injEq] at he
      obtain ⟨rfl, rfl⟩ := he
      exact ⟨hin.1, hin.2.1, hin.2.2.1, by simp⟩
    | some xh =>
      obtain ⟨x, h1⟩ := xh
      simp only
      obtain ⟨hin1, hfrom, hto⟩ := inRange_pop hin hp
      obtain ⟨dx, hdx⟩ := getAt_of_range hto.1
        (by rw [hin.1]; exact hto.2 : _ < (dists.length : Int))
      rw [hdx]
      simp only
      by_cases hst : x.dist > dx
      · rw [if_pos hst]
        exact ih h1 dists parent hin1
      · rw [if_neg hst]
        obtain ⟨parent1, hset⟩ := setAt_of_range x.efrom hto.1
          (by rw [hin.2.1]; exact hto.2 : _ < (parent.length : Int))
        rw [hset]
        simp only
        have hin2 := inRange_setParent hin1 hfrom hset
        by_cases hend : x.eto = endIdx
        · rw [if_pos hend]
          refine ⟨by simp, fun d p he => ?_⟩
          simp only [Run.done.injEq, Prod.mk.injEq] at he
          obtain ⟨rfl, rfl⟩ := he
          exact ⟨hin2.1, hin2.2.1, hin2.2.2.1, by simp⟩
        · rw [if_neg hend]
          obtain ⟨row, hrow⟩ := getAt_of_range hto.1
            (by rw [hg.adj_len]; exact hto.2 : _ < (adj.length : Int))
          obtain ⟨wrow, hwrow⟩ := getAt_of_range hto.1
            (by rw [hg.dist_len]; exact hto.2 : _ < (adjDist.length : Int))
          obtain ⟨h3, d3, he, hin3⟩ := relaxLoop_range hg hto hrow hwrow _ 0 _ _ (List.drop_zero _).symm hin2
          rw [hrow]
          simp only
          rw [he]
          exact ih h3 d3 parent1 hin3

theorem gatherLoop_safe {points : List LongLat} {parent : List Int} {n : Nat} (s : Int)
    (hpts : points.length = n) (hpl : parent.length = n)
    (hpar : ∀ v ∈ parent, 0 ≤ v ∧ v < (n : Int)) :
    ∀ (fuel : Nat) (i : Int) (acc : List LongLat), 0 ≤ i ∧ i < (n : Int) →
      gatherLoop points parent s fuel i acc ≠ Run.panic := by
  intro fuel
  induction fuel with
  | zero =>
    intro i acc _
    rw [gatherLoop_zero]
    split <;> simp
  | succ fuel ih =>
    intro i acc hi
    rw [gatherLoop_step]
    split
    · simp
    · obtain ⟨p, hp⟩ := getAt_of_range hi.1 (by rw [hpts]; exact hi.2 : i < (points.length : Int))
      obtain ⟨next, hn⟩ := getAt_of_range hi.1
        (by rw [hpl]; exact hi.2 : i < (parent.length : Int))
      rw [hp, hn]
      simp only
      obtain ⟨k, _, hk⟩ := getAt_eq_some_iff.1 hn
      exact ih next _ (hpar next (List.getElem?_mem hk))

theorem returnPath_safe {points : List LongLat} {near : Nearest} {dists : List ℚ}
    {parent : List Int} (qs qe : LongLat) (fuel : Nat)
    (hs : 0 ≤ near.startIdx ∧ near.startIdx < (points.length : Int))
    (he : 0 ≤ near.endIdx ∧ near.endIdx < (points.length : Int))
    (hin : InRange points.length [] dists parent) :
    returnPath points near qs qe fuel dists parent ≠ Run.panic := by
  unfold returnPath
  obtain ⟨de, hde⟩ := getAt_of_range he.1 (by rw [hin.1]; exact he.2 : _ < (dists.length : Int))
  rw [hde]
  simp only
  split
  · simp
  · have hg := gatherLoop_safe near.startIdx rfl hin.2.1 hin.2.2.1 fuel near.endIdx [qe] he
    cases hgl : gatherLoop points parent near.startIdx fuel near.endIdx [qe] with
    | outOfFuel => simp
    | panic => exact absurd hgl hg
    | done sp =>
      obtain ⟨ps, hps⟩ := getAt_of_range hs.1 hs.2
      simp only [hps]
      simp

theorem initial_inRange (n : Nat) {s : Int} (hs : 0 ≤ s ∧ s < (n : Int)) :
    InRange n [⟨s, s, 0⟩] (List.replicate n maxFloat64) ((List.range n).map Int.ofNat) := by
  refine ⟨by simp, by simp, fun v hv => ?_, fun x hx => ?_⟩
  · obtain ⟨k, hk, rfl⟩ := List.mem_map.1 hv
    have := List.mem_range.1 hk
    exact ⟨Int.ofNat_nonneg k, Int.ofNat_lt.2 this⟩
  · rw [List.mem_singleton] at hx
    subst hx
    exact ⟨hs, hs⟩

theorem nearest_in_range {sortFunc : (Path → Path → Bool) → List Path → List Path}
    (hs : IsSortFunc sortFunc) {calcDist : LongLat → LongLat → ℚ} {segs : List Path}
    (hne : segs ≠ []) {qs qe : LongLat}
    (hb : ∀ p, IsNode segs p → calcDist p qs < maxFloat64 ∧ calcDist p qe < maxFloat64) :
    (0 ≤ (nearest calcDist (nodes sortFunc segs) qs qe).startIdx ∧
      (nearest calcDist (nodes sortFunc segs) qs qe).startIdx
        < ((nodes sortFunc segs).length : Int)) ∧
    (0 ≤ (nearest calcDist (nodes sortFunc segs) qs qe).endIdx ∧
      (nearest calcDist (nodes sortFunc segs) qs qe).endIdx
        < ((nodes sortFunc segs).length : Int)) := by
  obtain ⟨⟨ps, hps⟩, ⟨pe, hpe⟩⟩ := nearest_nodes_exist hs hne hb
  exact ⟨getAt_some_range hps, getAt_some_range hpe⟩

/-- C18. Index safety: for every non-empty segment list whose nodes are closer
to the two query points than the sentinel `maxFloat64`, `startIdx` and `endIdx`
lie in `[0, N)`; the adjacency structure is built, `adj` and `adjDist` have `N`
rows, the rows of a node have equal lengths and every entry of `adj` is a node
in `[0, N)`; in every state that Dijkstra's loop reaches, `dists` and `parent`
have `N` entries, every parent pointer is a node and both ends of every
frontier entry are nodes in `[0, N)`; so no index is out of range: whatever the
fuel, the call does not end in a panic. -/
theorem FindShortestPath_index_safe (sortFunc : (Path → Path → Bool) → List Path → List Path)
    (calcDist : LongLat → LongLat → ℚ) (paths : List Path)
    (startLongLat endLongLat : LongLat) (precision : ℚ)
    (hs : IsSortFunc sortFunc) (hne : paths ≠ [])
    (hb : ∀ p, IsNode (quantizedPaths precision paths) p →
      calcDist p (quantizedPoint precision startLongLat) < maxFloat64 ∧
      calcDist p (quantizedPoint precision endLongLat) < maxFloat64) :
    (0 ≤ (nearest calcDist (nodes sortFunc (quantizedPaths precision paths))
        (quantizedPoint precision startLongLat) (quantizedPoint precision endLongLat)).startIdx ∧
      (nearest calcDist (nodes sortFunc (quantizedPaths precision paths))
        (quantizedPoint precision startLongLat) (quantizedPoint precision endLongLat)).startIdx
        < ((nodes sortFunc (quantizedPaths precision paths)).length : Int)) ∧
    (0 ≤ (nearest calcDist (nodes sortFunc (quantizedPaths precision paths))
        (quantizedPoint precision startLongLat) (quantizedPoint precision endLongLat)).endIdx ∧
      (nearest calcDist (nodes sortFunc (quantizedPaths precision paths))
        (quantizedPoint precision startLongLat) (quantizedPoint precision endLongLat)).endIdx
        < ((nodes sortFunc (quantizedPaths precision paths)).length : Int)) ∧
    (∃ adj adjDist,
      buildAdj calcDist (nodeIndex sortFunc (quantizedPaths precision paths))
        (nodes sortFunc (quantizedPaths precision paths)).length
        (segments sortFunc (quantizedPaths precision paths)) = some (adj, adjDist) ∧
      GraphOK (nodes sortFunc (quantizedPaths precision paths)).length adj adjDist ∧
      ∀ (h : visitHeap) (dists : List ℚ) (parent : List Int),
        Reached adj adjDist
          (nearest calcDist (nodes sortFunc (quantizedPaths precision paths))
            (quantizedPoint precision startLongLat) (quantizedPoint precision endLongLat)).endIdx
          [⟨(nearest calcDist (nodes sortFunc (quantizedPaths precision paths))
              (quantizedPoint precision startLongLat)
              (quantizedPoint precision endLongLat)).startIdx,
            (nearest calcDist (nodes sortFunc (quantizedPaths precision paths))
              (quantizedPoint precision startLongLat)
              (quantizedPoint precision endLongLat)).startIdx, 0⟩]
          (List.replicate (nodes sortFunc (quantizedPaths precision paths)).length maxFloat64)
          ((List.range (nodes sortFunc (quantizedPaths precision paths)).length).map Int.ofNat)
          h dists parent →
        InRange (nodes sortFunc (quantizedPaths precision paths)).length h dists parent) ∧
    ∀ fuel, FindShortestPath sortFunc calcDist fuel paths startLongLat endLongLat precision
      ≠ Run.panic := by
  obtain ⟨hsr, her⟩ := nearest_in_range hs (quantizedPaths_ne_nil hne precision) hb
  obtain ⟨adj, adjDist, hbuild, hbuilt⟩ :=
    built_of_paths hs calcDist (quantizedPaths precision paths)
  have hg := hbuilt.gok
  have h0 := initial_inRange (nodes sortFunc (quantizedPaths precision paths)).length hsr
  refine ⟨hsr, her, ⟨adj, adjDist, hbuild, hg, fun h dists parent hr =>
    reached_inRange hg h0 hr⟩, fun fuel => ?_⟩
  rw [FindShortestPath_eq, findFrom_eq hbuild]
  obtain ⟨hnp, hdone⟩ := dijkstraLoop_safe hg
    (nearest calcDist (nodes sortFunc (quantizedPaths precision paths))
      (quantizedPoint precision startLongLat) (quantizedPoint precision endLongLat)).endIdx
    fuel _ _ _ h0
  generalize dijkstraLoop adj adjDist _ fuel _ _ _ = r at hnp hdone
  cases r with
  | outOfFuel => simp
  | panic => exact absurd rfl hnp
  | done res =>
    obtain ⟨d, p⟩ := res
    exact returnPath_safe _ _ fuel hsr her (hdone d p rfl)

theorem FindShortestPath_index_safe_witness :
    FindShortestPath insertionSortLessFunc gridDist 20
      [((0, 0), (0, 1)), ((5, 5), (6, 6))] (0, 0) (6, 6) 0 ≠ Run.panic :=
  (FindShortestPath_index_safe insertionSortLessFunc gridDist
    [((0, 0), (0, 1)), ((5, 5), (6, 6))] (0, 0) (6, 6) 0
    isSortFunc_insertion (by simp)
    (by
      rintro p ⟨seg, hseg, hp⟩
      have hq : quantizedPaths 0 [(((0 : ℚ), (0 : ℚ)), ((0 : ℚ), (1 : ℚ))), ((5, 5), (6, 6))]
          = [((0, 0), (0, 1)), ((5, 5), (6, 6))] := by decide!
      rw [hq] at hseg
      simp only [List.mem_cons, List.mem_singleton, List.not_mem_nil, or_false] at hseg
      rcases hseg with rfl | rfl <;> rcases hp with rfl | rfl <;> decide!)).2.2.2 20

end Geopath

namespace Geopath

/-! ## The reconstruction loop -/

theorem chain_parent {adj : List (List Int)} {adjDist : List (List ℚ)} {parent : List Int}
    {s v : Int} {l : List Int} {d : ℚ} (h : Chain adj adjDist parent s v l d) :
    List.Chain' (fun a b => getAt parent a = some b) l := by
  induction h with
  | base => simp
  | @step v u l d w _ hpar _ hc _ ih =>
    obtain ⟨l1, rfl⟩ := chain_cons hc
    exact List.Chain'.cons hpar ih

theorem chain_head {adj : List (List Int)} {adjDist : List (List ℚ)} {parent : List Int}
    {s v : Int} {l : List Int} {d : ℚ} (h : Chain adj adjDist parent s v l d) :
    l.head? = some v := by
  cases h with
  | base => rfl
  | step _ _ _ _ _ => rfl

theorem nodup_range_length {l : List Int} {n : Nat} (hnd : l.Nodup)
    (hr : ∀ u ∈ l, 0 ≤ u ∧ u < (n : Int)) : l.length ≤ n := by
  have hsub : l.toFinset ⊆ Finset.Ico (0 : Int) (n : Int) := by
    intro u hu
    rw [List.mem_toFinset] at hu
    exact Finset.mem_Ico.2 (hr u hu)
  have hcard := Finset.card_le_card hsub
  rw [List.toFinset_card_of_nodup hnd, Int.card_Ico] at hcard
  simpa using hcard

/-- The loop needs one step for each node of the chain but the last. -/
theorem gatherLoop_chain_tight {adj : List (List Int)} {adjDist : List (List ℚ)}
    {parent : List Int} {points : List LongLat} {s v : Int} {l : List Int} {d : ℚ}
    (h : Chain adj adjDist parent s v l d)
    (hpts : ∀ u ∈ l, ∃ p, getAt points u = some p) :
    ∀ (fuel : Nat), l.length ≤ fuel + 1 → ∀ acc : List LongLat,
      gatherLoop points parent s fuel v acc = Run.done (acc ++ coords points l.dropLast) := by
  induction h with
  | base =>
    intro fuel _ acc
    cases fuel with
    | zero => rw [gatherLoop_zero, if_pos rfl]; simp [coords]
    | succ f => rw [gatherLoop_step, if_pos rfl]; simp [coords]
  | @step v u l d w hvs hpar _ hc _ ih =>
    intro fuel hf acc
    obtain ⟨l1, rfl⟩ := chain_cons hc
    obtain ⟨f, rfl⟩ : ∃ f, fuel = f + 1 := ⟨fuel - 1, by simp at hf; omega⟩
    obtain ⟨p, hp⟩ := hpts v (List.mem_cons_self _ _)
    rw [gatherLoop_step, if_neg hvs]
    simp only [hp, hpar]
    rw [ih (fun t ht => hpts t (List.mem_cons_of_mem _ ht)) f (by simp at hf ⊢; omega)]
    rw [List.dropLast_cons₂, coords_cons hp]
    simp

theorem dijkstraLoop_start_range {adj : List (List Int)} {adjDist : List (List ℚ)} {e s : Int}
    {fuel : Nat} {dists0 : List ℚ} {parent0 : List Int} {res : List ℚ × List Int}
    (h : dijkstraLoop adj adjDist e fuel [⟨s, s, 0⟩] dists0 parent0 = Run.done res) :
    0 ≤ s ∧ s < (dists0.length : Int) := by
  cases fuel with
  | zero => simp [dijkstraLoop] at h
  | succ fuel =>
    simp only [dijkstraLoop, heapPop_singleton] at h
    cases hg : getAt dists0 s with
    | none => rw [hg] at h; simp at h
    | some dx => exact getAt_some_range hg

/-- C19. Reconstruction terminates: with non-negative edge weights, whenever
Dijkstra's loop has ended with `dists[endIdx]` other than the sentinel, the
parent pointers lead from `endIdx` to `startIdx`: there is a list `l` of nodes
that starts with `endIdx`, ends with `startIdx`, has each node followed by its
parent, visits no node twice and so has at most `N` nodes; and the loop
`for i := endIdx; i != startIdx; i = parent[i]` ends within `N - 1` steps,
having appended the coordinates of all nodes of `l` but the last. -/
theorem reconstruction_terminates (sortFunc : (Path → Path → Bool) → List Path → List Path)
    (calcDist : LongLat → LongLat → ℚ) (paths : List Path) (startLongLat endLongLat : LongLat)
    (fuel : Nat) (adj : List (List Int)) (adjDist : List (List ℚ))
    (dists : List ℚ) (parent : List Int) (de : ℚ)
    (hs : IsSortFunc sortFunc) (hnn : ∀ p q, 0 ≤ calcDist p q)
    (hbuild : buildAdj calcDist (nodeIndex sortFunc paths) (nodes sortFunc paths).length
      (segments sortFunc paths) = some (adj, adjDist))
    (hrun : dijkstraLoop adj adjDist
      (nearest calcDist (nodes sortFunc paths) startLongLat endLongLat).endIdx fuel
      [⟨(nearest calcDist (nodes sortFunc paths) startLongLat endLongLat).startIdx,
        (nearest calcDist (nodes sortFunc paths) startLongLat endLongLat).startIdx, 0⟩]
      (List.replicate (nodes sortFunc paths).length maxFloat64)
      ((List.range (nodes sortFunc paths).length).map Int.ofNat) = Run.done (dists, parent))
    (hde : getAt dists (nearest calcDist (nodes sortFunc paths) startLongLat endLongLat).endIdx
      = some de)
    (hlt : de ≠ maxFloat64) :
    ∃ l : List Int,
      l.head? = some (nearest calcDist (nodes sortFunc paths) startLongLat endLongLat).endIdx ∧
      l.getLast? = some (nearest calcDist (nodes sortFunc paths) startLongLat endLongLat).startIdx ∧
      List.Chain' (fun a b => getAt parent a = some b) l ∧
      l.Nodup ∧ l.length ≤ (nodes sortFunc paths).length ∧
      ∀ acc : List LongLat,
        gatherLoop (nodes sortFunc paths) parent
          (nearest calcDist (nodes sortFunc paths) startLongLat endLongLat).startIdx
          ((nodes sortFunc paths).length - 1)
          (nearest calcDist (nodes sortFunc paths) startLongLat endLongLat).endIdx acc
        = Run.done (acc ++ coords (nodes sortFunc paths) l.dropLast) := by
  obtain ⟨a0, ad0, e0, hb⟩ := built_of_paths hs calcDist paths
  rw [hbuild] at e0
  simp only [Option.some.injEq, Prod.mk.injEq] at e0
  obtain ⟨rfl, rfl⟩ := e0
  have hg := hb.gok
  have hw := arc_nonneg hb hnn
  generalize hnear : nearest calcDist (nodes sortFunc paths) startLongLat endLongLat = near
    at hrun hde ⊢
  generalize hn : (nodes sortFunc paths).length = n at hrun hg ⊢
  have hsr := dijkstraLoop_start_range hrun
  rw [List.length_replicate] at hsr
  have hse : near.startIdx ≠ near.endIdx := by
    intro heq
    rw [← heq] at hrun hde
    rcases dijkstraLoop_start_is_end adj adjDist near.startIdx fuel
        (List.replicate n maxFloat64) ((List.range n).map Int.ofNat)
        (fun dx h => getAt_replicate _ _ _ _ h) with h1 | h1 | ⟨parent1, h1⟩
    · rw [h1] at hrun; exact absurd hrun (by simp)
    · rw [h1] at hrun; exact absurd hrun (by simp)
    · rw [h1] at hrun
      simp only [Run.done.injEq, Prod.mk.injEq] at hrun
      rw [← hrun.1] at hde
      exact hlt (getAt_replicate _ _ _ _ hde)
  obtain ⟨d1, p1, hrun1, hpost⟩ := dijkstra_run hg hw hsr.1 hsr.2 hse
    (unsettledDeg adj n ∅ + 2) (le_refl _)
  have hm1 := dijkstraLoop_mono adj adjDist near.endIdx [⟨near.startIdx, near.startIdx, 0⟩]
    (List.replicate n maxFloat64) ((List.range n).map Int.ofNat) fuel
    (by rw [hrun]; simp) (max fuel (unsettledDeg adj n ∅ + 2)) (le_max_left _ _)
  have hm2 := dijkstraLoop_mono adj adjDist near.endIdx [⟨near.startIdx, near.startIdx, 0⟩]
    (List.replicate n maxFloat64) ((List.range n).map Int.ofNat) (unsettledDeg adj n ∅ + 2)
    (by rw [hrun1]; simp) (max fuel (unsettledDeg adj n ∅ + 2)) (le_max_right _ _)
  rw [hm1, hrun, hrun1] at hm2
  simp only [Run.done.injEq, Prod.mk.injEq] at hm2
  obtain ⟨rfl, rfl⟩ := hm2
  obtain ⟨hdl, hpl, hcase⟩ := hpost
  have hdist : distOf dists near.endIdx = de := by
    unfold distOf
    rw [hde]
    rfl
  rcases hcase with ⟨hmax, _⟩ | ⟨_, _, l, hchain⟩
  · rw [hdist] at hmax
    exact absurd hmax hlt
  · have hrange := chain_range hchain hpl hsr
    have hnd := chain_nodup hchain
    have hlen := nodup_range_length hnd hrange
    have hpts : ∀ u ∈ l, ∃ p, getAt (nodes sortFunc paths) u = some p := fun u hu =>
      getAt_of_range (hrange u hu).1 (by rw [hn]; exact (hrange u hu).2)
    refine ⟨l, chain_head hchain, chain_last hchain, chain_parent hchain, hnd, hlen,
      fun acc => ?_⟩
    exact gatherLoop_chain_tight hchain hpts (n - 1) (by omega) acc

theorem reconstruction_terminates_witness :
    ∃ l : List Int, l.head? = some 2 ∧ l.getLast? = some 0 ∧
      List.Chain' (fun a b => getAt [1, 0, 1] a = some b) l ∧ l.Nodup ∧ l.length ≤ 3 :=
  (reconstruction_terminates insertionSortLessFunc gridDist
    [((0, 0), (0, 1)), ((0, 1), (0, 2))] (0, 0) (0, 2) 20
    [[1], [0, 2], [1]] [[1], [1, 1], [1]] [2, 1, 2] [1, 0, 1] 2
    isSortFunc_insertion gridDist_nonneg (by decide!) (by decide!) (by decide!)
    (by decide!)).imp
    (fun l h => ⟨by rw [h.1]; decide!, by rw [h.2.1]; decide!, h.2.2.1, h.2.2.2.1,
      le_trans h.2.2.2.2.1 (by decide!)⟩)

theorem reconstruction_example :
    gatherLoop [(0, 0), (0, 1), (0, 2)] [1, 0, 1] 0 2 2 [(0, 2)]
      = Run.done [(0, 2), (0, 2), (0, 1)] := by
  decide!

end Geopath
